import Mathlib

/-!
# Game of Hex (`src/hex.cpp`): board, win check and Monte Carlo planner

A shallow embedding of `class BoardGraph` of `src/hex.cpp`.

* `std::vector` is a `List`; every `operator[]` of the source is a checked access
  (`vecGet`, `vecSet`) that reports `Err.outOfRange` where the C++ read or write would
  leave the vector, so that "no access is out of range" is a statement about the model.
* `int` values are `Int` (coordinates, which may be negative) or `Nat` (loop counters and
  tallies, which never are); the arithmetic of the source (`x * size + y`, a count of at
  most 10000 trials) is exact for every board whose `size * size` fits an `int`.
* The `char` constants `Blank = '.'`, `Blue = 'X'`, `Red = 'O'` are the three constructors
  of `Cell`: the private `board` never holds another character.
* The member `edges` is only read by `printBoardGraph` and is left out.
* `random_shuffle` is an oracle `shuffle : Nat → List Nat → List Nat` from the trial number
  and the vector to its shuffled content.
-/

namespace Hex

/-! ## Errors and checked vector access -/

/-- The ways a run of the model can fail to give a result: an access outside a vector, a
division by zero, a loop that did not end within its bound. -/
inductive Err where
  | outOfRange
  | divByZero
  | outOfFuel
deriving DecidableEq, Repr

deriving instance DecidableEq for Except

/-- The read `v[i]` of a `std::vector`. -/
def vecGet {α : Type} (v : List α) (i : Int) : Except Err α :=
  if 0 ≤ i then
    match v[i.toNat]? with
    | some a => Except.ok a
    | none => Except.error Err.outOfRange
  else Except.error Err.outOfRange

/-- The write `v[i] = a` of a `std::vector`. -/
def vecSet {α : Type} (v : List α) (i : Int) (a : α) : Except Err (List α) :=
  if 0 ≤ i ∧ i.toNat < v.length then Except.ok (v.set i.toNat a)
  else Except.error Err.outOfRange

/-- The read `b[x][y]` of a `vector<vector<_>>`. -/
def get2 {α : Type} (b : List (List α)) (x y : Int) : Except Err α :=
  match vecGet b x with
  | Except.ok row => vecGet row y
  | Except.error e => Except.error e

/-- The write `b[x][y] = a` of a `vector<vector<_>>`. -/
def set2 {α : Type} (b : List (List α)) (x y : Int) (a : α) : Except Err (List (List α)) :=
  match vecGet b x with
  | Except.ok row =>
    match vecSet row y a with
    | Except.ok row2 => vecSet b x row2
    | Except.error e => Except.error e
  | Except.error e => Except.error e

/-! ## Data model -/

/-- The content of a cell: the constants `Blank`, `Blue`, `Red` of `BoardGraph`. -/
inductive Cell where
  | Blank
  | Blue
  | Red
deriving DecidableEq, Repr

/-- The `enum class player`. -/
inductive player where
  | BLUE
  | RED
deriving DecidableEq, Repr

/-- The members `size` and `board` of `class BoardGraph`. -/
structure BoardGraph where
  size : Nat
  board : List (List Cell)
deriving DecidableEq, Repr

/-- A `vector<vector<_>>` of `n` rows of `n` entries. -/
def Square {α : Type} (n : Nat) (b : List (List α)) : Prop :=
  b.length = n ∧ ∀ row ∈ b, row.length = n

instance {α : Type} (n : Nat) (b : List (List α)) : Decidable (Square n b) := by
  unfold Square; infer_instance

/-- The grid invariant established by the constructor `BoardGraph(int size)`:
`board` is `size` rows of `size` cells. -/
def BoardGraph.WF (g : BoardGraph) : Prop := Square g.size g.board

instance (g : BoardGraph) : Decidable g.WF := by
  unfold BoardGraph.WF; infer_instance

/-- The constructor `BoardGraph(int size)`: every cell `Blank`. -/
def BoardGraph.mk0 (size : Nat) : BoardGraph :=
  { size := size, board := List.replicate size (List.replicate size Cell.Blank) }

/-- The coordinate `(x, y)` lies on a board of dimension `n`. -/
def inBounds (n : Nat) (x y : Int) : Prop :=
  0 ≤ x ∧ x < (n : Int) ∧ 0 ≤ y ∧ y < (n : Int)

instance (n : Nat) (x y : Int) : Decidable (inBounds n x y) := by
  unfold inBounds; infer_instance

/-- The stone that `makeMove` writes for a player. -/
def stoneOf : player → Cell
  | player.BLUE => Cell.Blue
  | player.RED => Cell.Red

/-! ## Grid operations -/

/-- `BoardGraph::ValidMove`: the conjunction is evaluated left to right, the board is read
only for a coordinate that passed the four comparisons. -/
def ValidMove (g : BoardGraph) (x y : Int) : Except Err Bool :=
  if x ≥ 0 ∧ x < (g.size : Int) ∧ y ≥ 0 ∧ y < (g.size : Int) then
    match get2 g.board x y with
    | Except.ok c => Except.ok (decide (c = Cell.Blank))
    | Except.error e => Except.error e
  else Except.ok false

/-- `BoardGraph::makeMove`: the returned flag and the grid after the call. -/
def makeMove (g : BoardGraph) (x y : Int) (p : player) : Except Err (Bool × BoardGraph) :=
  match ValidMove g x y with
  | Except.error e => Except.error e
  | Except.ok false => Except.ok (false, g)
  | Except.ok true =>
    match p with
    | player.BLUE =>
      match set2 g.board x y Cell.Blue with
      | Except.ok b => Except.ok (true, { g with board := b })
      | Except.error e => Except.error e
    | player.RED =>
      match set2 g.board x y Cell.Red with
      | Except.ok b => Except.ok (true, { g with board := b })
      | Except.error e => Except.error e

/-- `BoardGraph::undo`: the returned flag and the grid after the call. -/
def undo (g : BoardGraph) (x y : Int) : Except Err (Bool × BoardGraph) :=
  match ValidMove g x y with
  | Except.error e => Except.error e
  | Except.ok false => Except.ok (false, g)
  | Except.ok true =>
    match set2 g.board x y Cell.Blank with
    | Except.ok b => Except.ok (true, { g with board := b })
    | Except.error e => Except.error e

/-! ## Win check -/

/-- The table `BoardGraph::directions`. -/
def directions : List (Int × Int) :=
  [(-1, 0), (-1, 1), (0, -1), (0, 1), (1, -1), (1, 0)]

/-- The cells that the `for (int n = 0; n < 6; n++)` loop of `win` probes from `top` and that
pass its bounds test: the hex neighbours of `top` on a board of dimension `n`. -/
def neighbours (n : Nat) (top : Int × Int) : List (Int × Int) :=
  (directions.map (fun d => (top.1 + d.1, top.2 + d.2))).filter
    (fun cur => decide (cur.1 ≥ 0 ∧ cur.1 < (n : Int) ∧ cur.2 ≥ 0 ∧ cur.2 < (n : Int)))

/-- `BoardGraph::checkBorders` on the two flags `flags[0]`, `flags[1]`. -/
def checkBorders (g : BoardGraph) (x y : Int) (flags : Bool × Bool) (side : Cell) : Bool × Bool :=
  match side with
  | Cell.Blue =>
    let f1 : Bool × Bool := if y = 0 then (true, flags.2) else flags
    if y = (g.size : Int) - 1 then (f1.1, true) else f1
  | Cell.Red =>
    let f1 : Bool × Bool := if x = 0 then (true, flags.2) else flags
    if x = (g.size : Int) - 1 then (f1.1, true) else f1
  | Cell.Blank => flags

/-- A loop over the elements of a list whose body may fail: the state after the last
iteration, or the first failure. -/
def loopM {σ β : Type} (f : σ → β → Except Err σ) : σ → List β → Except Err σ
  | s, [] => Except.ok s
  | s, b :: bs =>
    match f s b with
    | Except.ok s2 => loopM f s2 bs
    | Except.error e => Except.error e

/-- The body of the `for (int n = 0; n < 6; n++)` loop of `win` for the direction `d`, on
the pair of `visited` and `traces`; the condition is evaluated left to right. -/
def winStep (g : BoardGraph) (side : Cell) (top : Int × Int)
    (st : List (List Bool) × List (Int × Int)) (d : Int × Int) :
    Except Err (List (List Bool) × List (Int × Int)) :=
  let curX := top.1 + d.1
  let curY := top.2 + d.2
  if curX ≥ 0 ∧ curX < (g.size : Int) ∧ curY ≥ 0 ∧ curY < (g.size : Int) then
    match get2 g.board curX curY with
    | Except.error e => Except.error e
    | Except.ok c =>
      if c = side then
        match get2 st.1 curX curY with
        | Except.error e => Except.error e
        | Except.ok v =>
          if v = false then
            match set2 st.1 curX curY true with
            | Except.error e => Except.error e
            | Except.ok vis => Except.ok (vis, st.2 ++ [(curX, curY)])
          else Except.ok st
      else Except.ok st
  else Except.ok st

/-- The `while (!traces.empty())` loop of `win`, with a bound on the number of iterations:
the flags when the queue runs empty, `Err.outOfFuel` when the bound is reached first. -/
def winLoop (g : BoardGraph) (side : Cell) :
    Nat → Bool × Bool → List (List Bool) → List (Int × Int) → Except Err (Bool × Bool)
  | _, flags, _, [] => Except.ok flags
  | 0, _, _, _ :: _ => Except.error Err.outOfFuel
  | fuel + 1, flags, visited, top :: rest =>
    match loopM (winStep g side top) (visited, rest) directions with
    | Except.error e => Except.error e
    | Except.ok st => winLoop g side fuel (checkBorders g top.1 top.2 flags side) st.1 st.2

/-- `BoardGraph::win`. The loop is run for at most `size * size` iterations, which is
enough for it to end (`winLoop_total`). -/
def win (g : BoardGraph) (x y : Int) : Except Err Bool :=
  match get2 g.board x y with
  | Except.error e => Except.error e
  | Except.ok side =>
    match set2 (List.replicate g.size (List.replicate g.size false)) x y true with
    | Except.error e => Except.error e
    | Except.ok visited =>
      match winLoop g side (g.size * g.size) (false, false) visited [(x, y)] with
      | Except.error e => Except.error e
      | Except.ok flags => Except.ok (flags.1 && flags.2)

/-- The cells that the `while (!traces.empty())` loop of `win` takes off `traces`, in
order: the loop of `winLoop` with the dequeued cells recorded in place of the flags. -/
def winTrace (g : BoardGraph) (side : Cell) :
    Nat → List (List Bool) → List (Int × Int) → Except Err (List (Int × Int))
  | _, _, [] => Except.ok []
  | 0, _, _ :: _ => Except.error Err.outOfFuel
  | fuel + 1, visited, top :: rest =>
    match loopM (winStep g side top) (visited, rest) directions with
    | Except.error e => Except.error e
    | Except.ok st =>
      match winTrace g side fuel st.1 st.2 with
      | Except.error e => Except.error e
      | Except.ok tr => Except.ok (top :: tr)

/-! ## Monte Carlo planner -/

/-- The statement `++v[i]`. -/
def vecIncr (v : List Nat) (i : Int) : Except Err (List Nat) :=
  match vecGet v i with
  | Except.error e => Except.error e
  | Except.ok a => vecSet v i (a + 1)

/-- The body of the enumeration loops of `AIalgorithm` at `(x, y)`, on the pair of
`emptySpots` and `emptySpotsCounter`. -/
def enumStep (g : BoardGraph) (x : Nat) (st : List Nat × List Nat) (y : Nat) :
    Except Err (List Nat × List Nat) :=
  match get2 g.board x y with
  | Except.error e => Except.error e
  | Except.ok c =>
    if c = Cell.Blank then
      match vecIncr st.2 ((x * g.size + y : Nat) : Int) with
      | Except.error e => Except.error e
      | Except.ok counter => Except.ok (st.1 ++ [x * g.size + y], counter)
    else Except.ok st

/-- The enumeration loops `for x ... for y ...` of `AIalgorithm`: `emptySpots` and
`emptySpotsCounter` after them. -/
def enumerate (g : BoardGraph) : Except Err (List Nat × List Nat) :=
  loopM (fun st x => loopM (enumStep g x) st (List.range g.size))
    ([], List.replicate (g.size * g.size) 0) (List.range g.size)

/-- The statement `turn = !turn` on an `int`. -/
def flipTurn (turn : Nat) : Nat := if turn = 0 then 1 else 0

/-- Integer division, undefined for a zero divisor. -/
def idiv (a b : Nat) : Except Err Nat :=
  if b = 0 then Except.error Err.divByZero else Except.ok (a / b)

/-- Integer remainder, undefined for a zero divisor. -/
def imod (a b : Nat) : Except Err Nat :=
  if b = 0 then Except.error Err.divByZero else Except.ok (a % b)

/-- The `while (emptySpots.size())` loop of `AIalgorithm`. The loop reads the last element
and pops it, so it walks the vector from its end: the argument is the reversed vector.
The state is the grid and `turn`; the flag returned by `makeMove` is dropped. -/
def fillLoop : BoardGraph → Nat → List Nat → Except Err (BoardGraph × Nat)
  | g, turn, [] => Except.ok (g, turn)
  | g, turn, lastElement :: rest =>
    match idiv lastElement g.size, imod lastElement g.size with
    | Except.ok r, Except.ok c =>
      match makeMove g (r : Int) (c : Int)
          (if flipTurn turn = 1 then player.BLUE else player.RED) with
      | Except.error e => Except.error e
      | Except.ok res => fillLoop res.2 (flipTurn turn) rest
    | Except.error e, _ => Except.error e
    | _, Except.error e => Except.error e

/-- The variables of `AIalgorithm` that live across trials, with the member `board`. -/
structure TrialState where
  board : List (List Cell)
  turn : Nat
  bestMoves : List Nat
  wins : Nat
deriving DecidableEq, Repr

/-- The body of the tallying loops of a trial at `(x, y)`, on the pair of `bestMoves` and
`wins`; the condition is evaluated left to right. -/
def tallyStep (g : BoardGraph) (counter : List Nat) (x : Nat) (st : List Nat × Nat) (y : Nat) :
    Except Err (List Nat × Nat) :=
  match get2 g.board x y with
  | Except.error e => Except.error e
  | Except.ok c =>
    if c = Cell.Blue then
      match win g x y with
      | Except.error e => Except.error e
      | Except.ok w =>
        if w = true then
          match vecGet counter ((x * g.size + y : Nat) : Int) with
          | Except.error e => Except.error e
          | Except.ok k =>
            if k = 1 then
              match vecIncr st.1 ((x * g.size + y : Nat) : Int) with
              | Except.error e => Except.error e
              | Except.ok best => Except.ok (best, st.2 + 1)
            else Except.ok st
        else Except.ok st
    else Except.ok st

/-- The tallying loops `for x ... for y ...` of a trial on the filled grid `g`. -/
def tallyLoop (g : BoardGraph) (counter : List Nat) (st : List Nat × Nat) :
    Except Err (List Nat × Nat) :=
  loopM (fun st x => loopM (tallyStep g counter x) st (List.range g.size)) st
    (List.range g.size)

/-- One pass of the `for (int trials = 0; ...)` loop of `AIalgorithm`: the board is reset to
`testboard`, the shuffled `emptySpots` are filled, the wins are tallied. -/
def trial (size : Nat) (testboard : List (List Cell)) (emptySpotsCopy counter : List Nat)
    (shuffle : Nat → List Nat → List Nat) (trials : Nat) (s : TrialState) :
    Except Err TrialState :=
  match fillLoop { size := size, board := testboard } s.turn
      (shuffle trials emptySpotsCopy).reverse with
  | Except.error e => Except.error e
  | Except.ok filled =>
    match tallyLoop filled.1 counter (s.bestMoves, s.wins) with
    | Except.error e => Except.error e
    | Except.ok t =>
      Except.ok { board := filled.1.board, turn := filled.2, bestMoves := t.1, wins := t.2 }

/-- The loop `for (int trials = 0; trials < n; ++trials)` of `AIalgorithm`: the state after
`n` passes. -/
def runTrials (size : Nat) (testboard : List (List Cell)) (emptySpotsCopy counter : List Nat)
    (shuffle : Nat → List Nat → List Nat) (init : TrialState) (n : Nat) :
    Except Err TrialState :=
  loopM (fun s trials => trial size testboard emptySpotsCopy counter shuffle trials s) init
    (List.range n)

/-- The scan of `std::max_element` after its first element: `largest` is the position of
the running maximum `best`, `i` the position of the head of the rest. -/
def maxElementFrom : Nat → Nat → Nat → List Nat → Nat
  | largest, _, _, [] => largest
  | largest, best, i, a :: rest =>
    if best < a then maxElementFrom i a (i + 1) rest
    else maxElementFrom largest best (i + 1) rest

/-- The call `max_element(v.begin(), v.end())` as a distance from `v.begin()`: the position
of the first largest element, the end position `0` of an empty vector. -/
def max_element (v : List Nat) : Nat :=
  match v with
  | [] => 0
  | a :: rest => maxElementFrom 0 a 1 rest

/-- The number of passes of the trial loop of `AIalgorithm`. -/
def trialCount : Nat := 10000

/-- The statements of `AIalgorithm` after the trial loop, on `bestMoves` and
`emptySpotsCopy`. -/
def selectMove (size : Nat) (bestMoves emptySpotsCopy : List Nat) : Except Err (Int × Int) :=
  let dist := max_element bestMoves
  match idiv dist size, imod dist size with
  | Except.ok row, Except.ok col =>
    match vecGet bestMoves (dist : Int) with
    | Except.error e => Except.error e
    | Except.ok m =>
      if m = 0 then
        match vecGet emptySpotsCopy 0 with
        | Except.error e => Except.error e
        | Except.ok first =>
          match idiv first size, imod first size with
          | Except.ok row2, Except.ok col2 => Except.ok ((row2 : Int), (col2 : Int))
          | Except.error e, _ => Except.error e
          | _, Except.error e => Except.error e
      else Except.ok ((row : Int), (col : Int))
  | Except.error e, _ => Except.error e
  | _, Except.error e => Except.error e

/-- The state of the trial loop of `AIalgorithm` after `n` passes, from the grid it is
called on. -/
def trialsOf (g : BoardGraph) (shuffle : Nat → List Nat → List Nat) (n : Nat) :
    Except Err TrialState :=
  match enumerate g with
  | Except.error e => Except.error e
  | Except.ok en =>
    runTrials g.size g.board en.1 en.2 shuffle
      { board := g.board, turn := 0, bestMoves := List.replicate (g.size * g.size) 0, wins := 0 }
      n

/-- `BoardGraph::AIalgorithm`: the returned pair and the grid after the call. -/
def AIalgorithm (g : BoardGraph) (shuffle : Nat → List Nat → List Nat) :
    Except Err ((Int × Int) × BoardGraph) :=
  match enumerate g with
  | Except.error e => Except.error e
  | Except.ok en =>
    match runTrials g.size g.board en.1 en.2 shuffle
        { board := g.board, turn := 0, bestMoves := List.replicate (g.size * g.size) 0,
          wins := 0 } trialCount with
    | Except.error e => Except.error e
    | Except.ok s =>
      match selectMove g.size s.bestMoves en.1 with
      | Except.error e => Except.error e
      | Except.ok move => Except.ok (move, { g with board := s.board })

/-! ## Vocabulary of the properties -/

/-- The cell `p` is marked in `visited`. -/
def visitedAt (vis : List (List Bool)) (p : Int × Int) : Prop :=
  get2 vis p.1 p.2 = Except.ok true

instance (vis : List (List Bool)) (p : Int × Int) : Decidable (visitedAt vis p) := by
  unfold visitedAt; infer_instance

/-- One step of a chain of colour `side`: `q` is a hex neighbour of `p` and holds `side`. -/
def link (g : BoardGraph) (side : Cell) (p q : Int × Int) : Prop :=
  q ∈ neighbours g.size p ∧ get2 g.board q.1 q.2 = Except.ok side

/-- The cell `q` is reachable from `p` through a chain of hex-adjacent cells of colour
`side`. -/
def connected (g : BoardGraph) (side : Cell) (p q : Int × Int) : Prop :=
  Relation.ReflTransGen (link g side) p q

/-- The first edge of a colour: column 0 for Blue, row 0 for Red. -/
def onFirstEdge (side : Cell) (p : Int × Int) : Prop :=
  (side = Cell.Blue ∧ p.2 = 0) ∨ (side = Cell.Red ∧ p.1 = 0)

/-- The second edge of a colour on a board of dimension `n`: column `n - 1` for Blue, row
`n - 1` for Red. -/
def onSecondEdge (n : Nat) (side : Cell) (p : Int × Int) : Prop :=
  (side = Cell.Blue ∧ p.2 = (n : Int) - 1) ∨ (side = Cell.Red ∧ p.1 = (n : Int) - 1)

instance (side : Cell) (p : Int × Int) : Decidable (onFirstEdge side p) := by
  unfold onFirstEdge; infer_instance

instance (n : Nat) (side : Cell) (p : Int × Int) : Decidable (onSecondEdge n side p) := by
  unfold onSecondEdge; infer_instance

/-- The coordinates of a board of dimension `n`. -/
def boardCells (n : Nat) : Finset (Int × Int) :=
  Finset.Ico (0 : Int) (n : Int) ×ˢ Finset.Ico (0 : Int) (n : Int)

/-- The coordinates of the board not yet marked in `visited`. -/
def unvisited (n : Nat) (vis : List (List Bool)) : Finset (Int × Int) :=
  (boardCells n).filter (fun p => ¬ visitedAt vis p)

/-- The cell of row-major index `i` (row `i / size`, column `i % size`) is `Blank` in `g`. -/
def blankAt (g : BoardGraph) (i : Nat) : Prop :=
  get2 g.board ((i / g.size : Nat) : Int) ((i % g.size : Nat) : Int) = Except.ok Cell.Blank

instance (g : BoardGraph) (i : Nat) : Decidable (blankAt g i) := by
  unfold blankAt; infer_instance

/-- The condition under which the tallying loops of a trial count the cell `(x, y)` of the
filled grid `g`: it is Blue, `win(x, y)` holds and its occupancy counter is `1`. -/
def wonAt (g : BoardGraph) (counter : List Nat) (x y : Nat) : Prop :=
  get2 g.board (x : Int) (y : Int) = Except.ok Cell.Blue ∧
    win g (x : Int) (y : Int) = Except.ok true ∧
    vecGet counter ((x * g.size + y : Nat) : Int) = Except.ok 1

instance (g : BoardGraph) (counter : List Nat) (x y : Nat) : Decidable (wonAt g counter x y) := by
  unfold wonAt; infer_instance

/-- Trial `t` of `AIalgorithm` on `g` counts the cell `(x, y)`: on the grid as filled by
trial `t` the cell is Blue and `win(x, y)` is true, and the cell is `Blank` in `g`. -/
def wonTrial (g : BoardGraph) (shuffle : Nat → List Nat → List Nat) (t x y : Nat) : Bool :=
  match trialsOf g shuffle (t + 1) with
  | Except.ok s =>
    decide (get2 s.board (x : Int) (y : Int) = Except.ok Cell.Blue ∧
      win { size := g.size, board := s.board } (x : Int) (y : Int) = Except.ok true ∧
      get2 g.board (x : Int) (y : Int) = Except.ok Cell.Blank)
  | Except.error _ => false

/-- The number of trials of `AIalgorithm` on `g` that count the cell `(x, y)`. -/
def tally (g : BoardGraph) (shuffle : Nat → List Nat → List Nat) (x y : Nat) : Nat :=
  ((List.range trialCount).filter (fun t => wonTrial g shuffle t x y)).length

/-- The row-major indices of the `Blank` cells of `g`, in increasing order. -/
def emptyIndices (g : BoardGraph) : List Nat :=
  (List.range (g.size * g.size)).filter (fun i => decide (blankAt g i))

/-- Whether an edge joins a cell labelled `0` and a cell labelled `1`, as an element of
`ZMod 2`: the count of such edges is taken modulo two. -/
def abEdge (u v : Fin 3) : ZMod 2 :=
  if (u = 0 ∧ v = 1) ∨ (u = 1 ∧ v = 0) then 1 else 0

/-- The label of the cell `(i, j)` of the N×N board framed by one more row and column on
each side (`i`, `j` from `0` to `N + 1`): `0` on the left frame, `1` on the top frame, `2`
on the right and bottom frames; inside, `0` where `a` holds, else `1` where `b` holds,
else `2`. -/
def hexLabel (N i j : Nat) (a b : Bool) : Fin 3 :=
  if j = 0 then 0 else if i = 0 then 1 else if j = N + 1 then 2 else if i = N + 1 then 2
  else if a = true then 0 else if b = true then 1 else 2

/-- Blue for Red and Red for Blue. -/
def swapColour : Cell → Cell
  | Cell.Blue => Cell.Red
  | Cell.Red => Cell.Blue
  | Cell.Blank => Cell.Blank

/-- The grid `g` transposed, with Blue and Red swapped: its cell `(i, j)` is the cell
`(j, i)` of `g` in the other colour. -/
def transposeSwap (g : BoardGraph) : BoardGraph :=
  { size := g.size,
    board := (List.range g.size).map (fun (i : Nat) => (List.range g.size).map (fun (j : Nat) =>
      match get2 g.board (j : Int) (i : Int) with
      | Except.ok c => swapColour c
      | Except.error _ => Cell.Blank)) }

/-! ## Checked access on square vectors -/

theorem vecGet_of_lt {α : Type} (v : List α) (i : Int) (h0 : 0 ≤ i) (h1 : i.toNat < v.length) :
    vecGet v i = Except.ok (v.get ⟨i.toNat, h1⟩) := by
  unfold vecGet
  rw [if_pos h0, List.getElem?_eq_getElem h1]
  rfl

theorem vecGet_ok {α : Type} {v : List α} {i : Int} {a : α} (h : vecGet v i = Except.ok a) :
    0 ≤ i ∧ v[i.toNat]? = some a := by
  unfold vecGet at h
  split at h
  · rename_i h0
    split at h
    · rename_i b hb
      cases h
      exact ⟨h0, hb⟩
    · cases h
  · cases h

theorem vecGet_eq_ok_iff {α : Type} (v : List α) (i : Int) (a : α) :
    vecGet v i = Except.ok a ↔ 0 ≤ i ∧ v[i.toNat]? = some a := by
  constructor
  · exact vecGet_ok
  · rintro ⟨h0, h1⟩
    unfold vecGet
    rw [if_pos h0, h1]

theorem toNat_lt_of_lt {i : Int} {n : Nat} (h0 : 0 ≤ i) (h1 : i < (n : Int)) : i.toNat < n := by
  omega

theorem Square.row_length {α : Type} {n : Nat} {b : List (List α)} (hb : Square n b)
    {i : Nat} (hi : i < b.length) : (b.get ⟨i, hi⟩).length = n :=
  hb.2 _ (List.get_mem b i hi)

/-- On a square vector every in-bounds read succeeds. -/
theorem get2_total {α : Type} {n : Nat} {b : List (List α)} (hb : Square n b) {x y : Int}
    (h : inBounds n x y) : ∃ a, get2 b x y = Except.ok a := by
  obtain ⟨hx0, hx1, hy0, hy1⟩ := h
  have hxl : x.toNat < b.length := by rw [hb.1]; omega
  have hyl : y.toNat < (b.get ⟨x.toNat, hxl⟩).length := by rw [hb.row_length]; omega
  refine ⟨(b.get ⟨x.toNat, hxl⟩).get ⟨y.toNat, hyl⟩, ?_⟩
  unfold get2
  rw [vecGet_of_lt b x hx0 hxl]
  exact vecGet_of_lt _ y hy0 hyl

theorem vecGet_neg {α : Type} (v : List α) {i : Int} (h : i < 0) :
    vecGet v i = Except.error Err.outOfRange := by
  unfold vecGet
  rw [if_neg (by omega)]

theorem vecGet_set_ne {α : Type} (v : List α) (i j : Int) (a : α) (hi : 0 ≤ i) (hij : j ≠ i) :
    vecGet (v.set i.toNat a) j = vecGet v j := by
  by_cases hj : 0 ≤ j
  · unfold vecGet
    rw [if_pos hj, if_pos hj, List.getElem?_set_ne (by omega)]
  · rw [vecGet_neg _ (by omega), vecGet_neg _ (by omega)]

theorem vecGet_set_eq {α : Type} (v : List α) (i : Int) (a : α) (hi : 0 ≤ i)
    (hl : i.toNat < v.length) : vecGet (v.set i.toNat a) i = Except.ok a := by
  unfold vecGet
  rw [if_pos hi, List.getElem?_set_self hl]

/-- What an in-bounds write to a square vector gives. -/
theorem set2_spec {α : Type} {n : Nat} {b : List (List α)} (hb : Square n b) {x y : Int}
    (h : inBounds n x y) (a : α) :
    ∃ b2, set2 b x y a = Except.ok b2 ∧ Square n b2 ∧ get2 b2 x y = Except.ok a ∧
      ∀ x2 y2 : Int, (x2, y2) ≠ (x, y) → get2 b2 x2 y2 = get2 b x2 y2 := by
  obtain ⟨hx0, hx1, hy0, hy1⟩ := h
  have hxl : x.toNat < b.length := by rw [hb.1]; omega
  have hrow : (b.get ⟨x.toNat, hxl⟩).length = n := hb.row_length hxl
  have hyl : y.toNat < (b.get ⟨x.toNat, hxl⟩).length := by rw [hrow]; omega
  refine ⟨b.set x.toNat ((b.get ⟨x.toNat, hxl⟩).set y.toNat a), ?_, ?_, ?_, ?_⟩
  · unfold set2
    rw [vecGet_of_lt b x hx0 hxl]
    simp only [vecSet]
    rw [if_pos ⟨hy0, hyl⟩]
    simp only
    rw [if_pos ⟨hx0, hxl⟩]
  · refine ⟨by rw [List.length_set]; exact hb.1, ?_⟩
    intro row hrowmem
    rcases List.mem_or_eq_of_mem_set hrowmem with hm | he
    · exact hb.2 row hm
    · rw [he, List.length_set]; exact hrow
  · unfold get2
    rw [vecGet_set_eq b x _ hx0 hxl]
    exact vecGet_set_eq _ y a hy0 hyl
  · intro x2 y2 hne
    unfold get2
    by_cases hxx : x2 = x
    · subst hxx
      have hy : y2 ≠ y := fun hyy => hne (by rw [hyy])
      rw [vecGet_set_eq b x2 _ hx0 hxl, vecGet_of_lt b x2 hx0 hxl]
      exact vecGet_set_ne _ y y2 a hy0 hy
    · rw [vecGet_set_ne b x x2 _ hx0 hxx]

/-- A successful read of a square vector is in bounds. -/
theorem get2_ok_inBounds {α : Type} {n : Nat} {b : List (List α)} (hb : Square n b) {x y : Int}
    {a : α} (h : get2 b x y = Except.ok a) : inBounds n x y := by
  unfold get2 at h
  split at h
  · rename_i row hrow
    obtain ⟨hx0, hx⟩ := vecGet_ok hrow
    obtain ⟨hy0, hy⟩ := vecGet_ok h
    have hxl : x.toNat < b.length := (List.getElem?_eq_some_iff.1 hx).1
    have hyl : y.toNat < row.length := (List.getElem?_eq_some_iff.1 hy).1
    have hmem : row ∈ b := List.getElem?_mem hx
    have hrl := hb.2 row hmem
    have hbl := hb.1
    unfold inBounds
    omega
  · cases h

/-! ## `ValidMove`, `makeMove`, `undo` -/

theorem ValidMove_total {g : BoardGraph} (hg : g.WF) (x y : Int) :
    ∃ r, ValidMove g x y = Except.ok r ∧
      (r = true ↔ inBounds g.size x y ∧ get2 g.board x y = Except.ok Cell.Blank) := by
  unfold ValidMove
  by_cases h : x ≥ 0 ∧ x < (g.size : Int) ∧ y ≥ 0 ∧ y < (g.size : Int)
  · rw [if_pos h]
    have hin : inBounds g.size x y := h
    obtain ⟨c, hc⟩ := get2_total hg hin
    rw [hc]
    refine ⟨decide (c = Cell.Blank), rfl, ?_⟩
    simp only [decide_eq_true_eq]
    constructor
    · intro hcb; exact ⟨hin, by rw [hcb]⟩
    · rintro ⟨-, h2⟩; cases h2; rfl
  · rw [if_neg h]
    refine ⟨false, rfl, ?_⟩
    constructor
    · intro hf; cases hf
    · rintro ⟨hin, -⟩; exact absurd hin h

theorem makeMove_true {g : BoardGraph} (hg : g.WF) {x y : Int} (p : player)
    (hv : ValidMove g x y = Except.ok true) :
    ∃ g2, makeMove g x y p = Except.ok (true, g2) ∧ g2.WF ∧ g2.size = g.size ∧
      get2 g2.board x y = Except.ok (stoneOf p) ∧
      ∀ x2 y2 : Int, (x2, y2) ≠ (x, y) → get2 g2.board x2 y2 = get2 g.board x2 y2 := by
  obtain ⟨r, hr, hiff⟩ := ValidMove_total hg x y
  rw [hv] at hr
  cases hr
  obtain ⟨hin, -⟩ := hiff.1 rfl
  obtain ⟨b2, hset, hsq, hget, hother⟩ := set2_spec hg hin (stoneOf p)
  refine ⟨{ g with board := b2 }, ?_, hsq, rfl, hget, hother⟩
  unfold makeMove
  rw [hv]
  cases p
  · simp only [stoneOf] at hset
    simp only [hset]
  · simp only [stoneOf] at hset
    simp only [hset]

theorem makeMove_false {g : BoardGraph} {x y : Int} (p : player)
    (hv : ValidMove g x y = Except.ok false) : makeMove g x y p = Except.ok (false, g) := by
  unfold makeMove
  rw [hv]

/-- C1: on a grid of size N, `makeMove(x, y, p)` returns true exactly when `0 ≤ x < N`,
`0 ≤ y < N` and cell `(x, y)` is `Blank`; when it returns true the grid after the call has
the same size, holds the stone of `p` at `(x, y)` and is unchanged at every other
coordinate, and a further `makeMove` at `(x, y)` returns false. -/
theorem makeMove_spec (g : BoardGraph) (hg : g.WF) (x y : Int) (p : player) :
    ∃ r g2, makeMove g x y p = Except.ok (r, g2) ∧
      (r = true ↔
        (0 ≤ x ∧ x < (g.size : Int) ∧ 0 ≤ y ∧ y < (g.size : Int)) ∧
          get2 g.board x y = Except.ok Cell.Blank) ∧
      (r = true →
        g2.WF ∧ g2.size = g.size ∧ get2 g2.board x y = Except.ok (stoneOf p) ∧
        (∀ x2 y2 : Int, (x2, y2) ≠ (x, y) → get2 g2.board x2 y2 = get2 g.board x2 y2) ∧
        ∀ q : player, makeMove g2 x y q = Except.ok (false, g2)) := by
  obtain ⟨r, hr, hiff⟩ := ValidMove_total hg x y
  cases r
  · refine ⟨false, g, makeMove_false p hr, ?_, ?_⟩
    · exact hiff
    · intro h; cases h
  · obtain ⟨g2, hm, hwf, hsize, hget, hother⟩ := makeMove_true hg p hr
    refine ⟨true, g2, hm, hiff, fun _ => ⟨hwf, hsize, hget, hother, ?_⟩⟩
    intro q
    obtain ⟨r2, hr2, hiff2⟩ := ValidMove_total hwf x y
    cases r2
    · exact makeMove_false q hr2
    · obtain ⟨-, hblank⟩ := hiff2.1 rfl
      rw [hget] at hblank
      cases p <;> cases hblank

theorem makeMove_spec_witness :
    (BoardGraph.mk0 2).WF ∧
    ∃ r g2, makeMove (BoardGraph.mk0 2) 1 0 player.BLUE = Except.ok (r, g2) ∧
      (r = true ↔
        (0 ≤ (1 : Int) ∧ (1 : Int) < ((BoardGraph.mk0 2).size : Int) ∧ 0 ≤ (0 : Int) ∧
            (0 : Int) < ((BoardGraph.mk0 2).size : Int)) ∧
          get2 (BoardGraph.mk0 2).board 1 0 = Except.ok Cell.Blank) ∧
      (r = true →
        g2.WF ∧ g2.size = (BoardGraph.mk0 2).size ∧
        get2 g2.board 1 0 = Except.ok (stoneOf player.BLUE) ∧
        (∀ x2 y2 : Int, (x2, y2) ≠ (1, 0) →
          get2 g2.board x2 y2 = get2 (BoardGraph.mk0 2).board x2 y2) ∧
        ∀ q : player, makeMove g2 1 0 q = Except.ok (false, g2)) :=
  ⟨by decide, makeMove_spec (BoardGraph.mk0 2) (by decide) 1 0 player.BLUE⟩

/-- C2: on a grid of size N, a `makeMove(x, y, p)` whose coordinate is out of bounds or
whose cell is not `Blank` returns false, and whenever `makeMove` returns false the grid
after the call is the grid before it. -/
theorem makeMove_false_unchanged (g : BoardGraph) (hg : g.WF) (x y : Int) (p : player) :
    (¬ ((0 ≤ x ∧ x < (g.size : Int) ∧ 0 ≤ y ∧ y < (g.size : Int)) ∧
          get2 g.board x y = Except.ok Cell.Blank) →
        makeMove g x y p = Except.ok (false, g)) ∧
      ∀ g2, makeMove g x y p = Except.ok (false, g2) → g2 = g := by
  obtain ⟨r, hr, hiff⟩ := ValidMove_total hg x y
  cases r
  · refine ⟨fun _ => makeMove_false p hr, ?_⟩
    intro g2 h
    rw [makeMove_false p hr] at h
    cases h
    rfl
  · obtain ⟨g3, hm, -⟩ := makeMove_true hg p hr
    refine ⟨fun hn => absurd (hiff.1 rfl) hn, ?_⟩
    intro g2 h
    rw [hm] at h
    cases h

theorem makeMove_false_unchanged_witness :
    (BoardGraph.mk 1 [[Cell.Red]]).WF ∧
    ((¬ ((0 ≤ (0 : Int) ∧ (0 : Int) < ((BoardGraph.mk 1 [[Cell.Red]]).size : Int) ∧
            0 ≤ (0 : Int) ∧ (0 : Int) < ((BoardGraph.mk 1 [[Cell.Red]]).size : Int)) ∧
          get2 (BoardGraph.mk 1 [[Cell.Red]]).board 0 0 = Except.ok Cell.Blank) →
        makeMove (BoardGraph.mk 1 [[Cell.Red]]) 0 0 player.BLUE =
          Except.ok (false, BoardGraph.mk 1 [[Cell.Red]])) ∧
      ∀ g2, makeMove (BoardGraph.mk 1 [[Cell.Red]]) 0 0 player.BLUE = Except.ok (false, g2) →
        g2 = BoardGraph.mk 1 [[Cell.Red]]) :=
  ⟨by decide, makeMove_false_unchanged (BoardGraph.mk 1 [[Cell.Red]]) (by decide) 0 0 player.BLUE⟩

/-- C3 (the code departs from the claim): on the empty 5×5 board `makeMove(2, 2, BLUE)`
succeeds, and the `undo(2, 2)` that follows returns false and leaves the Blue stone in
place, because `undo` runs `ValidMove`, which asks for a `Blank` cell. -/
theorem undo_after_makeMove_fails :
    ∃ g2, makeMove (BoardGraph.mk0 5) 2 2 player.BLUE = Except.ok (true, g2) ∧
      get2 g2.board 2 2 = Except.ok Cell.Blue ∧
      undo g2 2 2 = Except.ok (false, g2) :=
  ⟨BoardGraph.mk 5 [List.replicate 5 Cell.Blank, List.replicate 5 Cell.Blank,
      [Cell.Blank, Cell.Blank, Cell.Blue, Cell.Blank, Cell.Blank],
      List.replicate 5 Cell.Blank, List.replicate 5 Cell.Blank],
    by decide, by decide, by decide⟩

/-- C5: on a board of any dimension `n`, for in-bounds cells `a` and `b`, `b` is a hex
neighbour of `a` exactly when `a` is a hex neighbour of `b`. -/
theorem neighbours_symm (n : Nat) (a b : Int × Int)
    (ha : 0 ≤ a.1 ∧ a.1 < (n : Int) ∧ 0 ≤ a.2 ∧ a.2 < (n : Int))
    (hb : 0 ≤ b.1 ∧ b.1 < (n : Int) ∧ 0 ≤ b.2 ∧ b.2 < (n : Int)) :
    b ∈ neighbours n a ↔ a ∈ neighbours n b := by
  obtain ⟨a1, a2⟩ := a
  obtain ⟨b1, b2⟩ := b
  simp only at ha hb
  simp only [neighbours, directions, List.map_cons, List.map_nil, List.mem_filter,
    List.mem_cons, List.mem_singleton, Prod.mk.injEq, decide_eq_true_eq, List.not_mem_nil,
    or_false]
  constructor
  · rintro ⟨h, -⟩
    refine ⟨?_, by omega⟩
    omega
  · rintro ⟨h, -⟩
    refine ⟨?_, by omega⟩
    omega

theorem neighbours_symm_witness :
    (0 ≤ ((1, 1) : Int × Int).1 ∧ ((1, 1) : Int × Int).1 < ((3 : Nat) : Int) ∧
        0 ≤ ((1, 1) : Int × Int).2 ∧ ((1, 1) : Int × Int).2 < ((3 : Nat) : Int)) ∧
      (0 ≤ ((0, 2) : Int × Int).1 ∧ ((0, 2) : Int × Int).1 < ((3 : Nat) : Int) ∧
        0 ≤ ((0, 2) : Int × Int).2 ∧ ((0, 2) : Int × Int).2 < ((3 : Nat) : Int)) ∧
      ((0, 2) ∈ neighbours 3 (1, 1) ↔ (1, 1) ∈ neighbours 3 (0, 2)) :=
  ⟨by decide, by decide, neighbours_symm 3 (1, 1) (0, 2) (by decide) (by decide)⟩

/-! ## The traversal of `win` -/

theorem mem_boardCells (n : Nat) (p : Int × Int) :
    p ∈ boardCells n ↔ inBounds n p.1 p.2 := by
  unfold boardCells inBounds
  rw [Finset.mem_product, Finset.mem_Ico, Finset.mem_Ico]
  tauto

theorem card_boardCells (n : Nat) : (boardCells n).card = n * n := by
  unfold boardCells
  rw [Finset.card_product, Int.card_Ico]
  simp

theorem mem_neighbours (n : Nat) (p q : Int × Int) :
    q ∈ neighbours n p ↔
      ∃ d ∈ directions, q = (p.1 + d.1, p.2 + d.2) ∧ inBounds n q.1 q.2 := by
  unfold neighbours inBounds
  simp only [List.mem_filter, List.mem_map, decide_eq_true_eq, ge_iff_le]
  constructor
  · rintro ⟨⟨d, hd, rfl⟩, hb⟩
    exact ⟨d, hd, rfl, hb⟩
  · rintro ⟨d, hd, rfl, hb⟩
    exact ⟨⟨d, hd, rfl⟩, hb⟩

theorem visitedAt_inBounds {n : Nat} {vis : List (List Bool)} (hv : Square n vis)
    {p : Int × Int} (h : visitedAt vis p) : inBounds n p.1 p.2 :=
  get2_ok_inBounds hv h

/-- Marking an unmarked cell of the board takes it out of the unvisited cells. -/
theorem card_unvisited_mark {n : Nat} {vis vis2 : List (List Bool)} {p : Int × Int}
    (hin : inBounds n p.1 p.2) (hp : ¬ visitedAt vis p)
    (h2 : ∀ q, visitedAt vis2 q ↔ visitedAt vis q ∨ q = p) :
    (unvisited n vis2).card + 1 = (unvisited n vis).card := by
  have hmem : p ∈ unvisited n vis := by
    unfold unvisited
    rw [Finset.mem_filter]
    exact ⟨(mem_boardCells n p).2 hin, hp⟩
  have heq : unvisited n vis2 = (unvisited n vis).erase p := by
    ext q
    unfold unvisited
    rw [Finset.mem_erase, Finset.mem_filter, Finset.mem_filter, h2 q]
    tauto
  rw [heq, Finset.card_erase_of_mem hmem]
  have : 0 < (unvisited n vis).card := Finset.card_pos.2 ⟨p, hmem⟩
  omega

/-- One pass of the direction loop of `win`: either the probed cell is on the board, holds
`side` and is unmarked, and it is marked and queued, or nothing changes. -/
theorem winStep_spec {g : BoardGraph} (hg : g.WF) (side : Cell) (top : Int × Int)
    {vis : List (List Bool)} (hv : Square g.size vis) (Q : List (Int × Int)) (d : Int × Int) :
    (inBounds g.size (top.1 + d.1) (top.2 + d.2) ∧
        get2 g.board (top.1 + d.1) (top.2 + d.2) = Except.ok side ∧
        ¬ visitedAt vis (top.1 + d.1, top.2 + d.2) ∧
        ∃ vis2, winStep g side top (vis, Q) d =
            Except.ok (vis2, Q ++ [(top.1 + d.1, top.2 + d.2)]) ∧
          Square g.size vis2 ∧
          ∀ q, visitedAt vis2 q ↔ visitedAt vis q ∨ q = (top.1 + d.1, top.2 + d.2)) ∨
      (winStep g side top (vis, Q) d = Except.ok (vis, Q) ∧
        (inBounds g.size (top.1 + d.1) (top.2 + d.2) →
          get2 g.board (top.1 + d.1) (top.2 + d.2) = Except.ok side →
          visitedAt vis (top.1 + d.1, top.2 + d.2))) := by
  unfold winStep
  simp only
  by_cases hin : top.1 + d.1 ≥ 0 ∧ top.1 + d.1 < (g.size : Int) ∧ top.2 + d.2 ≥ 0 ∧
      top.2 + d.2 < (g.size : Int)
  · rw [if_pos hin]
    have hin2 : inBounds g.size (top.1 + d.1) (top.2 + d.2) := hin
    obtain ⟨c, hc⟩ := get2_total hg hin2
    rw [hc]
    simp only
    by_cases hcs : c = side
    · rw [if_pos hcs]
      obtain ⟨v, hvv⟩ := get2_total hv hin2
      rw [hvv]
      simp only
      cases v
      · rw [if_pos rfl]
        obtain ⟨vis2, hset, hsq, hget, hother⟩ := set2_spec hv hin2 true
        rw [hset]
        left
        refine ⟨hin2, by rw [hcs], ?_, vis2, rfl, hsq, ?_⟩
        · unfold visitedAt
          simp only
          rw [hvv]
          intro h; cases h
        · intro q
          unfold visitedAt
          by_cases hq : q = (top.1 + d.1, top.2 + d.2)
          · subst hq
            simp only [or_true, iff_true]
            exact hget
          · rw [hother q.1 q.2 hq]
            simp only [hq, or_false]
      · rw [if_neg (by simp)]
        right
        refine ⟨rfl, fun _ _ => hvv⟩
    · rw [if_neg hcs]
      right
      refine ⟨rfl, fun _ h => ?_⟩
      cases h
      exact absurd rfl hcs
  · rw [if_neg hin]
    right
    exact ⟨rfl, fun h => absurd h hin⟩

/-- The direction loop of `win` from `top`: it ends without failure, marks and queues the
cells `added`, which are unmarked neighbours of `top` of colour `side`, and leaves every
neighbour of `top` of colour `side` marked. -/
theorem dirLoop_spec {g : BoardGraph} (hg : g.WF) (side : Cell) (top : Int × Int) :
    ∀ (ds : List (Int × Int)) (vis : List (List Bool)) (_ : Square g.size vis)
      (Q : List (Int × Int)),
    ∃ vis2 added, loopM (winStep g side top) (vis, Q) ds = Except.ok (vis2, Q ++ added) ∧
      Square g.size vis2 ∧
      (∀ q, visitedAt vis2 q ↔ visitedAt vis q ∨ q ∈ added) ∧
      (∀ q ∈ added, ∃ d ∈ ds, q = (top.1 + d.1, top.2 + d.2) ∧ inBounds g.size q.1 q.2 ∧
        get2 g.board q.1 q.2 = Except.ok side) ∧
      (∀ d ∈ ds, inBounds g.size (top.1 + d.1) (top.2 + d.2) →
        get2 g.board (top.1 + d.1) (top.2 + d.2) = Except.ok side →
        visitedAt vis2 (top.1 + d.1, top.2 + d.2)) ∧
      (unvisited g.size vis2).card + added.length = (unvisited g.size vis).card := by
  intro ds
  induction ds with
  | nil =>
    intro vis hv Q
    refine ⟨vis, [], ?_, hv, ?_, ?_, ?_, ?_⟩
    · rw [List.append_nil]; rfl
    · intro q; simp
    · intro q hq; cases hq
    · intro d hd; cases hd
    · simp
  | cons d ds ih =>
    intro vis hv Q
    rcases winStep_spec hg side top hv Q d with
      ⟨hin, hcol, hnv, vis1, hstep, hsq1, hvis1⟩ | ⟨hstep, hmarked⟩
    · obtain ⟨vis2, added, hloop, hsq2, hvis2, hadded, hdone, hcard⟩ :=
        ih vis1 hsq1 (Q ++ [(top.1 + d.1, top.2 + d.2)])
      refine ⟨vis2, (top.1 + d.1, top.2 + d.2) :: added, ?_, hsq2, ?_, ?_, ?_, ?_⟩
      · unfold loopM
        rw [hstep]
        simp only
        rw [hloop, List.append_assoc]
        rfl
      · intro q
        rw [hvis2 q, hvis1 q, List.mem_cons]
        tauto
      · intro q hq
        rcases List.mem_cons.1 hq with rfl | hq
        · exact ⟨d, List.mem_cons_self _ _, rfl, hin, hcol⟩
        · obtain ⟨e, he, h1, h2, h3⟩ := hadded q hq
          exact ⟨e, List.mem_cons_of_mem _ he, h1, h2, h3⟩
      · intro e he hine hcole
        rcases List.mem_cons.1 he with rfl | he
        · exact (hvis2 _).2 (Or.inl ((hvis1 _).2 (Or.inr rfl)))
        · exact hdone e he hine hcole
      · have h1 := card_unvisited_mark hin hnv hvis1
        rw [List.length_cons]
        omega
    · obtain ⟨vis2, added, hloop, hsq2, hvis2, hadded, hdone, hcard⟩ := ih vis hv Q
      refine ⟨vis2, added, ?_, hsq2, hvis2, ?_, ?_, hcard⟩
      · unfold loopM
        rw [hstep]
        simp only
        exact hloop
      · intro q hq
        obtain ⟨e, he, h1, h2, h3⟩ := hadded q hq
        exact ⟨e, List.mem_cons_of_mem _ he, h1, h2, h3⟩
      · intro e he hine hcole
        rcases List.mem_cons.1 he with rfl | he
        · exact (hvis2 _).2 (Or.inl (hmarked hine hcole))
        · exact hdone e he hine hcole

theorem setFlags_eq (P Q : Prop) [Decidable P] [Decidable Q] (f1 f2 : Bool) :
    (if Q then ((if P then (true, f2) else (f1, f2) : Bool × Bool).1, true)
      else (if P then (true, f2) else (f1, f2))) = (f1 || decide P, f2 || decide Q) := by
  by_cases hP : P <;> by_cases hQ : Q <;> simp [hP, hQ]

theorem checkBorders_eq (g : BoardGraph) (x y : Int) (flags : Bool × Bool) (side : Cell) :
    checkBorders g x y flags side =
      (flags.1 || decide (onFirstEdge side (x, y)),
        flags.2 || decide (onSecondEdge g.size side (x, y))) := by
  obtain ⟨f1, f2⟩ := flags
  cases side
  · simp [checkBorders, onFirstEdge, onSecondEdge]
  · have h := setFlags_eq (y = 0) (y = (g.size : Int) - 1) f1 f2
    simp only [checkBorders, onFirstEdge, onSecondEdge, reduceCtorEq, false_and, true_and,
      or_false]
    exact h
  · have h := setFlags_eq (x = 0) (x = (g.size : Int) - 1) f1 f2
    simp only [checkBorders, onFirstEdge, onSecondEdge, reduceCtorEq, false_and, true_and,
      false_or]
    exact h

theorem winLoop_nil (g : BoardGraph) (side : Cell) (fuel : Nat) (flags : Bool × Bool)
    (vis : List (List Bool)) : winLoop g side fuel flags vis [] = Except.ok flags := by
  cases fuel <;> rfl

/-- The `while` loop of `win` under its invariant. `P` is the set of cells already taken off
the queue: the marked cells are the queued and the processed ones, every marked cell is
connected to `start`, the neighbours of colour `side` of a processed cell are marked, and
the flags record the edges that processed cells touch. With as much fuel as there are
unmarked and queued cells the loop ends, with the flags of the whole chain of `start`. -/
theorem winLoop_spec {g : BoardGraph} (hg : g.WF) (side : Cell) (start : Int × Int) :
    ∀ (fuel : Nat) (flags : Bool × Bool) (vis : List (List Bool)) (Q : List (Int × Int))
      (P : Int × Int → Prop),
    Square g.size vis →
    (∀ p, visitedAt vis p ↔ p ∈ Q ∨ P p) →
    (∀ p, visitedAt vis p → connected g side start p) →
    (∀ p, P p → ∀ q, link g side p q → visitedAt vis q) →
    (flags.1 = true ↔ ∃ p, P p ∧ onFirstEdge side p) →
    (flags.2 = true ↔ ∃ p, P p ∧ onSecondEdge g.size side p) →
    visitedAt vis start →
    (unvisited g.size vis).card + Q.length ≤ fuel →
    ∃ fl, winLoop g side fuel flags vis Q = Except.ok fl ∧
      (fl.1 = true ↔ ∃ p, connected g side start p ∧ onFirstEdge side p) ∧
      (fl.2 = true ↔ ∃ p, connected g side start p ∧ onSecondEdge g.size side p) := by
  have hdone : ∀ (fuel : Nat) (flags : Bool × Bool) (vis : List (List Bool))
      (P : Int × Int → Prop),
      (∀ p, visitedAt vis p ↔ p ∈ ([] : List (Int × Int)) ∨ P p) →
      (∀ p, visitedAt vis p → connected g side start p) →
      (∀ p, P p → ∀ q, link g side p q → visitedAt vis q) →
      (flags.1 = true ↔ ∃ p, P p ∧ onFirstEdge side p) →
      (flags.2 = true ↔ ∃ p, P p ∧ onSecondEdge g.size side p) →
      visitedAt vis start →
      ∃ fl, winLoop g side fuel flags vis [] = Except.ok fl ∧
        (fl.1 = true ↔ ∃ p, connected g side start p ∧ onFirstEdge side p) ∧
        (fl.2 = true ↔ ∃ p, connected g side start p ∧ onSecondEdge g.size side p) := by
    intro fuel flags vis P hQP hreach hclosed hf1 hf2 hstart
    have hP : ∀ p, P p ↔ visitedAt vis p := by
      intro p
      rw [hQP p]
      simp
    have hall : ∀ p, connected g side start p → P p := by
      intro p hp
      unfold connected at hp
      induction hp with
      | refl => exact (hP _).2 hstart
      | tail _ hbc ih => exact (hP _).2 (hclosed _ ih _ hbc)
    refine ⟨flags, winLoop_nil g side fuel flags vis, ?_, ?_⟩
    · rw [hf1]
      constructor
      · rintro ⟨p, hp, he⟩; exact ⟨p, hreach p ((hP p).1 hp), he⟩
      · rintro ⟨p, hp, he⟩; exact ⟨p, hall p hp, he⟩
    · rw [hf2]
      constructor
      · rintro ⟨p, hp, he⟩; exact ⟨p, hreach p ((hP p).1 hp), he⟩
      · rintro ⟨p, hp, he⟩; exact ⟨p, hall p hp, he⟩
  intro fuel
  induction fuel with
  | zero =>
    intro flags vis Q P hsq hQP hreach hclosed hf1 hf2 hstart hfuel
    cases Q with
    | nil => exact hdone 0 flags vis P hQP hreach hclosed hf1 hf2 hstart
    | cons top rest => simp at hfuel
  | succ fuel ih =>
    intro flags vis Q P hsq hQP hreach hclosed hf1 hf2 hstart hfuel
    cases Q with
    | nil => exact hdone (fuel + 1) flags vis P hQP hreach hclosed hf1 hf2 hstart
    | cons top rest =>
      obtain ⟨vis2, added, hloop, hsq2, hvis2, hadded, hprobed, hcard⟩ :=
        dirLoop_spec hg side top directions vis hsq rest
      have htop : visitedAt vis top := (hQP top).2 (Or.inl (List.mem_cons_self _ _))
      have hstep : winLoop g side (fuel + 1) flags vis (top :: rest) =
          winLoop g side fuel (checkBorders g top.1 top.2 flags side) vis2 (rest ++ added) := by
        rw [winLoop, hloop]
      rw [hstep]
      apply ih (checkBorders g top.1 top.2 flags side) vis2 (rest ++ added)
        (fun p => p = top ∨ P p) hsq2
      · intro p
        rw [hvis2 p, hQP p, List.mem_append, List.mem_cons]
        tauto
      · intro p hp
        rcases (hvis2 p).1 hp with hold | hnew
        · exact hreach p hold
        · obtain ⟨d, hd, hpd, hin, hcol⟩ := hadded p hnew
          have hl : link g side top p :=
            ⟨(mem_neighbours g.size top p).2 ⟨d, hd, hpd, hin⟩, hcol⟩
          exact Relation.ReflTransGen.tail (hreach top htop) hl
      · intro p hp q hl
        rcases hp with rfl | hp
        · obtain ⟨d, hd, hqd, hin⟩ := (mem_neighbours g.size p q).1 hl.1
          have hcol := hl.2
          rw [hqd] at hin hcol ⊢
          exact hprobed d hd hin hcol
        · exact (hvis2 q).2 (Or.inl (hclosed p hp q hl))
      · rw [checkBorders_eq]
        simp only [Bool.or_eq_true, decide_eq_true_eq]
        rw [hf1]
        constructor
        · rintro (⟨p, hp, he⟩ | he)
          · exact ⟨p, Or.inr hp, he⟩
          · exact ⟨top, Or.inl rfl, he⟩
        · rintro ⟨p, rfl | hp, he⟩
          · exact Or.inr he
          · exact Or.inl ⟨p, hp, he⟩
      · rw [checkBorders_eq]
        simp only [Bool.or_eq_true, decide_eq_true_eq]
        rw [hf2]
        constructor
        · rintro (⟨p, hp, he⟩ | he)
          · exact ⟨p, Or.inr hp, he⟩
          · exact ⟨top, Or.inl rfl, he⟩
        · rintro ⟨p, rfl | hp, he⟩
          · exact Or.inr he
          · exact Or.inl ⟨p, hp, he⟩
      · exact (hvis2 start).2 (Or.inl hstart)
      · rw [List.length_append]
        rw [List.length_cons] at hfuel
        omega

theorem square_replicate {α : Type} (n : Nat) (a : α) :
    Square n (List.replicate n (List.replicate n a)) := by
  refine ⟨List.length_replicate _ _, ?_⟩
  intro row hrow
  rw [(List.mem_replicate.1 hrow).2, List.length_replicate]

theorem get2_replicate {α : Type} {n : Nat} (a : α) {x y : Int} (h : inBounds n x y) :
    get2 (List.replicate n (List.replicate n a)) x y = Except.ok a := by
  obtain ⟨hx0, hx1, hy0, hy1⟩ := h
  have hx : x.toNat < n := by omega
  have hy : y.toNat < n := by omega
  unfold get2
  rw [(vecGet_eq_ok_iff _ x (List.replicate n a)).2
    ⟨hx0, by rw [List.getElem?_replicate, if_pos hx]⟩]
  exact (vecGet_eq_ok_iff _ y a).2 ⟨hy0, by rw [List.getElem?_replicate, if_pos hy]⟩

/-- On a grid of size N, `win(x, y)` at an in-bounds coordinate ends without failure, and it
returns true exactly when the chain of the colour at `(x, y)` through `(x, y)` touches both
edges of that colour. -/
theorem win_spec {g : BoardGraph} (hg : g.WF) {x y : Int} (hin : inBounds g.size x y)
    {side : Cell} (hside : get2 g.board x y = Except.ok side) :
    ∃ r, win g x y = Except.ok r ∧
      (r = true ↔
        (∃ p, connected g side (x, y) p ∧ onFirstEdge side p) ∧
          ∃ q, connected g side (x, y) q ∧ onSecondEdge g.size side q) := by
  obtain ⟨vis, hset, hsq, hget, hother⟩ :=
    set2_spec (square_replicate g.size false) hin true
  have hvis : ∀ p, visitedAt vis p ↔ visitedAt (List.replicate g.size
      (List.replicate g.size false)) p ∨ p = (x, y) := by
    intro p
    by_cases hp : p = (x, y)
    · subst hp
      simp only [or_true, iff_true]
      exact hget
    · unfold visitedAt
      rw [hother p.1 p.2 hp]
      simp only [hp, or_false]
  have hnone : ∀ p, ¬ visitedAt (List.replicate g.size (List.replicate g.size false)) p := by
    intro p hp
    have hpin := visitedAt_inBounds (square_replicate g.size false) hp
    unfold visitedAt at hp
    rw [get2_replicate false hpin] at hp
    cases hp
  have hcard := card_unvisited_mark (p := (x, y)) hin (hnone _) hvis
  have hle : (unvisited g.size (List.replicate g.size (List.replicate g.size false))).card ≤
      g.size * g.size := by
    rw [← card_boardCells]
    exact Finset.card_le_card (Finset.filter_subset _ _)
  obtain ⟨fl, hloop, h1, h2⟩ := winLoop_spec hg side (x, y) (g.size * g.size) (false, false)
    vis [(x, y)] (fun _ => False) hsq
    (by
      intro p
      rw [hvis p]
      simp only [hnone p, false_or, List.mem_singleton, or_false])
    (by
      intro p hp
      rcases (hvis p).1 hp with h | h
      · exact absurd h (hnone p)
      · rw [h]; exact Relation.ReflTransGen.refl)
    (by intro p hp; exact hp.elim)
    (by simp)
    (by simp)
    hget
    (by rw [List.length_singleton]; omega)
  refine ⟨fl.1 && fl.2, ?_, ?_⟩
  · unfold win
    rw [hside]
    simp only
    rw [hset]
    simp only
    rw [hloop]
  · rw [Bool.and_eq_true, h1, h2]

/-- C4: on a grid of size N, for an in-bounds cell `(x, y)` that holds the colour `c`,
`win(x, y)` returns true exactly when the cells reachable from `(x, y)` through chains of
hex-adjacent cells of colour `c` contain a cell on the first edge of `c` and a cell on its
second edge (column 0 and column N-1 for Blue, row 0 and row N-1 for Red). -/
theorem win_iff_connected (g : BoardGraph) (hg : g.WF) (x y : Int)
    (hin : 0 ≤ x ∧ x < (g.size : Int) ∧ 0 ≤ y ∧ y < (g.size : Int)) (c : Cell)
    (hc : get2 g.board x y = Except.ok c) :
    ∃ r, win g x y = Except.ok r ∧
      (r = true ↔
        (∃ p, connected g c (x, y) p ∧ onFirstEdge c p) ∧
          ∃ q, connected g c (x, y) q ∧ onSecondEdge g.size c q) :=
  win_spec hg hin hc

theorem win_iff_connected_witness :
    (BoardGraph.mk 2 [[Cell.Blue, Cell.Blue], [Cell.Red, Cell.Blank]]).WF ∧
    (0 ≤ (0 : Int) ∧
      (0 : Int) < ((BoardGraph.mk 2 [[Cell.Blue, Cell.Blue], [Cell.Red, Cell.Blank]]).size : Int) ∧
      0 ≤ (1 : Int) ∧
      (1 : Int) < ((BoardGraph.mk 2 [[Cell.Blue, Cell.Blue], [Cell.Red, Cell.Blank]]).size : Int)) ∧
    get2 (BoardGraph.mk 2 [[Cell.Blue, Cell.Blue], [Cell.Red, Cell.Blank]]).board 0 1 =
      Except.ok Cell.Blue ∧
    ∃ r, win (BoardGraph.mk 2 [[Cell.Blue, Cell.Blue], [Cell.Red, Cell.Blank]]) 0 1 =
        Except.ok r ∧
      (r = true ↔
        (∃ p, connected (BoardGraph.mk 2 [[Cell.Blue, Cell.Blue], [Cell.Red, Cell.Blank]])
            Cell.Blue (0, 1) p ∧ onFirstEdge Cell.Blue p) ∧
          ∃ q, connected (BoardGraph.mk 2 [[Cell.Blue, Cell.Blue], [Cell.Red, Cell.Blank]])
            Cell.Blue (0, 1) q ∧
            onSecondEdge (BoardGraph.mk 2 [[Cell.Blue, Cell.Blue], [Cell.Red, Cell.Blank]]).size
              Cell.Blue q) :=
  ⟨by decide, by decide, by decide,
    win_iff_connected (BoardGraph.mk 2 [[Cell.Blue, Cell.Blue], [Cell.Red, Cell.Blank]])
      (by decide) 0 1 (by decide) Cell.Blue (by decide)⟩

/-! ## Loops -/

theorem loopM_append {σ β : Type} (f : σ → β → Except Err σ) (s : σ) (l1 l2 : List β) :
    loopM f s (l1 ++ l2) =
      match loopM f s l1 with
      | Except.ok s2 => loopM f s2 l2
      | Except.error e => Except.error e := by
  induction l1 generalizing s with
  | nil => rfl
  | cons b bs ih =>
    rw [List.cons_append, loopM, loopM]
    cases hb : f s b with
    | error e => rfl
    | ok s2 => exact ih s2

/-- Invariant rule for a counting loop `for (i = 0; i < n; ++i)`. -/
theorem loopM_range {σ : Type} (f : σ → Nat → Except Err σ) (I : Nat → σ → Prop) (n : Nat)
    (hstep : ∀ i, i < n → ∀ s, I i s → ∃ s2, f s i = Except.ok s2 ∧ I (i + 1) s2)
    (s : σ) (h0 : I 0 s) : ∃ s2, loopM f s (List.range n) = Except.ok s2 ∧ I n s2 := by
  induction n with
  | zero => exact ⟨s, rfl, h0⟩
  | succ n ih =>
    obtain ⟨s1, h1, hI1⟩ := ih (fun i hi => hstep i (Nat.lt_succ_of_lt hi))
    obtain ⟨s2, h2, hI2⟩ := hstep n (Nat.lt_succ_self n) s1 hI1
    refine ⟨s2, ?_, hI2⟩
    rw [List.range_succ, loopM_append, h1]
    simp only [loopM, h2]

/-- Invariant rule for the nested loops `for x ... for y ...` over a board of dimension `n`,
with the invariant indexed by the number `x * n + y` of cells already passed. -/
theorem loopM_grid {σ : Type} (f : Nat → σ → Nat → Except Err σ) (I : Nat → σ → Prop)
    (n : Nat)
    (hstep : ∀ x y, x < n → y < n → ∀ s, I (x * n + y) s →
      ∃ s2, f x s y = Except.ok s2 ∧ I (x * n + y + 1) s2)
    (s : σ) (h0 : I 0 s) :
    ∃ s2, loopM (fun st x => loopM (f x) st (List.range n)) s (List.range n) = Except.ok s2 ∧
      I (n * n) s2 := by
  apply loopM_range (fun st x => loopM (f x) st (List.range n)) (fun x st => I (x * n) st) n
  · intro x hx st hst
    have h := loopM_range (f x) (fun y st => I (x * n + y) st) n
      (fun y hy st2 hst2 => hstep x y hx hy st2 hst2) st (by simpa using hst)
    obtain ⟨s2, h2, hI2⟩ := h
    refine ⟨s2, h2, ?_⟩
    have : (x + 1) * n = x * n + n := by ring
    rw [this]
    exact hI2
  · simpa using h0

/-! ## Vectors of counters -/

theorem vecGet_natCast {α : Type} (v : List α) (i : Nat) (h : i < v.length) :
    vecGet v (i : Int) = Except.ok (v.get ⟨i, h⟩) := by
  have h2 : ((i : Int)).toNat < v.length := by simpa using h
  rw [vecGet_of_lt v (i : Int) (Int.natCast_nonneg i) h2]
  simp

theorem vecIncr_spec (v : List Nat) (i : Nat) (h : i < v.length) :
    ∃ v2, vecIncr v (i : Int) = Except.ok v2 ∧ v2.length = v.length ∧
      ∀ j, v2.getD j 0 = v.getD j 0 + (if j = i then 1 else 0) := by
  refine ⟨v.set i (v.get ⟨i, h⟩ + 1), ?_, List.length_set _ _ _, ?_⟩
  · unfold vecIncr
    rw [vecGet_natCast v i h]
    simp only [vecSet]
    rw [if_pos ⟨Int.natCast_nonneg i, by simpa using h⟩]
    simp
  · intro j
    rw [List.getD_eq_getElem?_getD, List.getD_eq_getElem?_getD, List.getElem?_set]
    by_cases hji : j = i
    · subst hji
      simp [h]
    · have hij : ¬ i = j := fun e => hji e.symm
      simp [hji, hij]

/-! ## Row-major indices -/

theorem idx_lt {n x y : Nat} (hx : x < n) (hy : y < n) : x * n + y < n * n := by
  have h : (x + 1) * n ≤ n * n := Nat.mul_le_mul_right n hx
  have h2 : (x + 1) * n = x * n + n := by ring
  omega

theorem idx_div {n x y : Nat} (hy : y < n) : (x * n + y) / n = x := by
  have hn : 0 < n := by omega
  rw [Nat.add_comm, Nat.add_mul_div_right _ _ hn, Nat.div_eq_of_lt hy, Nat.zero_add]

theorem idx_mod {n x y : Nat} (hy : y < n) : (x * n + y) % n = y := by
  rw [Nat.add_comm, Nat.add_mul_mod_self_right, Nat.mod_eq_of_lt hy]

theorem div_lt_of_lt_sq {n i : Nat} (h : i < n * n) : i / n < n :=
  Nat.div_lt_of_lt_mul h

theorem inBounds_natCast {n x y : Nat} (hx : x < n) (hy : y < n) :
    inBounds n (x : Int) (y : Int) := by
  unfold inBounds
  omega

theorem inBounds_of_idx {n i : Nat} (h : i < n * n) :
    inBounds n ((i / n : Nat) : Int) ((i % n : Nat) : Int) := by
  have hn : 0 < n := by
    rcases Nat.eq_zero_or_pos n with h0 | h0
    · subst h0; simp at h
    · exact h0
  exact inBounds_natCast (div_lt_of_lt_sq h) (Nat.mod_lt _ hn)

/-! ## The enumeration of the empty cells -/

/-- The enumeration loops of `AIalgorithm` end without failure: `emptySpots` lists the
row-major indices of the `Blank` cells in increasing order, `emptySpotsCounter` holds `1`
at these indices and `0` elsewhere. -/
theorem enumerate_spec {g : BoardGraph} (hg : g.WF) :
    ∃ es cnt, enumerate g = Except.ok (es, cnt) ∧
      es = (List.range (g.size * g.size)).filter (fun i => decide (blankAt g i)) ∧
      cnt.length = g.size * g.size ∧
      ∀ i, cnt.getD i 0 = if i < g.size * g.size ∧ blankAt g i then 1 else 0 := by
  have h := loopM_grid (enumStep g)
    (fun k st => st.1 = (List.range k).filter (fun i => decide (blankAt g i)) ∧
      st.2.length = g.size * g.size ∧
      ∀ i, st.2.getD i 0 = if i < k ∧ blankAt g i then 1 else 0) g.size ?_
    ([], List.replicate (g.size * g.size) 0) ?_
  · obtain ⟨⟨es, cnt⟩, h1, h2, h3, h4⟩ := h
    exact ⟨es, cnt, h1, h2, h3, h4⟩
  · rintro x y hx hy ⟨es, cnt⟩ ⟨hes, hlen, hcnt⟩
    simp only at hes hlen hcnt
    obtain ⟨c, hc⟩ := get2_total hg (inBounds_natCast hx hy)
    have hblank : blankAt g (x * g.size + y) ↔ c = Cell.Blank := by
      unfold blankAt
      rw [idx_div hy, idx_mod hy, hc]
      constructor
      · intro h; cases h; rfl
      · intro h; rw [h]
    unfold enumStep
    rw [hc]
    simp only
    by_cases hcb : c = Cell.Blank
    · rw [if_pos hcb]
      obtain ⟨cnt2, hincr, hlen2, hget2⟩ :=
        vecIncr_spec cnt (x * g.size + y) (by rw [hlen]; exact idx_lt hx hy)
      rw [hincr]
      refine ⟨_, rfl, ?_, ?_, ?_⟩
      · simp only
        rw [List.range_succ, List.filter_append, ← hes]
        simp [hblank.2 hcb]
      · simp only
        rw [hlen2, hlen]
      · intro i
        simp only
        rw [hget2 i, hcnt i]
        by_cases hik : i = x * g.size + y
        · subst hik
          simp [hblank.2 hcb]
        · by_cases hlt : i < x * g.size + y
          · have : i < x * g.size + y + 1 := by omega
            simp [hik, hlt, this]
          · have : ¬ i < x * g.size + y + 1 := by omega
            simp [hik, hlt, this]
    · rw [if_neg hcb]
      refine ⟨_, rfl, ?_, hlen, ?_⟩
      · simp only
        rw [List.range_succ, List.filter_append, ← hes]
        simp [mt hblank.1 hcb]
      · intro i
        simp only
        rw [hcnt i]
        by_cases hik : i = x * g.size + y
        · subst hik
          simp [mt hblank.1 hcb]
        · by_cases hlt : i < x * g.size + y
          · have : i < x * g.size + y + 1 := by omega
            simp [hlt, this]
          · have : ¬ i < x * g.size + y + 1 := by omega
            simp [hlt, this]
  · refine ⟨rfl, List.length_replicate _ _, ?_⟩
    intro i
    simp only [List.getD_eq_getElem?_getD, List.getElem?_replicate, Nat.not_lt_zero,
      false_and, if_false]
    split_ifs <;> rfl

/-! ## The fill and the tally of a trial -/

theorem makeMove_total {g : BoardGraph} (hg : g.WF) (x y : Int) (p : player) :
    ∃ r g2, makeMove g x y p = Except.ok (r, g2) ∧ g2.WF ∧ g2.size = g.size := by
  obtain ⟨r, hr, -⟩ := ValidMove_total hg x y
  cases r
  · exact ⟨false, g, makeMove_false p hr, hg, rfl⟩
  · obtain ⟨g2, hm, hwf, hsize, -⟩ := makeMove_true hg p hr
    exact ⟨true, g2, hm, hwf, hsize⟩

theorem fillLoop_cons {g : BoardGraph} (hn : 0 < g.size) (turn last : Nat) (rest : List Nat) :
    fillLoop g turn (last :: rest) =
      match makeMove g ((last / g.size : Nat) : Int) ((last % g.size : Nat) : Int)
          (if flipTurn turn = 1 then player.BLUE else player.RED) with
      | Except.error e => Except.error e
      | Except.ok res => fillLoop res.2 (flipTurn turn) rest := by
  have h0 : ¬ g.size = 0 := by omega
  rw [fillLoop]
  simp only [idiv, imod, if_neg h0]

/-- The fill loop of a trial ends without failure on a grid of size N ≥ 1, whatever the
list it walks, and gives a grid of the same size. -/
theorem fillLoop_total : ∀ (l : List Nat) (g : BoardGraph) (turn : Nat), g.WF → 0 < g.size →
    ∃ g2 turn2, fillLoop g turn l = Except.ok (g2, turn2) ∧ g2.WF ∧ g2.size = g.size := by
  intro l
  induction l with
  | nil =>
    intro g turn hg _
    exact ⟨g, turn, rfl, hg, rfl⟩
  | cons last rest ih =>
    intro g turn hg hn
    obtain ⟨r, g1, hm, hwf1, hsize1⟩ := makeMove_total hg ((last / g.size : Nat) : Int)
      ((last % g.size : Nat) : Int) (if flipTurn turn = 1 then player.BLUE else player.RED)
    obtain ⟨g2, turn2, hfill, hwf2, hsize2⟩ := ih g1 (flipTurn turn) hwf1 (by omega)
    refine ⟨g2, turn2, ?_, hwf2, by omega⟩
    rw [fillLoop_cons hn, hm]
    exact hfill

theorem win_total {g : BoardGraph} (hg : g.WF) {x y : Int} (hin : inBounds g.size x y) :
    ∃ r, win g x y = Except.ok r := by
  obtain ⟨side, hside⟩ := get2_total hg hin
  obtain ⟨r, hr, -⟩ := win_spec hg hin hside
  exact ⟨r, hr⟩

/-- One pass of the tallying loops: the tally of `(x, y)` is incremented exactly under
`wonAt`. -/
theorem tallyStep_spec {g : BoardGraph} (hg : g.WF) {counter best : List Nat}
    (hc : counter.length = g.size * g.size) (hb : best.length = g.size * g.size) (wins : Nat)
    {x y : Nat} (hx : x < g.size) (hy : y < g.size) :
    ∃ best2 wins2, tallyStep g counter x (best, wins) y = Except.ok (best2, wins2) ∧
      best2.length = g.size * g.size ∧
      ∀ i, best2.getD i 0 =
        best.getD i 0 + (if i = x * g.size + y ∧ wonAt g counter x y then 1 else 0) := by
  have hin := inBounds_natCast hx hy
  have hidx := idx_lt hx hy
  obtain ⟨c, hcell⟩ := get2_total hg hin
  obtain ⟨w, hw⟩ := win_total hg hin
  have hk := vecGet_natCast counter (x * g.size + y) (by rw [hc]; exact hidx)
  obtain ⟨best2, hincr, hlen2, hget2⟩ := vecIncr_spec best (x * g.size + y)
    (by rw [hb]; exact hidx)
  have hwon : wonAt g counter x y ↔ c = Cell.Blue ∧ w = true ∧
      counter.get ⟨x * g.size + y, by rw [hc]; exact hidx⟩ = 1 := by
    unfold wonAt
    rw [hcell, hw, hk]
    simp only [Except.ok.injEq]
  unfold tallyStep
  simp only [hcell, hw, hk]
  by_cases h1 : c = Cell.Blue
  · rw [if_pos h1]
    by_cases h2 : w = true
    · rw [if_pos h2]
      by_cases h3 : counter.get ⟨x * g.size + y, by rw [hc]; exact hidx⟩ = 1
      · rw [if_pos h3, hincr]
        refine ⟨best2, wins + 1, rfl, by rw [hlen2, hb], ?_⟩
        intro i
        rw [hget2 i]
        simp only [hwon.2 ⟨h1, h2, h3⟩, and_true]
      · rw [if_neg h3]
        refine ⟨best, wins, rfl, hb, ?_⟩
        intro i
        have : ¬ wonAt g counter x y := fun h => h3 (hwon.1 h).2.2
        simp only [this, and_false, if_false, Nat.add_zero]
    · rw [if_neg h2]
      refine ⟨best, wins, rfl, hb, ?_⟩
      intro i
      have : ¬ wonAt g counter x y := fun h => h2 (hwon.1 h).2.1
      simp only [this, and_false, if_false, Nat.add_zero]
  · rw [if_neg h1]
    refine ⟨best, wins, rfl, hb, ?_⟩
    intro i
    have : ¬ wonAt g counter x y := fun h => h1 (hwon.1 h).1
    simp only [this, and_false, if_false, Nat.add_zero]

/-- The tallying loops of a trial end without failure and add one to the tally of every
cell that satisfies `wonAt`. -/
theorem tallyLoop_spec {g : BoardGraph} (hg : g.WF) {counter best : List Nat}
    (hc : counter.length = g.size * g.size) (hb : best.length = g.size * g.size) (wins : Nat) :
    ∃ best2 wins2, tallyLoop g counter (best, wins) = Except.ok (best2, wins2) ∧
      best2.length = g.size * g.size ∧
      ∀ x y, x < g.size → y < g.size →
        best2.getD (x * g.size + y) 0 =
          best.getD (x * g.size + y) 0 + (if wonAt g counter x y then 1 else 0) := by
  have h := loopM_grid (tallyStep g counter)
    (fun k st => st.1.length = g.size * g.size ∧
      ∀ x y, x < g.size → y < g.size →
        st.1.getD (x * g.size + y) 0 = best.getD (x * g.size + y) 0 +
          (if x * g.size + y < k ∧ wonAt g counter x y then 1 else 0)) g.size ?_
    (best, wins) ?_
  · obtain ⟨⟨best2, wins2⟩, h1, h2, h3⟩ := h
    refine ⟨best2, wins2, h1, h2, ?_⟩
    intro x y hx hy
    rw [h3 x y hx hy]
    simp [idx_lt hx hy]
  · rintro x y hx hy ⟨b, w⟩ ⟨hlen, hinv⟩
    simp only at hlen hinv
    obtain ⟨b2, w2, hstep, hlen2, hget2⟩ := tallyStep_spec hg hc hlen w hx hy
    refine ⟨(b2, w2), hstep, hlen2, ?_⟩
    intro x2 y2 hx2 hy2
    simp only
    rw [hget2, hinv x2 y2 hx2 hy2]
    by_cases he : x2 * g.size + y2 = x * g.size + y
    · have hxe : x2 = x := by
        have := congrArg (· / g.size) he
        simpa [idx_div hy2, idx_div hy] using this
      have hye : y2 = y := by
        have := congrArg (· % g.size) he
        simpa [idx_mod hy2, idx_mod hy] using this
      subst hxe; subst hye
      by_cases hw : wonAt g counter x2 y2 <;> simp [hw]
    · by_cases hlt : x2 * g.size + y2 < x * g.size + y
      · have : x2 * g.size + y2 < x * g.size + y + 1 := by omega
        simp [he, hlt, this]
      · have : ¬ x2 * g.size + y2 < x * g.size + y + 1 := by omega
        simp [he, hlt, this]
  · exact ⟨hb, by intro x y _ _; simp⟩

/-! ## The trial loop -/

/-- One trial ends without failure on a board of dimension N ≥ 1 and adds one to the tally
of every cell that satisfies `wonAt` on the grid as filled. -/
theorem trial_spec {n : Nat} {testboard : List (List Cell)} (htb : Square n testboard)
    (hn : 0 < n) {counter : List Nat} (hc : counter.length = n * n) (es : List Nat)
    (shuffle : Nat → List Nat → List Nat) (t : Nat) (s : TrialState)
    (hb : s.bestMoves.length = n * n) :
    ∃ s2, trial n testboard es counter shuffle t s = Except.ok s2 ∧
      s2.bestMoves.length = n * n ∧ Square n s2.board ∧
      ∀ x y, x < n → y < n →
        s2.bestMoves.getD (x * n + y) 0 = s.bestMoves.getD (x * n + y) 0 +
          (if wonAt { size := n, board := s2.board } counter x y then 1 else 0) := by
  obtain ⟨g2, turn2, hfill, hwf2, hsize2⟩ :=
    fillLoop_total (shuffle t es).reverse { size := n, board := testboard } s.turn htb hn
  obtain ⟨m, b⟩ := g2
  simp only at hsize2
  subst hsize2
  obtain ⟨best2, wins2, htally, hlen2, hget2⟩ := tallyLoop_spec hwf2 hc hb s.wins
  refine ⟨{ board := b, turn := turn2, bestMoves := best2, wins := wins2 }, ?_, hlen2, hwf2,
    hget2⟩
  unfold trial
  rw [hfill]
  simp only
  rw [htally]

theorem runTrials_succ (size : Nat) (testboard : List (List Cell))
    (es counter : List Nat) (shuffle : Nat → List Nat → List Nat) (init : TrialState)
    (k : Nat) :
    runTrials size testboard es counter shuffle init (k + 1) =
      match runTrials size testboard es counter shuffle init k with
      | Except.ok s => trial size testboard es counter shuffle k s
      | Except.error e => Except.error e := by
  unfold runTrials
  rw [List.range_succ, loopM_append]
  cases loopM (fun s trials => trial size testboard es counter shuffle trials s) init
      (List.range k) with
  | error e => rfl
  | ok s =>
    simp only [loopM]
    cases trial size testboard es counter shuffle k s <;> rfl

theorem trialsOf_succ (g : BoardGraph) (shuffle : Nat → List Nat → List Nat) (k : Nat)
    {es counter : List Nat} (he : enumerate g = Except.ok (es, counter)) :
    trialsOf g shuffle (k + 1) =
      match trialsOf g shuffle k with
      | Except.ok s => trial g.size g.board es counter shuffle k s
      | Except.error e => Except.error e := by
  unfold trialsOf
  rw [he]
  simp only
  rw [runTrials_succ]

/-- The occupancy counter of an in-bounds cell reads `1` exactly when the cell is `Blank`. -/
theorem counter_one_iff {g : BoardGraph} {counter : List Nat}
    (hlen : counter.length = g.size * g.size)
    (hcnt : ∀ i, counter.getD i 0 = if i < g.size * g.size ∧ blankAt g i then 1 else 0)
    {x y : Nat} (hx : x < g.size) (hy : y < g.size) :
    vecGet counter ((x * g.size + y : Nat) : Int) = Except.ok 1 ↔
      get2 g.board (x : Int) (y : Int) = Except.ok Cell.Blank := by
  have hidx := idx_lt hx hy
  have hl : x * g.size + y < counter.length := by rw [hlen]; exact hidx
  rw [vecGet_natCast counter _ hl]
  have h := hcnt (x * g.size + y)
  rw [List.getD_eq_getElem _ _ hl] at h
  have hb : blankAt g (x * g.size + y) ↔
      get2 g.board (x : Int) (y : Int) = Except.ok Cell.Blank := by
    unfold blankAt
    rw [idx_div hy, idx_mod hy]
  rw [← hb]
  simp only [List.get_eq_getElem, Except.ok.injEq]
  rw [h]
  by_cases hbl : blankAt g (x * g.size + y) <;> simp [hbl, hidx]

/-- The trial loop of `AIalgorithm` on a grid of size N ≥ 1 ends without failure after any
number `k` of passes, and `bestMoves` then holds, for each cell, the number of the first
`k` trials that count it. -/
theorem trialsOf_spec {g : BoardGraph} (hg : g.WF) (hn : 0 < g.size)
    (shuffle : Nat → List Nat → List Nat) (k : Nat) :
    ∃ s, trialsOf g shuffle k = Except.ok s ∧ s.bestMoves.length = g.size * g.size ∧
      Square g.size s.board ∧
      ∀ x y, x < g.size → y < g.size →
        s.bestMoves.getD (x * g.size + y) 0 =
          ((List.range k).filter (fun t => wonTrial g shuffle t x y)).length := by
  obtain ⟨es, counter, henum, -, hclen, hcnt⟩ := enumerate_spec hg
  induction k with
  | zero =>
    refine ⟨TrialState.mk g.board 0 (List.replicate (g.size * g.size) 0) 0, ?_,
      List.length_replicate _ _, hg, ?_⟩
    · unfold trialsOf
      rw [henum]
      rfl
    · intro x y hx hy
      simp only [List.getD_eq_getElem?_getD, List.getElem?_replicate, List.range_zero,
        List.filter_nil, List.length_nil]
      split_ifs <;> rfl
  | succ k ih =>
    obtain ⟨s, hs, hlen, -, hget⟩ := ih
    obtain ⟨s2, htrial, hlen2, hsq2, hget2⟩ :=
      trial_spec hg hn hclen es shuffle k s hlen
    have hsucc : trialsOf g shuffle (k + 1) = Except.ok s2 := by
      rw [trialsOf_succ g shuffle k henum, hs]
      exact htrial
    refine ⟨s2, hsucc, hlen2, hsq2, ?_⟩
    intro x y hx hy
    rw [hget2 x y hx hy, hget x y hx hy, List.range_succ, List.filter_append,
      List.length_append]
    congr 1
    have hw : wonTrial g shuffle k x y =
        decide (wonAt { size := g.size, board := s2.board } counter x y) := by
      unfold wonTrial
      rw [hsucc]
      simp only
      unfold wonAt
      simp only
      rw [decide_eq_decide, counter_one_iff hclen hcnt hx hy]
    by_cases hwon : wonAt { size := g.size, board := s2.board } counter x y
    · simp [hw, hwon]
    · simp [hw, hwon]

/-! ## The choice of the move -/

theorem maxElementFrom_spec : ∀ (rest pre : List Nat) (largest best : Nat),
    largest < pre.length → pre.getD largest 0 = best →
    (∀ j, j < pre.length → pre.getD j 0 ≤ best) →
    (∀ j, j < largest → pre.getD j 0 < best) →
    maxElementFrom largest best pre.length rest < (pre ++ rest).length ∧
      (∀ j, (pre ++ rest).getD j 0 ≤
        (pre ++ rest).getD (maxElementFrom largest best pre.length rest) 0) ∧
      ∀ j, j < maxElementFrom largest best pre.length rest →
        (pre ++ rest).getD j 0 <
          (pre ++ rest).getD (maxElementFrom largest best pre.length rest) 0 := by
  intro rest
  induction rest with
  | nil =>
    intro pre largest best hl hb hle hlt
    simp only [maxElementFrom, List.append_nil]
    refine ⟨hl, ?_, ?_⟩
    · intro j
      rw [hb]
      by_cases hj : j < pre.length
      · exact hle j hj
      · rw [List.getD_eq_default _ _ (by omega)]
        exact Nat.zero_le _
    · intro j hj
      rw [hb]
      exact hlt j hj
  | cons a rest ih =>
    intro pre largest best hl hb hle hlt
    have happ : pre ++ a :: rest = (pre ++ [a]) ++ rest := by simp
    have hlen : (pre ++ [a]).length = pre.length + 1 := by simp
    have hold : ∀ j, j < pre.length → (pre ++ [a]).getD j 0 = pre.getD j 0 :=
      fun j hj => List.getD_append _ _ _ _ hj
    have hnew : (pre ++ [a]).getD pre.length 0 = a := by
      rw [List.getD_append_right _ _ _ _ (Nat.le_refl _)]
      simp
    rw [happ]
    unfold maxElementFrom
    by_cases hlt2 : best < a
    · rw [if_pos hlt2, ← hlen]
      apply ih (pre ++ [a]) pre.length a (by omega) hnew
      · intro j hj
        rcases Nat.lt_or_ge j pre.length with h | h
        · rw [hold j h]
          exact Nat.le_of_lt (Nat.lt_of_le_of_lt (hle j h) hlt2)
        · have : j = pre.length := by omega
          rw [this, hnew]
      · intro j hj
        rw [hold j hj]
        exact Nat.lt_of_le_of_lt (hle j hj) hlt2
    · rw [if_neg hlt2, ← hlen]
      apply ih (pre ++ [a]) largest best (by omega)
      · rw [hold largest hl]; exact hb
      · intro j hj
        rcases Nat.lt_or_ge j pre.length with h | h
        · rw [hold j h]
          exact hle j h
        · have : j = pre.length := by omega
          rw [this, hnew]
          omega
      · intro j hj
        rw [hold j (by omega)]
        exact hlt j hj

/-- On a non-empty vector `max_element` gives the position of the first largest element. -/
theorem max_element_spec (v : List Nat) (hv : v ≠ []) :
    max_element v < v.length ∧
      (∀ j, v.getD j 0 ≤ v.getD (max_element v) 0) ∧
      ∀ j, j < max_element v → v.getD j 0 < v.getD (max_element v) 0 := by
  cases v with
  | nil => exact absurd rfl hv
  | cons a rest =>
    have h := maxElementFrom_spec rest [a] 0 a (by simp) (by simp)
      (by
        intro j hj
        have : j = 0 := by simpa using hj
        subst this
        simp)
      (by intro j hj; omega)
    simpa [max_element] using h

theorem selectMove_eq {n : Nat} (hn : 0 < n) (best es : List Nat) (hb : best.length = n * n) :
    selectMove n best es =
      if best.getD (max_element best) 0 = 0 then
        match es.head? with
        | some e => Except.ok (((e / n : Nat) : Int), ((e % n : Nat) : Int))
        | none => Except.error Err.outOfRange
      else Except.ok (((max_element best / n : Nat) : Int), ((max_element best % n : Nat) : Int)) := by
  have h0 : ¬ n = 0 := by omega
  have hne : best ≠ [] := by
    intro h
    rw [h] at hb
    have : 0 < n * n := Nat.mul_pos hn hn
    simp at hb
    omega
  have hlt := (max_element_spec best hne).1
  unfold selectMove
  simp only [idiv, imod, if_neg h0]
  rw [vecGet_natCast best _ hlt]
  simp only
  rw [List.getD_eq_getElem _ _ hlt, List.get_eq_getElem]
  by_cases hm : best[max_element best] = 0
  · rw [if_pos hm, if_pos hm]
    cases es with
    | nil => simp [vecGet]
    | cons e rest => simp [vecGet]
  · rw [if_neg hm, if_neg hm]

/-! ## `AIalgorithm` -/

theorem tally_pos_blank {g : BoardGraph} {shuffle : Nat → List Nat → List Nat} {x y : Nat}
    (h : 0 < tally g shuffle x y) :
    get2 g.board (x : Int) (y : Int) = Except.ok Cell.Blank := by
  unfold tally at h
  obtain ⟨t, ht⟩ := List.exists_mem_of_length_pos h
  have hw := (List.mem_filter.1 ht).2
  unfold wonTrial at hw
  split at hw
  · exact (of_decide_eq_true hw).2.2
  · cases hw

/-- The run of `AIalgorithm` on a grid of size N ≥ 1: the trial loop ends without failure
with the tallies in `bestMoves`, and the result is that of `selectMove` on them. -/
theorem AIalgorithm_eq {g : BoardGraph} (hg : g.WF) (hn : 0 < g.size)
    (shuffle : Nat → List Nat → List Nat) :
    ∃ s : TrialState, s.bestMoves.length = g.size * g.size ∧
      (∀ x y, x < g.size → y < g.size →
        s.bestMoves.getD (x * g.size + y) 0 = tally g shuffle x y) ∧
      AIalgorithm g shuffle =
        match selectMove g.size s.bestMoves (emptyIndices g) with
        | Except.error e => Except.error e
        | Except.ok move => Except.ok (move, { g with board := s.board }) := by
  obtain ⟨es, counter, henum, hes, -, -⟩ := enumerate_spec hg
  obtain ⟨s, hs, hlen, -, hget⟩ := trialsOf_spec hg hn shuffle trialCount
  refine ⟨s, hlen, hget, ?_⟩
  unfold trialsOf at hs
  rw [henum] at hs
  simp only at hs
  unfold AIalgorithm
  rw [henum]
  simp only
  rw [hs]
  simp only
  rw [hes]
  rfl

theorem mem_emptyIndices (g : BoardGraph) (i : Nat) :
    i ∈ emptyIndices g ↔ i < g.size * g.size ∧ blankAt g i := by
  unfold emptyIndices
  rw [List.mem_filter, List.mem_range, decide_eq_true_eq]

/-- On a grid of size N ≥ 1 with a `Blank` cell, `AIalgorithm` ends without failure and
returns the coordinate of a cell that is `Blank` in the grid it was called on: the cell of
the first largest tally if a tally is positive, the first `Blank` cell otherwise. -/
theorem AIalgorithm_blank {g : BoardGraph} (hg : g.WF) (hn : 0 < g.size)
    (shuffle : Nat → List Nat → List Nat) (hne : emptyIndices g ≠ []) :
    ∃ (r c : Nat) (g2 : BoardGraph),
      AIalgorithm g shuffle = Except.ok (((r : Int), (c : Int)), g2) ∧
      r < g.size ∧ c < g.size ∧
      get2 g.board (r : Int) (c : Int) = Except.ok Cell.Blank := by
  obtain ⟨s, hlen, hget, hrun⟩ := AIalgorithm_eq hg hn shuffle
  have hbne : s.bestMoves ≠ [] := by
    intro h
    rw [h] at hlen
    have : 0 < g.size * g.size := Nat.mul_pos hn hn
    simp at hlen
    omega
  have hd := (max_element_spec s.bestMoves hbne).1
  rw [hlen] at hd
  rw [selectMove_eq hn s.bestMoves (emptyIndices g) hlen] at hrun
  by_cases hz : s.bestMoves.getD (max_element s.bestMoves) 0 = 0
  · rw [if_pos hz] at hrun
    cases he : emptyIndices g with
    | nil => exact absurd he hne
    | cons e rest =>
      rw [he] at hrun
      have hmem : e ∈ emptyIndices g := by rw [he]; exact List.mem_cons_self _ _
      obtain ⟨hlt, hbl⟩ := (mem_emptyIndices g e).1 hmem
      exact ⟨e / g.size, e % g.size, _, hrun, div_lt_of_lt_sq hlt, Nat.mod_lt _ hn, hbl⟩
  · rw [if_neg hz] at hrun
    refine ⟨max_element s.bestMoves / g.size, max_element s.bestMoves % g.size, _, hrun,
      div_lt_of_lt_sq hd, Nat.mod_lt _ hn, ?_⟩
    apply @tally_pos_blank g shuffle
    rw [← hget _ _ (div_lt_of_lt_sq hd) (Nat.mod_lt _ hn), Nat.mul_comm, Nat.div_add_mod]
    exact Nat.pos_of_ne_zero hz

/-- On a grid of size N ≥ 1 without a `Blank` cell, `AIalgorithm` reads `emptySpotsCopy[0]`
of an empty vector. -/
theorem AIalgorithm_full {g : BoardGraph} (hg : g.WF) (hn : 0 < g.size)
    (shuffle : Nat → List Nat → List Nat) (hfull : emptyIndices g = []) :
    AIalgorithm g shuffle = Except.error Err.outOfRange := by
  obtain ⟨s, hlen, hget, hrun⟩ := AIalgorithm_eq hg hn shuffle
  have hbne : s.bestMoves ≠ [] := by
    intro h
    rw [h] at hlen
    have : 0 < g.size * g.size := Nat.mul_pos hn hn
    simp at hlen
    omega
  have hd := (max_element_spec s.bestMoves hbne).1
  rw [hlen] at hd
  have hz : s.bestMoves.getD (max_element s.bestMoves) 0 = 0 := by
    by_contra hz
    have hpos : 0 < tally g shuffle (max_element s.bestMoves / g.size)
        (max_element s.bestMoves % g.size) := by
      rw [← hget _ _ (div_lt_of_lt_sq hd) (Nat.mod_lt _ hn), Nat.mul_comm, Nat.div_add_mod]
      exact Nat.pos_of_ne_zero hz
    have hbl : blankAt g (max_element s.bestMoves) := tally_pos_blank hpos
    have hmem := (mem_emptyIndices g _).2 ⟨hd, hbl⟩
    rw [hfull] at hmem
    cases hmem
  rw [selectMove_eq hn s.bestMoves (emptyIndices g) hlen, if_pos hz, hfull] at hrun
  exact hrun

theorem emptyIndices_ne_nil {g : BoardGraph} (hg : g.WF) {x y : Int}
    (h : get2 g.board x y = Except.ok Cell.Blank) : emptyIndices g ≠ [] := by
  obtain ⟨hx0, hx1, hy0, hy1⟩ := get2_ok_inBounds hg h
  have hx : x.toNat < g.size := by omega
  have hy : y.toNat < g.size := by omega
  have hmem : x.toNat * g.size + y.toNat ∈ emptyIndices g := by
    rw [mem_emptyIndices]
    refine ⟨idx_lt hx hy, ?_⟩
    unfold blankAt
    rw [idx_div hy, idx_mod hy, Int.toNat_of_nonneg hx0, Int.toNat_of_nonneg hy0]
    exact h
  intro hnil
  rw [hnil] at hmem
  cases hmem

theorem tally_pos_of_wonTrial {g : BoardGraph} {shuffle : Nat → List Nat → List Nat}
    {t x y : Nat} (ht : t < trialCount) (hw : wonTrial g shuffle t x y = true) :
    0 < tally g shuffle x y :=
  List.length_pos_of_mem (List.mem_filter.2 ⟨List.mem_range.2 ht, hw⟩)

theorem rowMajor_lt {n x y r c : Nat} (hy : y < n) (h : x < r ∨ (x = r ∧ y < c)) :
    x * n + y < r * n + c := by
  rcases h with h | ⟨h1, h2⟩
  · have h3 : (x + 1) * n ≤ r * n := Nat.mul_le_mul_right n h
    have h4 : (x + 1) * n = x * n + n := by ring
    omega
  · subst h1
    omega

/-- C6: on a grid of size N ≥ 1 with at least one `Blank` cell, for every sequence of
permutations given by the shuffle, `AIalgorithm` returns a coordinate that is in bounds
and whose cell is `Blank` in the grid before the call, so that `makeMove` with it on that
grid succeeds. -/
theorem AIalgorithm_legal (g : BoardGraph) (hg : g.WF) (hN : 1 ≤ g.size)
    (hempty : ∃ x y : Int, get2 g.board x y = Except.ok Cell.Blank)
    (shuffle : Nat → List Nat → List Nat) (_hperm : ∀ t l, (shuffle t l).Perm l) :
    ∃ (x y : Int) (g2 : BoardGraph), AIalgorithm g shuffle = Except.ok ((x, y), g2) ∧
      (0 ≤ x ∧ x < (g.size : Int) ∧ 0 ≤ y ∧ y < (g.size : Int)) ∧
      get2 g.board x y = Except.ok Cell.Blank ∧
      ∀ p : player, ∃ g3, makeMove g x y p = Except.ok (true, g3) := by
  obtain ⟨x0, y0, h0⟩ := hempty
  obtain ⟨r, c, g2, hrun, hr, hc, hbl⟩ :=
    AIalgorithm_blank hg hN shuffle (emptyIndices_ne_nil hg h0)
  refine ⟨(r : Int), (c : Int), g2, hrun, inBounds_natCast hr hc, hbl, ?_⟩
  intro p
  obtain ⟨v, hv, hiff⟩ := ValidMove_total hg (r : Int) (c : Int)
  have hvt : v = true := hiff.2 ⟨inBounds_natCast hr hc, hbl⟩
  rw [hvt] at hv
  obtain ⟨g3, hm, -⟩ := makeMove_true hg p hv
  exact ⟨g3, hm⟩

theorem AIalgorithm_legal_witness :
    (BoardGraph.mk0 2).WF ∧ 1 ≤ (BoardGraph.mk0 2).size ∧
    (∃ x y : Int, get2 (BoardGraph.mk0 2).board x y = Except.ok Cell.Blank) ∧
    (∀ (t : Nat) (l : List Nat), ((fun (_ : Nat) (l : List Nat) => l.reverse) t l).Perm l) ∧
    ∃ (x y : Int) (g2 : BoardGraph),
      AIalgorithm (BoardGraph.mk0 2) (fun _ l => l.reverse) = Except.ok ((x, y), g2) ∧
      (0 ≤ x ∧ x < ((BoardGraph.mk0 2).size : Int) ∧ 0 ≤ y ∧
        y < ((BoardGraph.mk0 2).size : Int)) ∧
      get2 (BoardGraph.mk0 2).board x y = Except.ok Cell.Blank ∧
      ∀ p : player, ∃ g3, makeMove (BoardGraph.mk0 2) x y p = Except.ok (true, g3) :=
  ⟨by decide, by decide, ⟨0, 0, by decide⟩, fun _ l => List.reverse_perm l,
    AIalgorithm_legal (BoardGraph.mk0 2) (by decide) (by decide) ⟨0, 0, by decide⟩
      (fun _ l => l.reverse) (fun _ l => List.reverse_perm l)⟩

/-- C7 (the code departs from the claim): on the 1×1 grid whose cell is Blue, a grid with
no `Blank` cell, `AIalgorithm` fails for every shuffle: all tallies are zero, so it takes
the fallback and reads `emptySpotsCopy[0]` of an empty vector, out of range. -/
theorem AIalgorithm_full_board_fails (shuffle : Nat → List Nat → List Nat) :
    AIalgorithm (BoardGraph.mk 1 [[Cell.Blue]]) shuffle = Except.error Err.outOfRange :=
  AIalgorithm_full (by decide) (by decide) shuffle (by decide)

/-- C8 (the code departs from the claim): on the empty 5×5 board, with the shuffle that
leaves the vector as it is, the first cell filled in each trial is `(4, 4)`, the last
element `4 * 5 + 4` of `emptySpots`. The first trial leaves it Blue and `turn` at `1`; `turn` is not
reset, so the second trial fills `(4, 4)` with a Red stone. -/
theorem second_trial_starts_red :
    (match enumerate (BoardGraph.mk0 5) with
        | Except.ok en => Except.ok en.1.getLast?
        | Except.error e => Except.error e) = Except.ok (some (4 * 5 + 4)) ∧
      (match trialsOf (BoardGraph.mk0 5) (fun _ l => l) 1 with
        | Except.ok s => Except.ok (s.turn, get2 s.board 4 4)
        | Except.error e => Except.error e) = Except.ok (1, Except.ok Cell.Blue) ∧
      (match trialsOf (BoardGraph.mk0 5) (fun _ l => l) 2 with
        | Except.ok s => Except.ok (s.turn, get2 s.board 4 4)
        | Except.error e => Except.error e) = Except.ok (0, Except.ok Cell.Red) := by
  decide

/-- C9: on a grid of size N ≥ 1 whose only `Blank` cell is `e`, where a Blue stone at `e`
makes `win` true at `e`, `AIalgorithm` returns `e` for every sequence of permutations
given by the shuffle. -/
theorem AIalgorithm_single_empty (g : BoardGraph) (hg : g.WF) (hN : 1 ≤ g.size)
    (e : Int × Int)
    (hone : ∀ x y : Int, get2 g.board x y = Except.ok Cell.Blank ↔ (x, y) = e)
    (_hwin : ∃ g2, makeMove g e.1 e.2 player.BLUE = Except.ok (true, g2) ∧
      win g2 e.1 e.2 = Except.ok true)
    (shuffle : Nat → List Nat → List Nat) (_hperm : ∀ t l, (shuffle t l).Perm l) :
    ∃ g3, AIalgorithm g shuffle = Except.ok (e, g3) := by
  have he : get2 g.board e.1 e.2 = Except.ok Cell.Blank := (hone e.1 e.2).2 rfl
  obtain ⟨r, c, g3, hrun, -, -, hbl⟩ :=
    AIalgorithm_blank hg hN shuffle (emptyIndices_ne_nil hg he)
  refine ⟨g3, ?_⟩
  rw [hrun, (hone _ _).1 hbl]

theorem AIalgorithm_single_empty_witness :
    (BoardGraph.mk 2 [[Cell.Red, Cell.Blue], [Cell.Blank, Cell.Red]]).WF ∧
    1 ≤ (BoardGraph.mk 2 [[Cell.Red, Cell.Blue], [Cell.Blank, Cell.Red]]).size ∧
    (∀ x y : Int,
      get2 (BoardGraph.mk 2 [[Cell.Red, Cell.Blue], [Cell.Blank, Cell.Red]]).board x y =
        Except.ok Cell.Blank ↔ (x, y) = ((1, 0) : Int × Int)) ∧
    (∃ g2, makeMove (BoardGraph.mk 2 [[Cell.Red, Cell.Blue], [Cell.Blank, Cell.Red]])
        ((1, 0) : Int × Int).1 ((1, 0) : Int × Int).2 player.BLUE = Except.ok (true, g2) ∧
      win g2 ((1, 0) : Int × Int).1 ((1, 0) : Int × Int).2 = Except.ok true) ∧
    (∀ (t : Nat) (l : List Nat), ((fun (_ : Nat) (l : List Nat) => l) t l).Perm l) ∧
    ∃ g3, AIalgorithm (BoardGraph.mk 2 [[Cell.Red, Cell.Blue], [Cell.Blank, Cell.Red]])
      (fun _ l => l) = Except.ok (((1, 0) : Int × Int), g3) := by
  have hone : ∀ x y : Int,
      get2 (BoardGraph.mk 2 [[Cell.Red, Cell.Blue], [Cell.Blank, Cell.Red]]).board x y =
        Except.ok Cell.Blank ↔ (x, y) = ((1, 0) : Int × Int) := by
    intro x y
    constructor
    · intro h
      have hwf : (BoardGraph.mk 2 [[Cell.Red, Cell.Blue], [Cell.Blank, Cell.Red]]).WF := by
        decide
      obtain ⟨hx0, hx1, hy0, hy1⟩ := get2_ok_inBounds hwf h
      simp only [Nat.cast_ofNat] at hx1 hy1
      have hx : x = 0 ∨ x = 1 := by omega
      have hy : y = 0 ∨ y = 1 := by omega
      rcases hx with rfl | rfl <;> rcases hy with rfl | rfl <;> first | rfl | cases h
    · intro h
      cases h
      decide
  have hwin : ∃ g2, makeMove (BoardGraph.mk 2 [[Cell.Red, Cell.Blue], [Cell.Blank, Cell.Red]])
        ((1, 0) : Int × Int).1 ((1, 0) : Int × Int).2 player.BLUE = Except.ok (true, g2) ∧
      win g2 ((1, 0) : Int × Int).1 ((1, 0) : Int × Int).2 = Except.ok true :=
    ⟨BoardGraph.mk 2 [[Cell.Red, Cell.Blue], [Cell.Blue, Cell.Red]], by decide, by decide⟩
  exact ⟨by decide, by decide, hone, hwin, fun _ l => List.Perm.refl l,
    AIalgorithm_single_empty (BoardGraph.mk 2 [[Cell.Red, Cell.Blue], [Cell.Blank, Cell.Red]])
      (by decide) (by decide) (1, 0) hone hwin (fun _ l => l) (fun _ l => List.Perm.refl l)⟩

theorem tally_pos_inBounds {g : BoardGraph} (hg : g.WF) {shuffle : Nat → List Nat → List Nat}
    {x y : Nat} (h : 0 < tally g shuffle x y) : x < g.size ∧ y < g.size := by
  obtain ⟨-, hx1, -, hy1⟩ := get2_ok_inBounds hg (tally_pos_blank h)
  omega

/-- C10: with `tally g shuffle x y` the number of trials after whose fill the cell `(x, y)`
is Blue, `win(x, y)` is true and the cell was `Blank` in the snapshot, whenever some tally
is positive `AIalgorithm` returns a cell of the highest tally, and every cell before it in
row-major order has a strictly smaller tally. -/
theorem AIalgorithm_max_tally (g : BoardGraph) (hg : g.WF)
    (shuffle : Nat → List Nat → List Nat) (_hperm : ∀ t l, (shuffle t l).Perm l)
    (hpos : ∃ x y : Nat, 0 < tally g shuffle x y) :
    ∃ (r c : Nat) (g2 : BoardGraph),
      AIalgorithm g shuffle = Except.ok (((r : Int), (c : Int)), g2) ∧
      r < g.size ∧ c < g.size ∧
      (∀ x y : Nat, tally g shuffle x y ≤ tally g shuffle r c) ∧
      ∀ x y : Nat, x < g.size → y < g.size → (x < r ∨ (x = r ∧ y < c)) →
        tally g shuffle x y < tally g shuffle r c := by
  obtain ⟨x0, y0, h0⟩ := hpos
  obtain ⟨hx0, hy0⟩ := tally_pos_inBounds hg h0
  have hn : 0 < g.size := by omega
  obtain ⟨s, hlen, hget, hrun⟩ := AIalgorithm_eq hg hn shuffle
  have hbne : s.bestMoves ≠ [] := by
    intro h
    rw [h] at hlen
    have : 0 < g.size * g.size := Nat.mul_pos hn hn
    simp at hlen
    omega
  obtain ⟨hd, hmax, hfirst⟩ := max_element_spec s.bestMoves hbne
  rw [hlen] at hd
  have hr := div_lt_of_lt_sq hd
  have hc : max_element s.bestMoves % g.size < g.size := Nat.mod_lt _ hn
  have hidx : max_element s.bestMoves / g.size * g.size + max_element s.bestMoves % g.size =
      max_element s.bestMoves := by
    rw [Nat.mul_comm, Nat.div_add_mod]
  have htop : s.bestMoves.getD (max_element s.bestMoves) 0 =
      tally g shuffle (max_element s.bestMoves / g.size) (max_element s.bestMoves % g.size) := by
    rw [← hget _ _ hr hc, hidx]
  have hz : ¬ s.bestMoves.getD (max_element s.bestMoves) 0 = 0 := by
    have h1 := hmax (x0 * g.size + y0)
    rw [hget x0 y0 hx0 hy0] at h1
    omega
  rw [selectMove_eq hn s.bestMoves (emptyIndices g) hlen, if_neg hz] at hrun
  refine ⟨max_element s.bestMoves / g.size, max_element s.bestMoves % g.size, _, hrun, hr, hc,
    ?_, ?_⟩
  · intro x y
    rw [← htop]
    by_cases hxy : x < g.size ∧ y < g.size
    · rw [← hget x y hxy.1 hxy.2]
      exact hmax _
    · have : tally g shuffle x y = 0 := by
        by_contra hne
        exact hxy (tally_pos_inBounds hg (Nat.pos_of_ne_zero hne))
      rw [this]
      exact Nat.zero_le _
  · intro x y hx hy hlt
    rw [← htop, ← hget x y hx hy]
    apply hfirst
    have := rowMajor_lt (n := g.size) hy hlt
    omega

theorem AIalgorithm_max_tally_witness :
    (BoardGraph.mk 2 [[Cell.Red, Cell.Blank], [Cell.Blank, Cell.Blank]]).WF ∧
    (∀ (t : Nat) (l : List Nat), ((fun (_ : Nat) (l : List Nat) => l.rotate 1) t l).Perm l) ∧
    (∃ x y : Nat, 0 < tally (BoardGraph.mk 2 [[Cell.Red, Cell.Blank], [Cell.Blank, Cell.Blank]])
      (fun _ l => l.rotate 1) x y) ∧
    (tally (BoardGraph.mk 2 [[Cell.Red, Cell.Blank], [Cell.Blank, Cell.Blank]])
        (fun _ l => l.rotate 1) 0 0 = 0 ∧
      0 < tally (BoardGraph.mk 2 [[Cell.Red, Cell.Blank], [Cell.Blank, Cell.Blank]])
        (fun _ l => l.rotate 1) 0 1 ∧
      0 < tally (BoardGraph.mk 2 [[Cell.Red, Cell.Blank], [Cell.Blank, Cell.Blank]])
        (fun _ l => l.rotate 1) 1 0) ∧
    ∃ (r c : Nat) (g2 : BoardGraph),
      AIalgorithm (BoardGraph.mk 2 [[Cell.Red, Cell.Blank], [Cell.Blank, Cell.Blank]])
        (fun _ l => l.rotate 1) = Except.ok (((r : Int), (c : Int)), g2) ∧
      r < (BoardGraph.mk 2 [[Cell.Red, Cell.Blank], [Cell.Blank, Cell.Blank]]).size ∧
      c < (BoardGraph.mk 2 [[Cell.Red, Cell.Blank], [Cell.Blank, Cell.Blank]]).size ∧
      (∀ x y : Nat,
        tally (BoardGraph.mk 2 [[Cell.Red, Cell.Blank], [Cell.Blank, Cell.Blank]])
            (fun _ l => l.rotate 1) x y ≤
          tally (BoardGraph.mk 2 [[Cell.Red, Cell.Blank], [Cell.Blank, Cell.Blank]])
            (fun _ l => l.rotate 1) r c) ∧
      ∀ x y : Nat,
        x < (BoardGraph.mk 2 [[Cell.Red, Cell.Blank], [Cell.Blank, Cell.Blank]]).size →
        y < (BoardGraph.mk 2 [[Cell.Red, Cell.Blank], [Cell.Blank, Cell.Blank]]).size →
        (x < r ∨ (x = r ∧ y < c)) →
        tally (BoardGraph.mk 2 [[Cell.Red, Cell.Blank], [Cell.Blank, Cell.Blank]])
            (fun _ l => l.rotate 1) x y <
          tally (BoardGraph.mk 2 [[Cell.Red, Cell.Blank], [Cell.Blank, Cell.Blank]])
            (fun _ l => l.rotate 1) r c := by
  have h01 : 0 < tally (BoardGraph.mk 2 [[Cell.Red, Cell.Blank], [Cell.Blank, Cell.Blank]])
      (fun _ l => l.rotate 1) 0 1 :=
    tally_pos_of_wonTrial (t := 0) (by decide) (by decide)
  have h10 : 0 < tally (BoardGraph.mk 2 [[Cell.Red, Cell.Blank], [Cell.Blank, Cell.Blank]])
      (fun _ l => l.rotate 1) 1 0 :=
    tally_pos_of_wonTrial (t := 0) (by decide) (by decide)
  have h00 : tally (BoardGraph.mk 2 [[Cell.Red, Cell.Blank], [Cell.Blank, Cell.Blank]])
      (fun _ l => l.rotate 1) 0 0 = 0 := by
    by_contra hne
    exact absurd (tally_pos_blank (Nat.pos_of_ne_zero hne)) (by decide)
  exact ⟨by decide, fun _ l => List.rotate_perm l 1, ⟨0, 1, h01⟩, ⟨h00, h01, h10⟩,
    AIalgorithm_max_tally (BoardGraph.mk 2 [[Cell.Red, Cell.Blank], [Cell.Blank, Cell.Blank]])
      (by decide) (fun _ l => l.rotate 1) (fun _ l => List.rotate_perm l 1) ⟨0, 1, h01⟩⟩

/-! ## The fallback of `AIalgorithm` -/

/-- The head of `emptyIndices` is the least row-major index of a `Blank` cell. -/
theorem emptyIndices_head_le {g : BoardGraph} {e : Nat} {rest : List Nat}
    (h : emptyIndices g = e :: rest) {i : Nat} (hi : i ∈ emptyIndices g) : e ≤ i := by
  have hs : (emptyIndices g).Pairwise (· < ·) := by
    unfold emptyIndices
    exact List.Pairwise.filter _ (List.pairwise_lt_range _)
  rw [h] at hs hi
  rcases List.mem_cons.1 hi with rfl | hr
  · exact Nat.le_refl _
  · exact Nat.le_of_lt ((List.pairwise_cons.1 hs).1 i hr)

/-- C11: on a grid with at least one `Blank` cell, for every sequence of permutations given
by the shuffle after which every tally is zero, `AIalgorithm` returns the first `Blank`
cell of the grid in row-major order: the returned cell is `Blank` and no cell before it in
row-major order is. -/
theorem AIalgorithm_fallback (g : BoardGraph) (hg : g.WF)
    (hempty : ∃ x y : Int, get2 g.board x y = Except.ok Cell.Blank)
    (shuffle : Nat → List Nat → List Nat) (_hperm : ∀ t l, (shuffle t l).Perm l)
    (hzero : ∀ x y : Nat, tally g shuffle x y = 0) :
    ∃ (r c : Nat) (g2 : BoardGraph),
      AIalgorithm g shuffle = Except.ok (((r : Int), (c : Int)), g2) ∧
      r < g.size ∧ c < g.size ∧
      get2 g.board (r : Int) (c : Int) = Except.ok Cell.Blank ∧
      ∀ x y : Nat, x < g.size → y < g.size → (x < r ∨ (x = r ∧ y < c)) →
        get2 g.board (x : Int) (y : Int) ≠ Except.ok Cell.Blank := by
  obtain ⟨x0, y0, h0⟩ := hempty
  have hn : 0 < g.size := by
    obtain ⟨hx0, hx1, -, -⟩ := get2_ok_inBounds hg h0
    omega
  obtain ⟨s, hlen, hget, hrun⟩ := AIalgorithm_eq hg hn shuffle
  have hbne : s.bestMoves ≠ [] := by
    intro h
    rw [h] at hlen
    have : 0 < g.size * g.size := Nat.mul_pos hn hn
    simp at hlen
    omega
  have hd := (max_element_spec s.bestMoves hbne).1
  rw [hlen] at hd
  have hz : s.bestMoves.getD (max_element s.bestMoves) 0 = 0 := by
    have h1 := hget _ _ (div_lt_of_lt_sq hd) (Nat.mod_lt (max_element s.bestMoves) hn)
    rw [Nat.mul_comm, Nat.div_add_mod] at h1
    rw [h1]
    exact hzero _ _
  rw [selectMove_eq hn s.bestMoves (emptyIndices g) hlen, if_pos hz] at hrun
  cases he : emptyIndices g with
  | nil => exact absurd he (emptyIndices_ne_nil hg h0)
  | cons e rest =>
    rw [he] at hrun
    have hmem : e ∈ emptyIndices g := by rw [he]; exact List.mem_cons_self _ _
    obtain ⟨hlt, hbl⟩ := (mem_emptyIndices g e).1 hmem
    refine ⟨e / g.size, e % g.size, _, hrun, div_lt_of_lt_sq hlt, Nat.mod_lt _ hn, hbl, ?_⟩
    intro x y hx hy hbefore hblank
    have hidx : x * g.size + y ∈ emptyIndices g := by
      rw [mem_emptyIndices]
      refine ⟨idx_lt hx hy, ?_⟩
      unfold blankAt
      rw [idx_div hy, idx_mod hy]
      exact hblank
    have hle := emptyIndices_head_le he hidx
    have hlt2 := rowMajor_lt (n := g.size) hy hbefore
    have hsplit : e / g.size * g.size + e % g.size = e := by
      rw [Nat.mul_comm, Nat.div_add_mod]
    omega

/-! ## The grid after the fill -/

/-- The fill loop on a grid of size N ≥ 1: it ends without failure, keeps the size and every
stone already on the grid, and leaves no listed cell of the board `Blank`. -/
theorem fillLoop_spec : ∀ (l : List Nat) (g : BoardGraph) (turn : Nat), g.WF → 0 < g.size →
    ∃ g2 turn2, fillLoop g turn l = Except.ok (g2, turn2) ∧ g2.WF ∧ g2.size = g.size ∧
      (∀ (x y : Int) (c : Cell), get2 g.board x y = Except.ok c → c ≠ Cell.Blank →
        get2 g2.board x y = Except.ok c) ∧
      ∀ i, i ∈ l → i < g.size * g.size → ¬ blankAt g2 i := by
  intro l
  induction l with
  | nil =>
    intro g turn hg _
    exact ⟨g, turn, rfl, hg, rfl, fun _ _ _ h _ => h, fun i hi => absurd hi (List.not_mem_nil i)⟩
  | cons last rest ih =>
    intro g turn hg hn
    have hstep : ∃ g1, g1.WF ∧ g1.size = g.size ∧
        (∃ r, makeMove g ((last / g.size : Nat) : Int) ((last % g.size : Nat) : Int)
          (if flipTurn turn = 1 then player.BLUE else player.RED) = Except.ok (r, g1)) ∧
        (∀ (x y : Int) (c : Cell), get2 g.board x y = Except.ok c → c ≠ Cell.Blank →
          get2 g1.board x y = Except.ok c) ∧
        (last < g.size * g.size → ¬ blankAt g1 last) := by
      obtain ⟨v, hv, hiff⟩ := ValidMove_total hg ((last / g.size : Nat) : Int)
        ((last % g.size : Nat) : Int)
      cases v
      · refine ⟨g, hg, rfl, ⟨false, makeMove_false _ hv⟩, fun _ _ _ h _ => h, ?_⟩
        intro hlt hbl
        have := hiff.2 ⟨inBounds_of_idx hlt, hbl⟩
        cases this
      · obtain ⟨g1, hm, hwf1, hsize1, hget1, hother1⟩ := makeMove_true hg
          (if flipTurn turn = 1 then player.BLUE else player.RED) hv
        obtain ⟨-, hblank⟩ := hiff.1 rfl
        refine ⟨g1, hwf1, hsize1, ⟨true, hm⟩, ?_, ?_⟩
        · intro x y c hc hne
          by_cases hxy : (x, y) = (((last / g.size : Nat) : Int), ((last % g.size : Nat) : Int))
          · cases hxy
            rw [hblank] at hc
            cases hc
            exact absurd rfl hne
          · rw [hother1 x y hxy]
            exact hc
        · intro _ hbl
          unfold blankAt at hbl
          rw [hsize1, hget1] at hbl
          cases hturn : (if flipTurn turn = 1 then player.BLUE else player.RED) <;>
            rw [hturn] at hbl <;> cases hbl
    obtain ⟨g1, hwf1, hsize1, ⟨r, hm⟩, hframe1, hlast1⟩ := hstep
    obtain ⟨g2, turn2, hfill, hwf2, hsize2, hframe2, hlist2⟩ :=
      ih g1 (flipTurn turn) hwf1 (by omega)
    refine ⟨g2, turn2, ?_, hwf2, by omega, ?_, ?_⟩
    · rw [fillLoop_cons hn, hm]
      exact hfill
    · intro x y c hc hne
      exact hframe2 x y c (hframe1 x y c hc hne) hne
    · intro i hi hlt hbl
      rcases List.mem_cons.1 hi with rfl | hr
      · have hnb := hlast1 hlt
        unfold blankAt at hnb hbl
        rw [hsize2, hsize1] at hbl
        rw [hsize1] at hnb
        obtain ⟨c, hc⟩ := get2_total hwf1 (by rw [hsize1]; exact inBounds_of_idx hlt)
        have hne : c ≠ Cell.Blank := by
          intro h
          rw [h] at hc
          exact hnb hc
        rw [hframe2 _ _ c hc hne] at hbl
        cases hbl
        exact hne rfl
      · exact hlist2 i hr (by rw [hsize1]; exact hlt) hbl

/-- The board left by one trial: it is the snapshot with its stones kept and with no
shuffled cell `Blank`. -/
theorem trial_board {n : Nat} {testboard : List (List Cell)} (htb : Square n testboard)
    (hn : 0 < n) (es counter : List Nat) (shuffle : Nat → List Nat → List Nat) (t : Nat)
    (s s2 : TrialState) (h : trial n testboard es counter shuffle t s = Except.ok s2) :
    Square n s2.board ∧
      (∀ (x y : Int) (c : Cell), get2 testboard x y = Except.ok c → c ≠ Cell.Blank →
        get2 s2.board x y = Except.ok c) ∧
      ∀ i, i ∈ shuffle t es → i < n * n →
        get2 s2.board ((i / n : Nat) : Int) ((i % n : Nat) : Int) ≠ Except.ok Cell.Blank := by
  obtain ⟨g2, turn2, hfill, hwf2, hsize2, hframe, hlist⟩ :=
    fillLoop_spec (shuffle t es).reverse { size := n, board := testboard } s.turn htb hn
  obtain ⟨m, b⟩ := g2
  simp only at hsize2
  subst hsize2
  unfold trial at h
  rw [hfill] at h
  simp only at h
  split at h
  · cases h
  · cases h
    refine ⟨hwf2, hframe, ?_⟩
    intro i hi hlt
    exact hlist i (List.mem_reverse.2 hi) hlt

/-- The board after at least one pass of the trial loop of `AIalgorithm`. -/
theorem trialsOf_board {g : BoardGraph} (hg : g.WF) (hn : 0 < g.size)
    (shuffle : Nat → List Nat → List Nat) (k : Nat) (s : TrialState)
    (h : trialsOf g shuffle (k + 1) = Except.ok s) :
    Square g.size s.board ∧
      (∀ (x y : Int) (c : Cell), get2 g.board x y = Except.ok c → c ≠ Cell.Blank →
        get2 s.board x y = Except.ok c) ∧
      ∀ i, i ∈ shuffle k (emptyIndices g) → i < g.size * g.size →
        get2 s.board ((i / g.size : Nat) : Int) ((i % g.size : Nat) : Int) ≠
          Except.ok Cell.Blank := by
  obtain ⟨es, counter, henum, hes, -, -⟩ := enumerate_spec hg
  rw [trialsOf_succ g shuffle k henum] at h
  cases hk : trialsOf g shuffle k with
  | error e =>
    rw [hk] at h
    cases h
  | ok s1 =>
    rw [hk] at h
    simp only at h
    have hb := trial_board hg hn es counter shuffle k s1 s h
    rw [hes] at hb
    exact hb

/-- The grid that `AIalgorithm` leaves is the grid of the last trial. -/
theorem AIalgorithm_grid {g : BoardGraph} {shuffle : Nat → List Nat → List Nat}
    {m : Int × Int} {g2 : BoardGraph} (h : AIalgorithm g shuffle = Except.ok (m, g2)) :
    ∃ s, trialsOf g shuffle trialCount = Except.ok s ∧
      g2 = { size := g.size, board := s.board } := by
  unfold AIalgorithm at h
  unfold trialsOf
  cases he : enumerate g with
  | error e =>
    rw [he] at h
    cases h
  | ok en =>
    rw [he] at h
    simp only at h ⊢
    cases hr : runTrials g.size g.board en.1 en.2 shuffle
        (TrialState.mk g.board 0 (List.replicate (g.size * g.size) 0) 0) trialCount with
    | error e =>
      rw [hr] at h
      cases h
    | ok s =>
      rw [hr] at h
      simp only at h
      refine ⟨s, rfl, ?_⟩
      split at h
      · cases h
      · cases h
        rfl

/-- C19: on a grid with at least one `Blank` cell, for every sequence of permutations given
by the shuffle, the grid that `AIalgorithm` leaves behind has the size of the grid it was
called on and no `Blank` cell, and every cell that held a stone before the call still
holds that stone. -/
theorem AIalgorithm_leaves_filled (g : BoardGraph) (hg : g.WF)
    (hempty : ∃ x y : Int, get2 g.board x y = Except.ok Cell.Blank)
    (shuffle : Nat → List Nat → List Nat) (hperm : ∀ t l, (shuffle t l).Perm l) :
    ∃ (m : Int × Int) (g2 : BoardGraph), AIalgorithm g shuffle = Except.ok (m, g2) ∧
      g2.size = g.size ∧
      (∀ x y : Int, 0 ≤ x ∧ x < (g.size : Int) ∧ 0 ≤ y ∧ y < (g.size : Int) →
        ∃ c, get2 g2.board x y = Except.ok c ∧ c ≠ Cell.Blank) ∧
      ∀ (x y : Int) (c : Cell), get2 g.board x y = Except.ok c → c ≠ Cell.Blank →
        get2 g2.board x y = Except.ok c := by
  obtain ⟨x0, y0, h0⟩ := hempty
  have hn : 0 < g.size := by
    obtain ⟨hx0, hx1, -, -⟩ := get2_ok_inBounds hg h0
    omega
  obtain ⟨r, c, g2, hrun, -, -, -⟩ :=
    AIalgorithm_blank hg hn shuffle (emptyIndices_ne_nil hg h0)
  obtain ⟨s, hs, hg2⟩ := AIalgorithm_grid hrun
  have hcount : trialCount = (trialCount - 1) + 1 := by decide
  rw [hcount] at hs
  obtain ⟨hsq, hframe, hfilled⟩ := trialsOf_board hg hn shuffle (trialCount - 1) s hs
  refine ⟨_, g2, hrun, by rw [hg2], ?_, ?_⟩
  · rintro x y ⟨hx0, hx1, hy0, hy1⟩
    rw [hg2]
    simp only
    obtain ⟨c1, hc1⟩ := get2_total hg (show inBounds g.size x y from ⟨hx0, hx1, hy0, hy1⟩)
    by_cases hb : c1 = Cell.Blank
    · have hx : x.toNat < g.size := by omega
      have hy : y.toNat < g.size := by omega
      have hmem : x.toNat * g.size + y.toNat ∈ emptyIndices g := by
        rw [mem_emptyIndices]
        refine ⟨idx_lt hx hy, ?_⟩
        unfold blankAt
        rw [idx_div hy, idx_mod hy, Int.toNat_of_nonneg hx0, Int.toNat_of_nonneg hy0, hc1, hb]
      have hmem2 := (hperm (trialCount - 1) (emptyIndices g)).mem_iff.2 hmem
      have hnb := hfilled _ hmem2 (idx_lt hx hy)
      rw [idx_div hy, idx_mod hy, Int.toNat_of_nonneg hx0, Int.toNat_of_nonneg hy0] at hnb
      obtain ⟨c2, hc2⟩ := get2_total hsq (show inBounds g.size x y from ⟨hx0, hx1, hy0, hy1⟩)
      refine ⟨c2, hc2, ?_⟩
      intro h
      rw [h] at hc2
      exact hnb hc2
    · exact ⟨c1, hframe x y c1 hc1 hb, hb⟩
  · intro x y c1 hc1 hb
    rw [hg2]
    exact hframe x y c1 hc1 hb

theorem AIalgorithm_leaves_filled_witness :
    (BoardGraph.mk0 2).WF ∧
    (∃ x y : Int, get2 (BoardGraph.mk0 2).board x y = Except.ok Cell.Blank) ∧
    (∀ (t : Nat) (l : List Nat), ((fun (_ : Nat) (l : List Nat) => l.reverse) t l).Perm l) ∧
    ∃ (m : Int × Int) (g2 : BoardGraph),
      AIalgorithm (BoardGraph.mk0 2) (fun _ l => l.reverse) = Except.ok (m, g2) ∧
      g2.size = (BoardGraph.mk0 2).size ∧
      (∀ x y : Int, 0 ≤ x ∧ x < ((BoardGraph.mk0 2).size : Int) ∧ 0 ≤ y ∧
          y < ((BoardGraph.mk0 2).size : Int) →
        ∃ c, get2 g2.board x y = Except.ok c ∧ c ≠ Cell.Blank) ∧
      ∀ (x y : Int) (c : Cell), get2 (BoardGraph.mk0 2).board x y = Except.ok c →
        c ≠ Cell.Blank → get2 g2.board x y = Except.ok c :=
  ⟨by decide, ⟨0, 0, by decide⟩, fun _ l => List.reverse_perm l,
    AIalgorithm_leaves_filled (BoardGraph.mk0 2) (by decide) ⟨0, 0, by decide⟩
      (fun _ l => l.reverse) (fun _ l => List.reverse_perm l)⟩

theorem square_two {α : Type} {b : List (List α)} (h : Square 2 b) :
    ∃ a1 a2 a3 a4 : α, b = [[a1, a2], [a3, a4]] := by
  obtain ⟨hlen, hrows⟩ := h
  rcases b with _ | ⟨r0, _ | ⟨r1, _ | ⟨r2, rest⟩⟩⟩
  · simp at hlen
  · simp at hlen
  · have h0 := hrows r0 (by simp)
    have h1 := hrows r1 (by simp)
    rcases r0 with _ | ⟨a1, _ | ⟨a2, _ | ⟨a5, rest0⟩⟩⟩
    · simp at h0
    · simp at h0
    · rcases r1 with _ | ⟨a3, _ | ⟨a4, _ | ⟨a6, rest1⟩⟩⟩
      · simp at h1
      · simp at h1
      · exact ⟨a1, a2, a3, a4, rfl⟩
      · simp at h1
    · simp at h0
  · simp at hlen

/-- On the 2×2 grid whose only `Blank` cell is `(1, 0)` and whose other cells are Red, no
trial counts a cell: Blue cannot reach column 1. -/
theorem tally_zero_example (shuffle : Nat → List Nat → List Nat) (x y : Nat) :
    tally (BoardGraph.mk 2 [[Cell.Red, Cell.Red], [Cell.Blank, Cell.Red]]) shuffle x y = 0 := by
  by_contra hne
  have hpos := Nat.pos_of_ne_zero hne
  have hwf : (BoardGraph.mk 2 [[Cell.Red, Cell.Red], [Cell.Blank, Cell.Red]]).WF := by decide
  have hblank := tally_pos_blank hpos
  obtain ⟨hx, hy⟩ := tally_pos_inBounds hwf hpos
  simp only at hx hy
  unfold tally at hpos
  obtain ⟨t, ht⟩ := List.exists_mem_of_length_pos hpos
  have hw := (List.mem_filter.1 ht).2
  unfold wonTrial at hw
  split at hw
  · rename_i s hs
    obtain ⟨hblue, hwin, -⟩ := of_decide_eq_true hw
    obtain ⟨hsq, hframe, -⟩ := trialsOf_board hwf (by decide) shuffle t s hs
    obtain ⟨a1, a2, a3, a4, hb⟩ := square_two hsq
    have h00 := hframe 0 0 Cell.Red (by decide) (by decide)
    have h01 := hframe 0 1 Cell.Red (by decide) (by decide)
    have h11 := hframe 1 1 Cell.Red (by decide) (by decide)
    rw [hb] at h00 h01 h11 hblue hwin
    simp [get2, vecGet] at h00 h01 h11
    subst h00 h01 h11
    interval_cases x <;> interval_cases y
    · exact absurd hblank (by decide)
    · exact absurd hblank (by decide)
    · simp [get2, vecGet] at hblue
      subst hblue
      exact absurd hwin (by decide)
    · exact absurd hblank (by decide)
  · cases hw

theorem AIalgorithm_fallback_witness :
    (BoardGraph.mk 2 [[Cell.Red, Cell.Red], [Cell.Blank, Cell.Red]]).WF ∧
    (∃ x y : Int, get2 (BoardGraph.mk 2 [[Cell.Red, Cell.Red], [Cell.Blank, Cell.Red]]).board
      x y = Except.ok Cell.Blank) ∧
    (∀ (t : Nat) (l : List Nat), ((fun (_ : Nat) (l : List Nat) => l) t l).Perm l) ∧
    (∀ x y : Nat, tally (BoardGraph.mk 2 [[Cell.Red, Cell.Red], [Cell.Blank, Cell.Red]])
      (fun _ l => l) x y = 0) ∧
    ∃ (r c : Nat) (g2 : BoardGraph),
      AIalgorithm (BoardGraph.mk 2 [[Cell.Red, Cell.Red], [Cell.Blank, Cell.Red]])
        (fun _ l => l) = Except.ok (((r : Int), (c : Int)), g2) ∧
      r < (BoardGraph.mk 2 [[Cell.Red, Cell.Red], [Cell.Blank, Cell.Red]]).size ∧
      c < (BoardGraph.mk 2 [[Cell.Red, Cell.Red], [Cell.Blank, Cell.Red]]).size ∧
      get2 (BoardGraph.mk 2 [[Cell.Red, Cell.Red], [Cell.Blank, Cell.Red]]).board
        (r : Int) (c : Int) = Except.ok Cell.Blank ∧
      ∀ x y : Nat, x < (BoardGraph.mk 2 [[Cell.Red, Cell.Red], [Cell.Blank, Cell.Red]]).size →
        y < (BoardGraph.mk 2 [[Cell.Red, Cell.Red], [Cell.Blank, Cell.Red]]).size →
        (x < r ∨ (x = r ∧ y < c)) →
        get2 (BoardGraph.mk 2 [[Cell.Red, Cell.Red], [Cell.Blank, Cell.Red]]).board
          (x : Int) (y : Int) ≠ Except.ok Cell.Blank :=
  ⟨by decide, ⟨1, 0, by decide⟩, fun _ l => List.Perm.refl l,
    tally_zero_example (fun _ l => l),
    AIalgorithm_fallback (BoardGraph.mk 2 [[Cell.Red, Cell.Red], [Cell.Blank, Cell.Red]])
      (by decide) ⟨1, 0, by decide⟩ (fun _ l => l) (fun _ l => List.Perm.refl l)
      (tally_zero_example (fun _ l => l))⟩

/-! ## Particular boards -/

/-- On a grid whose cells all hold `c`, a straight walk in one of the six directions that
stays on the board is a chain of colour `c`. -/
theorem connected_line {g : BoardGraph} {c : Cell}
    (hall : ∀ x y : Int, inBounds g.size x y → get2 g.board x y = Except.ok c)
    (d : Int × Int) (hd : d ∈ directions) (x y : Int) :
    ∀ k : Nat, (∀ j : Nat, j ≤ k → inBounds g.size (x + j * d.1) (y + j * d.2)) →
      connected g c (x, y) (x + k * d.1, y + k * d.2) := by
  intro k
  induction k with
  | zero =>
    intro _
    simp only [Nat.cast_zero, zero_mul, add_zero]
    exact Relation.ReflTransGen.refl
  | succ k ih =>
    intro hk
    have h1 := ih (fun j hj => hk j (Nat.le_succ_of_le hj))
    have hin := hk (k + 1) (Nat.le_refl _)
    refine Relation.ReflTransGen.tail h1 ⟨?_, hall _ _ hin⟩
    rw [mem_neighbours]
    refine ⟨d, hd, ?_, hin⟩
    simp only [Nat.cast_add, Nat.cast_one, Prod.mk.injEq]
    constructor <;> ring

/-- On a grid of size N whose cells all hold the stone `c`, `win` is true at every
in-bounds coordinate. -/
theorem win_uniform {g : BoardGraph} (hg : g.WF) {c : Cell} (hc : c ≠ Cell.Blank)
    (hall : ∀ x y : Int, inBounds g.size x y → get2 g.board x y = Except.ok c)
    {x y : Int} (hin : inBounds g.size x y) : win g x y = Except.ok true := by
  obtain ⟨r, hr, hiff⟩ := win_spec hg hin (hall x y hin)
  obtain ⟨hx0, hx1, hy0, hy1⟩ := hin
  have hr2 : r = true := by
    rw [hiff]
    cases c with
    | Blank => exact absurd rfl hc
    | Blue =>
      constructor
      · refine ⟨(x, 0), ?_, Or.inl ⟨rfl, rfl⟩⟩
        have h := connected_line hall (0, -1) (by decide) x y y.toNat (by
          intro j hj
          unfold inBounds
          simp only
          omega)
        have e1 : x + (y.toNat : Int) * ((0, -1) : Int × Int).1 = x := by simp
        have e2 : y + (y.toNat : Int) * ((0, -1) : Int × Int).2 = 0 := by
          simp only
          omega
        rw [e1, e2] at h
        exact h
      · refine ⟨(x, (g.size : Int) - 1), ?_, Or.inl ⟨rfl, rfl⟩⟩
        have h := connected_line hall (0, 1) (by decide) x y ((g.size : Int) - 1 - y).toNat (by
          intro j hj
          unfold inBounds
          simp only
          omega)
        have e1 : x + ((((g.size : Int) - 1 - y).toNat : Nat) : Int) *
            ((0, 1) : Int × Int).1 = x := by simp
        have e2 : y + ((((g.size : Int) - 1 - y).toNat : Nat) : Int) *
            ((0, 1) : Int × Int).2 = (g.size : Int) - 1 := by
          simp only
          omega
        rw [e1, e2] at h
        exact h
    | Red =>
      constructor
      · refine ⟨(0, y), ?_, Or.inr ⟨rfl, rfl⟩⟩
        have h := connected_line hall (-1, 0) (by decide) x y x.toNat (by
          intro j hj
          unfold inBounds
          simp only
          omega)
        have e1 : x + (x.toNat : Int) * ((-1, 0) : Int × Int).1 = 0 := by
          simp only
          omega
        have e2 : y + (x.toNat : Int) * ((-1, 0) : Int × Int).2 = y := by simp
        rw [e1, e2] at h
        exact h
      · refine ⟨((g.size : Int) - 1, y), ?_, Or.inr ⟨rfl, rfl⟩⟩
        have h := connected_line hall (1, 0) (by decide) x y ((g.size : Int) - 1 - x).toNat (by
          intro j hj
          unfold inBounds
          simp only
          omega)
        have e1 : x + ((((g.size : Int) - 1 - x).toNat : Nat) : Int) *
            ((1, 0) : Int × Int).1 = (g.size : Int) - 1 := by
          simp only
          omega
        have e2 : y + ((((g.size : Int) - 1 - x).toNat : Nat) : Int) *
            ((1, 0) : Int × Int).2 = y := by simp
        rw [e1, e2] at h
        exact h
  rw [hr, hr2]

/-- C12: for every N ≥ 1, on the N×N board whose cells are all Blue `win(x, y)` is true at
every in-bounds `(x, y)`, and so it is on the N×N board whose cells are all Red. -/
theorem win_full_board (N : Nat) (_hN : 1 ≤ N) (x y : Int)
    (hin : 0 ≤ x ∧ x < (N : Int) ∧ 0 ≤ y ∧ y < (N : Int)) :
    win (BoardGraph.mk N (List.replicate N (List.replicate N Cell.Blue))) x y =
        Except.ok true ∧
      win (BoardGraph.mk N (List.replicate N (List.replicate N Cell.Red))) x y =
        Except.ok true :=
  ⟨win_uniform (g := BoardGraph.mk N (List.replicate N (List.replicate N Cell.Blue)))
      (square_replicate N Cell.Blue) (by decide) (fun _ _ h => get2_replicate Cell.Blue h) hin,
    win_uniform (g := BoardGraph.mk N (List.replicate N (List.replicate N Cell.Red)))
      (square_replicate N Cell.Red) (by decide) (fun _ _ h => get2_replicate Cell.Red h) hin⟩

theorem win_full_board_witness :
    1 ≤ 3 ∧ (0 ≤ (1 : Int) ∧ (1 : Int) < ((3 : Nat) : Int) ∧ 0 ≤ (2 : Int) ∧
      (2 : Int) < ((3 : Nat) : Int)) ∧
    (win (BoardGraph.mk 3 (List.replicate 3 (List.replicate 3 Cell.Blue))) 1 2 =
        Except.ok true ∧
      win (BoardGraph.mk 3 (List.replicate 3 (List.replicate 3 Cell.Red))) 1 2 =
        Except.ok true) :=
  ⟨by decide, by decide, win_full_board 3 (by decide) 1 2 (by decide)⟩

/-- C14: on the 1×1 board, for either colour `p`, `makeMove(0, 0, p)` on the empty board
succeeds and `win(0, 0)` is then true. -/
theorem win_one_by_one (p : player) :
    ∃ g2, makeMove (BoardGraph.mk0 1) 0 0 p = Except.ok (true, g2) ∧
      win g2 0 0 = Except.ok true := by
  cases p
  · exact ⟨BoardGraph.mk 1 [[Cell.Blue]], by decide, by decide⟩
  · exact ⟨BoardGraph.mk 1 [[Cell.Red]], by decide, by decide⟩

/-- C18: on a grid of size N, `win(x, y)` at an in-bounds coordinate whose cell is `Blank`
returns false. -/
theorem win_blank (g : BoardGraph) (hg : g.WF) (x y : Int)
    (hin : 0 ≤ x ∧ x < (g.size : Int) ∧ 0 ≤ y ∧ y < (g.size : Int))
    (hb : get2 g.board x y = Except.ok Cell.Blank) : win g x y = Except.ok false := by
  obtain ⟨r, hr, hiff⟩ := win_spec hg hin hb
  cases r
  · exact hr
  · obtain ⟨⟨p, -, hp⟩, -⟩ := hiff.1 rfl
    rcases hp with ⟨h, -⟩ | ⟨h, -⟩ <;> cases h

theorem win_blank_witness :
    (BoardGraph.mk 2 [[Cell.Blank, Cell.Blank], [Cell.Blue, Cell.Red]]).WF ∧
    (0 ≤ (0 : Int) ∧
      (0 : Int) < ((BoardGraph.mk 2 [[Cell.Blank, Cell.Blank], [Cell.Blue, Cell.Red]]).size : Int) ∧
      0 ≤ (1 : Int) ∧
      (1 : Int) < ((BoardGraph.mk 2 [[Cell.Blank, Cell.Blank], [Cell.Blue, Cell.Red]]).size : Int)) ∧
    get2 (BoardGraph.mk 2 [[Cell.Blank, Cell.Blank], [Cell.Blue, Cell.Red]]).board 0 1 =
      Except.ok Cell.Blank ∧
    win (BoardGraph.mk 2 [[Cell.Blank, Cell.Blank], [Cell.Blue, Cell.Red]]) 0 1 =
      Except.ok false :=
  ⟨by decide, by decide, by decide,
    win_blank (BoardGraph.mk 2 [[Cell.Blank, Cell.Blank], [Cell.Blue, Cell.Red]]) (by decide)
      0 1 (by decide) (by decide)⟩

/-- C15: on the empty 5×5 board, after Blue is placed at `(2, 2)` the call `win(2, 2)` is
false; after Blue is also placed at `(2, 0)`, `(2, 1)`, `(2, 3)` and `(2, 4)`, `win` is
true at each of `(2, 0)`, `(2, 1)`, `(2, 2)`, `(2, 3)` and `(2, 4)`. -/
theorem win_row_scenario :
    ∃ g1 g2 g3 g4 g5 : BoardGraph,
      makeMove (BoardGraph.mk0 5) 2 2 player.BLUE = Except.ok (true, g1) ∧
      win g1 2 2 = Except.ok false ∧
      makeMove g1 2 0 player.BLUE = Except.ok (true, g2) ∧
      makeMove g2 2 1 player.BLUE = Except.ok (true, g3) ∧
      makeMove g3 2 3 player.BLUE = Except.ok (true, g4) ∧
      makeMove g4 2 4 player.BLUE = Except.ok (true, g5) ∧
      win g5 2 0 = Except.ok true ∧ win g5 2 1 = Except.ok true ∧
      win g5 2 2 = Except.ok true ∧ win g5 2 3 = Except.ok true ∧
      win g5 2 4 = Except.ok true :=
  ⟨(BoardGraph.mk 5 [List.replicate 5 Cell.Blank, List.replicate 5 Cell.Blank,
      [Cell.Blank, Cell.Blank, Cell.Blue, Cell.Blank, Cell.Blank],
      List.replicate 5 Cell.Blank, List.replicate 5 Cell.Blank]),
    (BoardGraph.mk 5 [List.replicate 5 Cell.Blank, List.replicate 5 Cell.Blank,
      [Cell.Blue, Cell.Blank, Cell.Blue, Cell.Blank, Cell.Blank],
      List.replicate 5 Cell.Blank, List.replicate 5 Cell.Blank]),
    (BoardGraph.mk 5 [List.replicate 5 Cell.Blank, List.replicate 5 Cell.Blank,
      [Cell.Blue, Cell.Blue, Cell.Blue, Cell.Blank, Cell.Blank],
      List.replicate 5 Cell.Blank, List.replicate 5 Cell.Blank]),
    (BoardGraph.mk 5 [List.replicate 5 Cell.Blank, List.replicate 5 Cell.Blank,
      [Cell.Blue, Cell.Blue, Cell.Blue, Cell.Blue, Cell.Blank],
      List.replicate 5 Cell.Blank, List.replicate 5 Cell.Blank]),
    (BoardGraph.mk 5 [List.replicate 5 Cell.Blank, List.replicate 5 Cell.Blank,
      [Cell.Blue, Cell.Blue, Cell.Blue, Cell.Blue, Cell.Blue],
      List.replicate 5 Cell.Blank, List.replicate 5 Cell.Blank]),
    by decide, by decide, by decide, by decide, by decide, by decide, by decide, by decide,
    by decide, by decide, by decide⟩

/-! ## The occupancy counter -/

theorem vecGet_getD (v : List Nat) (i : Nat) (h : i < v.length) :
    vecGet v (i : Int) = Except.ok (v.getD i 0) := by
  rw [vecGet_natCast v i h, List.getD_eq_getElem _ _ h, List.get_eq_getElem]

/-- C17: in `AIalgorithm`, for every cell `(x, y)` of the grid, the occupancy counter
`emptySpotsCounter[x * size + y]` is `1` if the cell is `Blank` in the snapshot and `0`
otherwise, and for every sequence of permutations given by the shuffle the tally
`bestMoves[x * size + y]` of a cell that was occupied in the snapshot is `0` after all
trials. -/
theorem occupancy_counter_spec (g : BoardGraph) (hg : g.WF) (x y : Nat) (hx : x < g.size)
    (hy : y < g.size) (shuffle : Nat → List Nat → List Nat)
    (_hperm : ∀ t l, (shuffle t l).Perm l) :
    ∃ (en : List Nat × List Nat) (s : TrialState),
      enumerate g = Except.ok en ∧ trialsOf g shuffle trialCount = Except.ok s ∧
      vecGet en.2 ((x * g.size + y : Nat) : Int) =
        Except.ok (if get2 g.board (x : Int) (y : Int) = Except.ok Cell.Blank then 1 else 0) ∧
      (get2 g.board (x : Int) (y : Int) ≠ Except.ok Cell.Blank →
        vecGet s.bestMoves ((x * g.size + y : Nat) : Int) = Except.ok 0) := by
  have hn : 0 < g.size := by omega
  have hidx := idx_lt hx hy
  obtain ⟨es, counter, henum, -, hclen, hcnt⟩ := enumerate_spec hg
  obtain ⟨s, hs, hlen, -, hget⟩ := trialsOf_spec hg hn shuffle trialCount
  refine ⟨(es, counter), s, henum, hs, ?_, ?_⟩
  · simp only
    rw [vecGet_getD counter _ (by rw [hclen]; exact hidx), hcnt]
    have hb : blankAt g (x * g.size + y) ↔
        get2 g.board (x : Int) (y : Int) = Except.ok Cell.Blank := by
      unfold blankAt
      rw [idx_div hy, idx_mod hy]
    simp only [hidx, true_and, hb]
  · intro hocc
    rw [vecGet_getD s.bestMoves _ (by rw [hlen]; exact hidx), hget x y hx hy]
    have hz : tally g shuffle x y = 0 := by
      by_contra hne
      exact hocc (tally_pos_blank (Nat.pos_of_ne_zero hne))
    unfold tally at hz
    rw [hz]

theorem occupancy_counter_spec_witness :
    (BoardGraph.mk 2 [[Cell.Blue, Cell.Blank], [Cell.Red, Cell.Blank]]).WF ∧
    0 < (BoardGraph.mk 2 [[Cell.Blue, Cell.Blank], [Cell.Red, Cell.Blank]]).size ∧
    0 < (BoardGraph.mk 2 [[Cell.Blue, Cell.Blank], [Cell.Red, Cell.Blank]]).size ∧
    (∀ (t : Nat) (l : List Nat), ((fun (_ : Nat) (l : List Nat) => l) t l).Perm l) ∧
    ∃ (en : List Nat × List Nat) (s : TrialState),
      enumerate (BoardGraph.mk 2 [[Cell.Blue, Cell.Blank], [Cell.Red, Cell.Blank]]) =
        Except.ok en ∧
      trialsOf (BoardGraph.mk 2 [[Cell.Blue, Cell.Blank], [Cell.Red, Cell.Blank]])
        (fun _ l => l) trialCount = Except.ok s ∧
      vecGet en.2
          ((0 * (BoardGraph.mk 2 [[Cell.Blue, Cell.Blank], [Cell.Red, Cell.Blank]]).size + 0 :
            Nat) : Int) =
        Except.ok
          (if get2 (BoardGraph.mk 2 [[Cell.Blue, Cell.Blank], [Cell.Red, Cell.Blank]]).board
              ((0 : Nat) : Int) ((0 : Nat) : Int) = Except.ok Cell.Blank then 1 else 0) ∧
      (get2 (BoardGraph.mk 2 [[Cell.Blue, Cell.Blank], [Cell.Red, Cell.Blank]]).board
          ((0 : Nat) : Int) ((0 : Nat) : Int) ≠ Except.ok Cell.Blank →
        vecGet s.bestMoves
          ((0 * (BoardGraph.mk 2 [[Cell.Blue, Cell.Blank], [Cell.Red, Cell.Blank]]).size + 0 :
            Nat) : Int) = Except.ok 0) :=
  ⟨by decide, by decide, by decide, fun _ l => List.Perm.refl l,
    occupancy_counter_spec (BoardGraph.mk 2 [[Cell.Blue, Cell.Blank], [Cell.Red, Cell.Blank]])
      (by decide) 0 0 (by decide) (by decide) (fun _ l => l) (fun _ l => List.Perm.refl l)⟩

/-! ## Hex has no draws -/

theorem abEdge_triangle (u v w : Fin 3) :
    abEdge u v + abEdge u w + abEdge v w = 0 ∨ (u ≠ v ∧ u ≠ w ∧ v ≠ w) := by
  revert u v w
  decide

theorem sum_pairs_range (f : ℕ → ZMod 2) (m : ℕ) :
    Finset.sum (Finset.range m) (fun i => f i + f (i + 1)) = f 0 + f m := by
  induction m with
  | zero =>
    rw [Finset.sum_range_zero]
    exact (CharTwo.add_self_eq_zero (f 0)).symm
  | succ m ih =>
    rw [Finset.sum_range_succ, ih]
    have h := CharTwo.add_self_eq_zero (f m)
    linear_combination h

theorem labelled_triangle (m : ℕ) (hm : 1 ≤ m) (L : ℕ → ℕ → Fin 3)
    (hleft : ∀ i, i ≤ m → L i 0 = 0)
    (htop : ∀ j, 1 ≤ j → j ≤ m → L 0 j = 1)
    (hright : ∀ i, 1 ≤ i → i ≤ m → L i m = 2)
    (hbot : ∀ j, 1 ≤ j → j ≤ m → L m j = 2) :
    ∃ i j, i < m ∧ j < m ∧
      ((L i j ≠ L i (j + 1) ∧ L i j ≠ L (i + 1) j ∧ L i (j + 1) ≠ L (i + 1) j) ∨
        (L i (j + 1) ≠ L (i + 1) j ∧ L i (j + 1) ≠ L (i + 1) (j + 1) ∧
          L (i + 1) j ≠ L (i + 1) (j + 1))) := by
  by_contra hno
  have hsq : ∀ i j, i < m → j < m →
      (abEdge (L i j) (L i (j + 1)) + abEdge (L (i + 1) j) (L (i + 1) (j + 1))) +
        (abEdge (L i j) (L (i + 1) j) + abEdge (L i (j + 1)) (L (i + 1) (j + 1))) = 0 := by
    intro i j hi hj
    have h1 : abEdge (L i j) (L i (j + 1)) + abEdge (L i j) (L (i + 1) j) +
        abEdge (L i (j + 1)) (L (i + 1) j) = 0 := by
      rcases abEdge_triangle (L i j) (L i (j + 1)) (L (i + 1) j) with h | h
      · exact h
      · exact absurd ⟨i, j, hi, hj, Or.inl h⟩ hno
    have h2 : abEdge (L i (j + 1)) (L (i + 1) j) + abEdge (L i (j + 1)) (L (i + 1) (j + 1)) +
        abEdge (L (i + 1) j) (L (i + 1) (j + 1)) = 0 := by
      rcases abEdge_triangle (L i (j + 1)) (L (i + 1) j) (L (i + 1) (j + 1)) with h | h
      · exact h
      · exact absurd ⟨i, j, hi, hj, Or.inr h⟩ hno
    have h3 := CharTwo.add_self_eq_zero (abEdge (L i (j + 1)) (L (i + 1) j))
    linear_combination h1 + h2 - h3
  have htotal : Finset.sum (Finset.range m) (fun i => Finset.sum (Finset.range m) (fun j =>
      (abEdge (L i j) (L i (j + 1)) + abEdge (L (i + 1) j) (L (i + 1) (j + 1))) +
        (abEdge (L i j) (L (i + 1) j) + abEdge (L i (j + 1)) (L (i + 1) (j + 1))))) = 0 := by
    apply Finset.sum_eq_zero
    intro i hi
    apply Finset.sum_eq_zero
    intro j hj
    exact hsq i j (Finset.mem_range.1 hi) (Finset.mem_range.1 hj)
  have hH : Finset.sum (Finset.range m) (fun i => Finset.sum (Finset.range m) (fun j =>
      abEdge (L i j) (L i (j + 1)) + abEdge (L (i + 1) j) (L (i + 1) (j + 1)))) = 1 := by
    rw [Finset.sum_comm]
    have : ∀ j ∈ Finset.range m, Finset.sum (Finset.range m) (fun i =>
        abEdge (L i j) (L i (j + 1)) + abEdge (L (i + 1) j) (L (i + 1) (j + 1))) =
        if j = 0 then 1 else 0 := by
      intro j hj
      have hjm := Finset.mem_range.1 hj
      rw [sum_pairs_range (fun i => abEdge (L i j) (L i (j + 1))) m]
      by_cases hj0 : j = 0
      · subst hj0
        rw [if_pos rfl, hleft 0 (Nat.zero_le _), htop 1 (Nat.le_refl _) hm, hleft m (Nat.le_refl _),
          hbot 1 (Nat.le_refl _) hm]
        decide
      · rw [if_neg hj0, htop j (by omega) (by omega), htop (j + 1) (by omega) (by omega),
          hbot j (by omega) (by omega), hbot (j + 1) (by omega) (by omega)]
        decide
    rw [Finset.sum_congr rfl this, Finset.sum_ite_eq' (Finset.range m) 0 (fun _ => (1 : ZMod 2)),
      if_pos (Finset.mem_range.2 (by omega))]
  have hV : Finset.sum (Finset.range m) (fun i => Finset.sum (Finset.range m) (fun j =>
      abEdge (L i j) (L (i + 1) j) + abEdge (L i (j + 1)) (L (i + 1) (j + 1)))) = 0 := by
    apply Finset.sum_eq_zero
    intro i hi
    have him := Finset.mem_range.1 hi
    rw [sum_pairs_range (fun j => abEdge (L i j) (L (i + 1) j)) m,
      hleft i (by omega), hleft (i + 1) (by omega), hright (i + 1) (by omega) (by omega)]
    by_cases hi0 : i = 0
    · subst hi0
      rw [htop m hm (Nat.le_refl _)]
      decide
    · rw [hright i (by omega) (by omega)]
      decide
  simp only [Finset.sum_add_distrib] at htotal hH hV
  rw [hH, hV] at htotal
  exact absurd htotal (by decide)

theorem three_labels (u v w : Fin 3) :
    u = v ∨ u = w ∨ v = w ∨
    (u = 0 ∧ v = 1 ∧ w = 2) ∨ (u = 0 ∧ v = 2 ∧ w = 1) ∨ (u = 1 ∧ v = 0 ∧ w = 2) ∨
      (u = 1 ∧ v = 2 ∧ w = 0) ∨ (u = 2 ∧ v = 0 ∧ w = 1) ∨ (u = 2 ∧ v = 1 ∧ w = 0) := by
  revert u v w
  decide

theorem hexLabel_zero {N i j : ℕ} {a b : Bool} (h : hexLabel N i j a b = 0) :
    j = 0 ∨ (j ≠ 0 ∧ i ≠ 0 ∧ j ≠ N + 1 ∧ i ≠ N + 1 ∧ a = true) := by
  unfold hexLabel at h
  split_ifs at h <;> simp_all

theorem hexLabel_one {N i j : ℕ} {a b : Bool} (h : hexLabel N i j a b = 1) :
    j ≠ 0 ∧ (i = 0 ∨ (i ≠ 0 ∧ j ≠ N + 1 ∧ i ≠ N + 1 ∧ b = true)) := by
  unfold hexLabel at h
  split_ifs at h <;> simp_all

theorem hexLabel_two {N i j : ℕ} {a b : Bool} (h : hexLabel N i j a b = 2) :
    j ≠ 0 ∧ i ≠ 0 ∧ (j = N + 1 ∨ i = N + 1 ∨
      (j ≠ N + 1 ∧ i ≠ N + 1 ∧ a = false ∧ b = false)) := by
  unfold hexLabel at h
  split_ifs at h <;> simp_all

/-- Among three cells that carry three different labels and are related in pairs, one
carries `0`, one carries `1` and both are related to the one that carries `2`. -/
theorem pick_labels {α : Type} (L : α → Fin 3) (R : α → α → Prop) (p q r : α)
    (hpq : R p q) (hqp : R q p) (hpr : R p r) (hrp : R r p) (hqr : R q r) (hrq : R r q)
    (hd : L p ≠ L q ∧ L p ≠ L r ∧ L q ≠ L r) :
    ∃ pa pb pc, L pa = 0 ∧ L pb = 1 ∧ L pc = 2 ∧ R pa pc ∧ R pb pc := by
  rcases three_labels (L p) (L q) (L r) with
    h | h | h | ⟨h1, h2, h3⟩ | ⟨h1, h2, h3⟩ | ⟨h1, h2, h3⟩ | ⟨h1, h2, h3⟩ | ⟨h1, h2, h3⟩ |
      ⟨h1, h2, h3⟩
  · exact absurd h hd.1
  · exact absurd h hd.2.1
  · exact absurd h hd.2.2
  · exact ⟨p, q, r, h1, h2, h3, hpr, hqr⟩
  · exact ⟨p, r, q, h1, h3, h2, hpq, hrq⟩
  · exact ⟨q, p, r, h2, h1, h3, hqr, hpr⟩
  · exact ⟨r, p, q, h3, h1, h2, hrq, hpq⟩
  · exact ⟨q, r, p, h2, h3, h1, hqp, hrp⟩
  · exact ⟨r, q, p, h3, h2, h1, hrp, hqp⟩

/-- The combinatorial core of the Hex theorem. On an N×N board whose cells are all blue or
red, let `A` hold of the blue cells of column 0 and pass to blue neighbours, and let `B`
hold of the red cells of row 0 and pass to red neighbours. Then `A` reaches column N-1 or
`B` reaches row N-1. -/
theorem hex_core (N : ℕ) (hN : 1 ≤ N) (blue red A B : Int × Int → Prop)
    (hfull : ∀ p, inBounds N p.1 p.2 → blue p ∨ red p)
    (hA0 : ∀ p, inBounds N p.1 p.2 → p.2 = 0 → blue p → A p)
    (hA : ∀ p q, inBounds N p.1 p.2 → inBounds N q.1 q.2 → A p →
      (∃ d ∈ directions, q = (p.1 + d.1, p.2 + d.2)) → blue q → A q)
    (hB0 : ∀ p, inBounds N p.1 p.2 → p.1 = 0 → red p → B p)
    (hB : ∀ p q, inBounds N p.1 p.2 → inBounds N q.1 q.2 → B p →
      (∃ d ∈ directions, q = (p.1 + d.1, p.2 + d.2)) → red q → B q) :
    (∃ p, inBounds N p.1 p.2 ∧ p.2 = (N : Int) - 1 ∧ A p) ∨
      (∃ p, inBounds N p.1 p.2 ∧ p.1 = (N : Int) - 1 ∧ B p) := by
  classical
  let L : ℕ → ℕ → Fin 3 := fun i j =>
    hexLabel N i j (decide (A ((i : Int) - 1, (j : Int) - 1)))
      (decide (B ((i : Int) - 1, (j : Int) - 1)))
  have hL0 : ∀ i j, L i j = 0 →
      j = 0 ∨ (j ≠ 0 ∧ i ≠ 0 ∧ j ≠ N + 1 ∧ i ≠ N + 1 ∧ A ((i : Int) - 1, (j : Int) - 1)) := by
    intro i j h
    rcases hexLabel_zero h with h1 | ⟨h1, h2, h3, h4, h5⟩
    · exact Or.inl h1
    · exact Or.inr ⟨h1, h2, h3, h4, of_decide_eq_true h5⟩
  have hL1 : ∀ i j, L i j = 1 →
      j ≠ 0 ∧ (i = 0 ∨ (i ≠ 0 ∧ j ≠ N + 1 ∧ i ≠ N + 1 ∧ B ((i : Int) - 1, (j : Int) - 1))) := by
    intro i j h
    obtain ⟨h1, h2 | ⟨h2, h3, h4, h5⟩⟩ := hexLabel_one h
    · exact ⟨h1, Or.inl h2⟩
    · exact ⟨h1, Or.inr ⟨h2, h3, h4, of_decide_eq_true h5⟩⟩
  have hL2 : ∀ i j, L i j = 2 →
      j ≠ 0 ∧ i ≠ 0 ∧ (j = N + 1 ∨ i = N + 1 ∨ (j ≠ N + 1 ∧ i ≠ N + 1 ∧
        ¬ A ((i : Int) - 1, (j : Int) - 1) ∧ ¬ B ((i : Int) - 1, (j : Int) - 1))) := by
    intro i j h
    obtain ⟨h1, h2, h3 | h3 | ⟨h3, h4, h5, h6⟩⟩ := hexLabel_two h
    · exact ⟨h1, h2, Or.inl h3⟩
    · exact ⟨h1, h2, Or.inr (Or.inl h3)⟩
    · exact ⟨h1, h2, Or.inr (Or.inr ⟨h3, h4, of_decide_eq_false h5, of_decide_eq_false h6⟩)⟩
  let R : ℕ × ℕ → ℕ × ℕ → Prop := fun p q =>
    (((q.1 : Int) - p.1, (q.2 : Int) - p.2) ∈ directions) ∧
      p.1 ≤ N + 1 ∧ p.2 ≤ N + 1 ∧ q.1 ≤ N + 1 ∧ q.2 ≤ N + 1
  have key : ∀ pa pb pc : ℕ × ℕ, L pa.1 pa.2 = 0 → L pb.1 pb.2 = 1 → L pc.1 pc.2 = 2 →
      R pa pc → R pb pc →
      (∃ p, inBounds N p.1 p.2 ∧ p.2 = (N : Int) - 1 ∧ A p) ∨
        (∃ p, inBounds N p.1 p.2 ∧ p.1 = (N : Int) - 1 ∧ B p) := by
    rintro ⟨ia, ja⟩ ⟨ib, jb⟩ ⟨ic, jc⟩ ha hb hc ⟨hda, ha1, ha2, hc1, hc2⟩ ⟨hdb, hb1, hb2, -, -⟩
    simp only at ha hb hc hda hdb ha1 ha2 hb1 hb2 hc1 hc2
    simp only [directions, List.mem_cons, Prod.mk.injEq, List.mem_singleton,
      List.not_mem_nil, or_false] at hda hdb
    obtain ⟨hjc0, hic0, hcase⟩ := hL2 ic jc hc
    rcases hcase with hjc | hicm | ⟨hjcm, hicm, hnA, hnB⟩
    · rcases hL0 ia ja ha with hja | ⟨hja0, hia0, hjam, hiam, hAa⟩
      · omega
      · left
        refine ⟨((ia : Int) - 1, (ja : Int) - 1), ?_, ?_, hAa⟩
        · unfold inBounds
          simp only
          omega
        · simp only
          omega
    · obtain ⟨hjb0, hcaseb⟩ := hL1 ib jb hb
      rcases hcaseb with hib | ⟨hib0, hjbm, hibm, hBb⟩
      · omega
      · right
        refine ⟨((ib : Int) - 1, (jb : Int) - 1), ?_, ?_, hBb⟩
        · unfold inBounds
          simp only
          omega
        · simp only
          omega
    · have hcin : inBounds N ((ic : Int) - 1) ((jc : Int) - 1) := by
        unfold inBounds
        omega
      rcases hfull ((ic : Int) - 1, (jc : Int) - 1) hcin with hblue | hred
      · exfalso
        apply hnA
        rcases hL0 ia ja ha with hja | ⟨hja0, hia0, hjam, hiam, hAa⟩
        · exact hA0 _ hcin (by simp only; omega) hblue
        · refine hA ((ia : Int) - 1, (ja : Int) - 1) _ ?_ hcin hAa ?_ hblue
          · unfold inBounds
            simp only
            omega
          · refine ⟨((ic : Int) - ia, (jc : Int) - ja), ?_, ?_⟩
            · simp only [directions, List.mem_cons, Prod.mk.injEq, List.mem_singleton,
                List.not_mem_nil, or_false]
              exact hda
            · simp only [Prod.mk.injEq]
              constructor <;> ring
      · exfalso
        apply hnB
        obtain ⟨hjb0, hcaseb⟩ := hL1 ib jb hb
        rcases hcaseb with hib | ⟨hib0, hjbm, hibm, hBb⟩
        · exact hB0 _ hcin (by simp only; omega) hred
        · refine hB ((ib : Int) - 1, (jb : Int) - 1) _ ?_ hcin hBb ?_ hred
          · unfold inBounds
            simp only
            omega
          · refine ⟨((ic : Int) - ib, (jc : Int) - jb), ?_, ?_⟩
            · simp only [directions, List.mem_cons, Prod.mk.injEq, List.mem_singleton,
                List.not_mem_nil, or_false]
              exact hdb
            · simp only [Prod.mk.injEq]
              constructor <;> ring
  have hR : ∀ (p q : ℕ × ℕ), p.1 ≤ N + 1 → p.2 ≤ N + 1 → q.1 ≤ N + 1 → q.2 ≤ N + 1 →
      ((q.1 : Int) - p.1, (q.2 : Int) - p.2) ∈ directions → R p q :=
    fun p q h1 h2 h3 h4 h5 => ⟨h5, h1, h2, h3, h4⟩
  obtain ⟨i, j, hi, hj, htri⟩ := labelled_triangle (N + 1) (by omega) L
    (by intro i _; simp [L, hexLabel])
    (by
      intro j hj1 _
      have : j ≠ 0 := by omega
      simp [L, hexLabel, this])
    (by
      intro i hi1 _
      have h2 : i ≠ 0 := by omega
      simp [L, hexLabel, h2])
    (by
      intro j hj1 _
      have h2 : j ≠ 0 := by omega
      simp [L, hexLabel, h2])
  have hdir : ∀ a b c d : ℕ, (((c : Int) - a, (d : Int) - b) ∈ directions) ↔
      (((c : Int) - a = -1 ∧ (d : Int) - b = 0) ∨ ((c : Int) - a = -1 ∧ (d : Int) - b = 1) ∨
        ((c : Int) - a = 0 ∧ (d : Int) - b = -1) ∨ ((c : Int) - a = 0 ∧ (d : Int) - b = 1) ∨
        ((c : Int) - a = 1 ∧ (d : Int) - b = -1) ∨ ((c : Int) - a = 1 ∧ (d : Int) - b = 0)) := by
    intro a b c d
    simp only [directions, List.mem_cons, Prod.mk.injEq, List.mem_singleton,
      List.not_mem_nil, or_false]
  rcases htri with h | h
  · obtain ⟨pa, pb, pc, h1, h2, h3, h4, h5⟩ := pick_labels (fun p : ℕ × ℕ => L p.1 p.2) R
      (i, j) (i, j + 1) (i + 1, j)
      (hR _ _ (by simp only; omega) (by simp only; omega) (by simp only; omega)
        (by simp only; omega) ((hdir _ _ _ _).2 (by simp only; push_cast; omega)))
      (hR _ _ (by simp only; omega) (by simp only; omega) (by simp only; omega)
        (by simp only; omega) ((hdir _ _ _ _).2 (by simp only; push_cast; omega)))
      (hR _ _ (by simp only; omega) (by simp only; omega) (by simp only; omega)
        (by simp only; omega) ((hdir _ _ _ _).2 (by simp only; push_cast; omega)))
      (hR _ _ (by simp only; omega) (by simp only; omega) (by simp only; omega)
        (by simp only; omega) ((hdir _ _ _ _).2 (by simp only; push_cast; omega)))
      (hR _ _ (by simp only; omega) (by simp only; omega) (by simp only; omega)
        (by simp only; omega) ((hdir _ _ _ _).2 (by simp only; push_cast; omega)))
      (hR _ _ (by simp only; omega) (by simp only; omega) (by simp only; omega)
        (by simp only; omega) ((hdir _ _ _ _).2 (by simp only; push_cast; omega)))
      h
    exact key pa pb pc h1 h2 h3 h4 h5
  · obtain ⟨pa, pb, pc, h1, h2, h3, h4, h5⟩ := pick_labels (fun p : ℕ × ℕ => L p.1 p.2) R
      (i, j + 1) (i + 1, j) (i + 1, j + 1)
      (hR _ _ (by simp only; omega) (by simp only; omega) (by simp only; omega)
        (by simp only; omega) ((hdir _ _ _ _).2 (by simp only; push_cast; omega)))
      (hR _ _ (by simp only; omega) (by simp only; omega) (by simp only; omega)
        (by simp only; omega) ((hdir _ _ _ _).2 (by simp only; push_cast; omega)))
      (hR _ _ (by simp only; omega) (by simp only; omega) (by simp only; omega)
        (by simp only; omega) ((hdir _ _ _ _).2 (by simp only; push_cast; omega)))
      (hR _ _ (by simp only; omega) (by simp only; omega) (by simp only; omega)
        (by simp only; omega) ((hdir _ _ _ _).2 (by simp only; push_cast; omega)))
      (hR _ _ (by simp only; omega) (by simp only; omega) (by simp only; omega)
        (by simp only; omega) ((hdir _ _ _ _).2 (by simp only; push_cast; omega)))
      (hR _ _ (by simp only; omega) (by simp only; omega) (by simp only; omega)
        (by simp only; omega) ((hdir _ _ _ _).2 (by simp only; push_cast; omega)))
      h
    exact key pa pb pc h1 h2 h3 h4 h5


/-- C13: on a grid of size N ≥ 1 whose cells are all Blue or Red there is a cell at which
`win` returns true. -/
theorem hex_no_draw (g : BoardGraph) (hg : g.WF) (hN : 1 ≤ g.size)
    (hfull : ∀ x y : Int, 0 ≤ x ∧ x < (g.size : Int) ∧ 0 ≤ y ∧ y < (g.size : Int) →
      get2 g.board x y = Except.ok Cell.Blue ∨ get2 g.board x y = Except.ok Cell.Red) :
    ∃ x y : Int, (0 ≤ x ∧ x < (g.size : Int) ∧ 0 ≤ y ∧ y < (g.size : Int)) ∧
      win g x y = Except.ok true := by
  have hcore := hex_core g.size hN
    (fun p => get2 g.board p.1 p.2 = Except.ok Cell.Blue)
    (fun p => get2 g.board p.1 p.2 = Except.ok Cell.Red)
    (fun p => ∃ s : Int × Int, s.2 = 0 ∧ get2 g.board s.1 s.2 = Except.ok Cell.Blue ∧
      connected g Cell.Blue s p)
    (fun p => ∃ s : Int × Int, s.1 = 0 ∧ get2 g.board s.1 s.2 = Except.ok Cell.Red ∧
      connected g Cell.Red s p)
    (fun p hp => hfull p.1 p.2 hp)
    (fun p _ hp0 hblue => ⟨p, hp0, hblue, Relation.ReflTransGen.refl⟩)
    (fun p q _ hq ⟨s, hs0, hsb, hconn⟩ ⟨d, hd, hqd⟩ hblue =>
      ⟨s, hs0, hsb, Relation.ReflTransGen.tail hconn
        ⟨(mem_neighbours g.size p q).2 ⟨d, hd, hqd, hq⟩, hblue⟩⟩)
    (fun p _ hp0 hred => ⟨p, hp0, hred, Relation.ReflTransGen.refl⟩)
    (fun p q _ hq ⟨s, hs0, hsb, hconn⟩ ⟨d, hd, hqd⟩ hred =>
      ⟨s, hs0, hsb, Relation.ReflTransGen.tail hconn
        ⟨(mem_neighbours g.size p q).2 ⟨d, hd, hqd, hq⟩, hred⟩⟩)
  rcases hcore with ⟨p, -, hpe, s, hs0, hsb, hconn⟩ | ⟨p, -, hpe, s, hs0, hsb, hconn⟩
  · have hsin := get2_ok_inBounds hg hsb
    obtain ⟨r, hr, hiff⟩ := win_spec hg hsin hsb
    refine ⟨s.1, s.2, hsin, ?_⟩
    rw [hr, hiff.2 ⟨⟨s, Relation.ReflTransGen.refl, Or.inl ⟨rfl, hs0⟩⟩,
      ⟨p, hconn, Or.inl ⟨rfl, hpe⟩⟩⟩]
  · have hsin := get2_ok_inBounds hg hsb
    obtain ⟨r, hr, hiff⟩ := win_spec hg hsin hsb
    refine ⟨s.1, s.2, hsin, ?_⟩
    rw [hr, hiff.2 ⟨⟨s, Relation.ReflTransGen.refl, Or.inr ⟨rfl, hs0⟩⟩,
      ⟨p, hconn, Or.inr ⟨rfl, hpe⟩⟩⟩]

theorem hex_no_draw_witness :
    (BoardGraph.mk 2 [[Cell.Blue, Cell.Red], [Cell.Red, Cell.Blue]]).WF ∧
    1 ≤ (BoardGraph.mk 2 [[Cell.Blue, Cell.Red], [Cell.Red, Cell.Blue]]).size ∧
    (∀ x y : Int,
      0 ≤ x ∧ x < ((BoardGraph.mk 2 [[Cell.Blue, Cell.Red], [Cell.Red, Cell.Blue]]).size : Int) ∧
        0 ≤ y ∧
        y < ((BoardGraph.mk 2 [[Cell.Blue, Cell.Red], [Cell.Red, Cell.Blue]]).size : Int) →
      get2 (BoardGraph.mk 2 [[Cell.Blue, Cell.Red], [Cell.Red, Cell.Blue]]).board x y =
          Except.ok Cell.Blue ∨
        get2 (BoardGraph.mk 2 [[Cell.Blue, Cell.Red], [Cell.Red, Cell.Blue]]).board x y =
          Except.ok Cell.Red) ∧
    ∃ x y : Int,
      (0 ≤ x ∧ x < ((BoardGraph.mk 2 [[Cell.Blue, Cell.Red], [Cell.Red, Cell.Blue]]).size : Int) ∧
        0 ≤ y ∧
        y < ((BoardGraph.mk 2 [[Cell.Blue, Cell.Red], [Cell.Red, Cell.Blue]]).size : Int)) ∧
      win (BoardGraph.mk 2 [[Cell.Blue, Cell.Red], [Cell.Red, Cell.Blue]]) x y =
        Except.ok true := by
  have hfull : ∀ x y : Int,
      0 ≤ x ∧ x < ((BoardGraph.mk 2 [[Cell.Blue, Cell.Red], [Cell.Red, Cell.Blue]]).size : Int) ∧
        0 ≤ y ∧
        y < ((BoardGraph.mk 2 [[Cell.Blue, Cell.Red], [Cell.Red, Cell.Blue]]).size : Int) →
      get2 (BoardGraph.mk 2 [[Cell.Blue, Cell.Red], [Cell.Red, Cell.Blue]]).board x y =
          Except.ok Cell.Blue ∨
        get2 (BoardGraph.mk 2 [[Cell.Blue, Cell.Red], [Cell.Red, Cell.Blue]]).board x y =
          Except.ok Cell.Red := by
    rintro x y ⟨hx0, hx1, hy0, hy1⟩
    simp only [Nat.cast_ofNat] at hx1 hy1
    have hx : x = 0 ∨ x = 1 := by omega
    have hy : y = 0 ∨ y = 1 := by omega
    rcases hx with rfl | rfl <;> rcases hy with rfl | rfl <;> decide
  exact ⟨by decide, by decide, hfull,
    hex_no_draw (BoardGraph.mk 2 [[Cell.Blue, Cell.Red], [Cell.Red, Cell.Blue]]) (by decide)
      (by decide) hfull⟩

/-! ## Transposition -/

theorem vecGet_map_range {α : Type} (f : Nat → α) (n : Nat) (x : Int) (h0 : 0 ≤ x)
    (h1 : x < (n : Int)) : vecGet ((List.range n).map f) x = Except.ok (f x.toNat) := by
  rw [vecGet_eq_ok_iff]
  refine ⟨h0, ?_⟩
  have hx : x.toNat < n := by omega
  rw [List.getElem?_map, List.getElem?_range hx]
  rfl

theorem transposeSwap_WF (g : BoardGraph) : (transposeSwap g).WF := by
  refine ⟨?_, ?_⟩
  · simp [transposeSwap]
  · intro row hrow
    simp only [transposeSwap, List.mem_map] at hrow
    obtain ⟨i, -, rfl⟩ := hrow
    simp [transposeSwap]

theorem get2_transposeSwap {g : BoardGraph} {x y : Int} (hin : inBounds g.size x y)
    {c : Cell} (hc : get2 g.board y x = Except.ok c) :
    get2 (transposeSwap g).board x y = Except.ok (swapColour c) := by
  obtain ⟨hx0, hx1, hy0, hy1⟩ := hin
  unfold get2
  simp only [transposeSwap]
  rw [vecGet_map_range _ _ x hx0 hx1]
  simp only
  rw [vecGet_map_range _ _ y hy0 hy1, Int.toNat_of_nonneg hx0, Int.toNat_of_nonneg hy0, hc]

theorem directions_swap : ∀ d ∈ directions, d.swap ∈ directions := by decide

theorem neighbours_swap {n : Nat} {p q : Int × Int} (h : q ∈ neighbours n p) :
    q.swap ∈ neighbours n p.swap := by
  rw [mem_neighbours] at h ⊢
  obtain ⟨d, hd, hq, h0, h1, h2, h3⟩ := h
  refine ⟨d.swap, directions_swap d hd, ?_, h2, h3, h0, h1⟩
  rw [hq]
  rfl

theorem swapColour_injective {a b : Cell} (h : swapColour a = swapColour b) : a = b := by
  cases a <;> cases b <;> first | rfl | cases h

theorem link_swap {g : BoardGraph} {side : Cell} {p q : Int × Int} (h : link g side p q) :
    link (transposeSwap g) (swapColour side) p.swap q.swap := by
  obtain ⟨hn, hc⟩ := h
  refine ⟨neighbours_swap hn, ?_⟩
  obtain ⟨-, -, -, hin⟩ := (mem_neighbours g.size p q).1 hn
  obtain ⟨h0, h1, h2, h3⟩ := hin
  exact get2_transposeSwap (x := q.2) (y := q.1) ⟨h2, h3, h0, h1⟩ hc

theorem link_unswap {g : BoardGraph} (hg : g.WF) {side : Cell} {p q : Int × Int}
    (h : link (transposeSwap g) (swapColour side) p q) : link g side p.swap q.swap := by
  obtain ⟨hn, hc⟩ := h
  have hn2 : q.swap ∈ neighbours g.size p.swap := neighbours_swap hn
  refine ⟨hn2, ?_⟩
  obtain ⟨-, -, -, hin⟩ := (mem_neighbours g.size p q).1 hn
  obtain ⟨h0, h1, h2, h3⟩ := hin
  obtain ⟨c, hcell⟩ := get2_total hg (show inBounds g.size q.2 q.1 from ⟨h2, h3, h0, h1⟩)
  have h4 := get2_transposeSwap (x := q.1) (y := q.2) ⟨h0, h1, h2, h3⟩ hcell
  rw [hc] at h4
  have heq : swapColour side = swapColour c := Except.ok.inj h4
  rw [swapColour_injective heq]
  exact hcell

theorem connected_swap {g : BoardGraph} (hg : g.WF) (side : Cell) (p q : Int × Int) :
    connected g side p q ↔ connected (transposeSwap g) (swapColour side) p.swap q.swap := by
  constructor
  · intro h
    exact Relation.ReflTransGen.lift Prod.swap (fun _ _ hl => link_swap hl) h
  · intro h
    have h2 := Relation.ReflTransGen.lift (r := link (transposeSwap g) (swapColour side))
      (p := link g side) Prod.swap (fun _ _ hl => link_unswap hg hl) h
    simpa using h2

theorem onFirstEdge_swap (side : Cell) (p : Int × Int) :
    onFirstEdge (swapColour side) p.swap ↔ onFirstEdge side p := by
  unfold onFirstEdge
  cases side <;> simp [swapColour]

theorem onSecondEdge_swap (n : Nat) (side : Cell) (p : Int × Int) :
    onSecondEdge n (swapColour side) p.swap ↔ onSecondEdge n side p := by
  unfold onSecondEdge
  cases side <;> simp [swapColour]

/-- C20: for a grid `g` of size N and an in-bounds `(x, y)`, `win` on `g` at `(x, y)` and
`win` at `(y, x)` on the grid obtained by transposing `g` and swapping Blue and Red give
the same result. -/
theorem win_transposeSwap (g : BoardGraph) (hg : g.WF) (x y : Int)
    (hin : 0 ≤ x ∧ x < (g.size : Int) ∧ 0 ≤ y ∧ y < (g.size : Int)) :
    win g x y = win (transposeSwap g) y x := by
  obtain ⟨hx0, hx1, hy0, hy1⟩ := hin
  have hin1 : inBounds g.size x y := ⟨hx0, hx1, hy0, hy1⟩
  have hin2 : inBounds (transposeSwap g).size y x := ⟨hy0, hy1, hx0, hx1⟩
  obtain ⟨c, hc⟩ := get2_total hg hin1
  have hc2 := get2_transposeSwap (g := g) (x := y) (y := x) ⟨hy0, hy1, hx0, hx1⟩ hc
  obtain ⟨r1, hr1, hiff1⟩ := win_spec hg hin1 hc
  obtain ⟨r2, hr2, hiff2⟩ := win_spec (transposeSwap_WF g) hin2 hc2
  rw [hr1, hr2]
  congr 1
  rw [Bool.eq_iff_iff, hiff1, hiff2]
  have e1 : (∃ p, connected g c (x, y) p ∧ onFirstEdge c p) ↔
      ∃ p, connected (transposeSwap g) (swapColour c) (y, x) p ∧
        onFirstEdge (swapColour c) p := by
    constructor
    · rintro ⟨p, hp, he⟩
      exact ⟨p.swap, (connected_swap hg c (x, y) p).1 hp, (onFirstEdge_swap c p).2 he⟩
    · rintro ⟨p, hp, he⟩
      refine ⟨p.swap, (connected_swap hg c (x, y) p.swap).2 (by simpa using hp), ?_⟩
      have := (onFirstEdge_swap c p.swap).1 (by simpa using he)
      exact this
  have e2 : (∃ p, connected g c (x, y) p ∧ onSecondEdge g.size c p) ↔
      ∃ p, connected (transposeSwap g) (swapColour c) (y, x) p ∧
        onSecondEdge (transposeSwap g).size (swapColour c) p := by
    constructor
    · rintro ⟨p, hp, he⟩
      exact ⟨p.swap, (connected_swap hg c (x, y) p).1 hp, (onSecondEdge_swap g.size c p).2 he⟩
    · rintro ⟨p, hp, he⟩
      refine ⟨p.swap, (connected_swap hg c (x, y) p.swap).2 (by simpa using hp), ?_⟩
      have := (onSecondEdge_swap g.size c p.swap).1 (by simpa using he)
      exact this
  rw [e1, e2]

theorem win_transposeSwap_witness :
    (BoardGraph.mk 2 [[Cell.Blue, Cell.Blue], [Cell.Red, Cell.Blank]]).WF ∧
    (0 ≤ (0 : Int) ∧
      (0 : Int) < ((BoardGraph.mk 2 [[Cell.Blue, Cell.Blue], [Cell.Red, Cell.Blank]]).size : Int) ∧
      0 ≤ (1 : Int) ∧
      (1 : Int) < ((BoardGraph.mk 2 [[Cell.Blue, Cell.Blue], [Cell.Red, Cell.Blank]]).size : Int)) ∧
    win (BoardGraph.mk 2 [[Cell.Blue, Cell.Blue], [Cell.Red, Cell.Blank]]) 0 1 =
      win (transposeSwap (BoardGraph.mk 2 [[Cell.Blue, Cell.Blue], [Cell.Red, Cell.Blank]])) 1 0 :=
  ⟨by decide, by decide,
    win_transposeSwap (BoardGraph.mk 2 [[Cell.Blue, Cell.Blue], [Cell.Red, Cell.Blank]])
      (by decide) 0 1 (by decide)⟩

/-! ## The cells dequeued by `win` -/

/-- The cells that one run of the direction loop of `win` queues are distinct and were
unmarked before it. -/
theorem dirLoop_fresh {g : BoardGraph} (hg : g.WF) (side : Cell) (top : Int × Int) :
    ∀ (ds : List (Int × Int)) (vis : List (List Bool)) (_ : Square g.size vis)
      (Q : List (Int × Int)),
    ∃ vis2 added, loopM (winStep g side top) (vis, Q) ds = Except.ok (vis2, Q ++ added) ∧
      added.Nodup ∧ ∀ q ∈ added, ¬ visitedAt vis q := by
  intro ds
  induction ds with
  | nil =>
    intro vis _ Q
    refine ⟨vis, [], ?_, List.nodup_nil, fun q hq => absurd hq (List.not_mem_nil q)⟩
    rw [List.append_nil]
    rfl
  | cons d ds ih =>
    intro vis hv Q
    rcases winStep_spec hg side top hv Q d with
      ⟨hin, hcol, hnv, vis1, hstep, hsq1, hvis1⟩ | ⟨hstep, -⟩
    · obtain ⟨vis2, added, hloop, hnd, hfresh⟩ :=
        ih vis1 hsq1 (Q ++ [(top.1 + d.1, top.2 + d.2)])
      refine ⟨vis2, (top.1 + d.1, top.2 + d.2) :: added, ?_, ?_, ?_⟩
      · unfold loopM
        rw [hstep]
        simp only
        rw [hloop, List.append_assoc]
        rfl
      · refine List.nodup_cons.2 ⟨?_, hnd⟩
        intro hmem
        exact hfresh _ hmem ((hvis1 _).2 (Or.inr rfl))
      · intro q hq
        rcases List.mem_cons.1 hq with rfl | hq
        · exact hnv
        · intro hvq
          exact hfresh q hq ((hvis1 q).2 (Or.inl hvq))
    · obtain ⟨vis2, added, hloop, hnd, hfresh⟩ := ih vis hv Q
      refine ⟨vis2, added, ?_, hnd, hfresh⟩
      unfold loopM
      rw [hstep]
      simp only
      exact hloop

/-- The `while` loop of `win`, run on distinct queued cells that are all marked, ends
within as many iterations as there are unmarked and queued cells; the cells it dequeues
are distinct, and each was queued at the start or was an unmarked cell of the board. -/
theorem winTrace_spec {g : BoardGraph} (hg : g.WF) (side : Cell) :
    ∀ (fuel : Nat) (vis : List (List Bool)) (Q : List (Int × Int)),
    Square g.size vis → (∀ p ∈ Q, visitedAt vis p) → Q.Nodup →
    (unvisited g.size vis).card + Q.length ≤ fuel →
    ∃ tr, winTrace g side fuel vis Q = Except.ok tr ∧ tr.Nodup ∧
      tr.length ≤ (unvisited g.size vis).card + Q.length ∧
      ∀ p ∈ tr, p ∈ Q ∨ (¬ visitedAt vis p ∧ inBounds g.size p.1 p.2) := by
  intro fuel
  induction fuel with
  | zero =>
    intro vis Q _ _ _ hfuel
    cases Q with
    | nil =>
      exact ⟨[], rfl, List.nodup_nil, Nat.zero_le _, fun p hp => absurd hp (List.not_mem_nil p)⟩
    | cons top rest => simp at hfuel
  | succ fuel ih =>
    intro vis Q hsq hQ hnd hfuel
    cases Q with
    | nil =>
      exact ⟨[], rfl, List.nodup_nil, Nat.zero_le _, fun p hp => absurd hp (List.not_mem_nil p)⟩
    | cons top rest =>
      obtain ⟨vis2, added, hloop, hsq2, hvis2, hadded, -, hcard⟩ :=
        dirLoop_spec hg side top directions vis hsq rest
      obtain ⟨vis3, added3, hloop3, hnd3, hfresh3⟩ :=
        dirLoop_fresh hg side top directions vis hsq rest
      rw [hloop] at hloop3
      have heq : added = added3 := by
        have h1 := Except.ok.inj hloop3
        have h2 := (Prod.mk.inj h1).2
        exact List.append_cancel_left h2
      subst heq
      have htop : visitedAt vis top := hQ top (List.mem_cons_self _ _)
      have hrest : ∀ p ∈ rest, visitedAt vis p :=
        fun p hp => hQ p (List.mem_cons_of_mem _ hp)
      obtain ⟨htopn, hrestnd⟩ := List.nodup_cons.1 hnd
      rw [List.length_cons] at hfuel
      obtain ⟨tr, htr, htrnd, htrlen, htrmem⟩ := ih vis2 (rest ++ added) hsq2
        (by
          intro p hp
          rcases List.mem_append.1 hp with h | h
          · exact (hvis2 p).2 (Or.inl (hrest p h))
          · exact (hvis2 p).2 (Or.inr h))
        (by
          refine List.nodup_append.2 ⟨hrestnd, hnd3, ?_⟩
          intro p hp1 hp2
          exact hfresh3 p hp2 (hrest p hp1))
        (by rw [List.length_append]; omega)
      refine ⟨top :: tr, ?_, ?_, ?_, ?_⟩
      · rw [winTrace, hloop]
        simp only
        rw [htr]
      · refine List.nodup_cons.2 ⟨?_, htrnd⟩
        intro hmem
        rcases htrmem top hmem with h | ⟨h, -⟩
        · rcases List.mem_append.1 h with h | h
          · exact htopn h
          · exact hfresh3 top h htop
        · exact h ((hvis2 top).2 (Or.inl htop))
      · rw [List.length_cons, List.length_cons]
        rw [List.length_append] at htrlen
        omega
      · intro p hp
        rcases List.mem_cons.1 hp with rfl | hp
        · exact Or.inl (List.mem_cons_self _ _)
        · rcases htrmem p hp with h | ⟨h, hin⟩
          · rcases List.mem_append.1 h with h | h
            · exact Or.inl (List.mem_cons_of_mem _ h)
            · obtain ⟨d, -, -, hin, -⟩ := hadded p h
              exact Or.inr ⟨hfresh3 p h, hin⟩
          · exact Or.inr ⟨fun hv => h ((hvis2 p).2 (Or.inl hv)), hin⟩

/-- The loop of `winLoop` and the loop of `winTrace` are the same loop: the flags that
`winLoop` returns are those that `checkBorders` sets on the dequeued cells, in order. -/
theorem winLoop_eq_trace (g : BoardGraph) (side : Cell) :
    ∀ (fuel : Nat) (flags : Bool × Bool) (vis : List (List Bool)) (Q : List (Int × Int)),
    winLoop g side fuel flags vis Q =
      match winTrace g side fuel vis Q with
      | Except.error e => Except.error e
      | Except.ok tr =>
        Except.ok (tr.foldl (fun f p => checkBorders g p.1 p.2 f side) flags) := by
  intro fuel
  induction fuel with
  | zero =>
    intro flags vis Q
    cases Q <;> rfl
  | succ fuel ih =>
    intro flags vis Q
    cases Q with
    | nil => rfl
    | cons top rest =>
      rw [winLoop, winTrace]
      cases hloop : loopM (winStep g side top) (vis, rest) directions with
      | error e => rfl
      | ok st =>
        simp only
        rw [ih]
        cases winTrace g side fuel st.1 st.2 with
        | error e => rfl
        | ok tr => rfl

/-- The `visited` table with which `win` enters its loop: only the start is marked. -/
theorem initial_visited {n : Nat} {x y : Int} (hin : inBounds n x y) :
    ∃ vis, set2 (List.replicate n (List.replicate n false)) x y true = Except.ok vis ∧
      Square n vis ∧ visitedAt vis (x, y) ∧ (unvisited n vis).card + 1 ≤ n * n := by
  obtain ⟨vis, hset, hsq, hget, hother⟩ := set2_spec (square_replicate n false) hin true
  refine ⟨vis, hset, hsq, hget, ?_⟩
  have hnone : ∀ p, ¬ visitedAt (List.replicate n (List.replicate n false)) p := by
    intro p hp
    have hpin := visitedAt_inBounds (square_replicate n false) hp
    unfold visitedAt at hp
    rw [get2_replicate false hpin] at hp
    cases hp
  have hvis : ∀ p, visitedAt vis p ↔
      visitedAt (List.replicate n (List.replicate n false)) p ∨ p = (x, y) := by
    intro p
    by_cases hp : p = (x, y)
    · subst hp
      simp only [or_true, iff_true]
      exact hget
    · unfold visitedAt
      rw [hother p.1 p.2 hp]
      simp only [hp, or_false]
  have hcard := card_unvisited_mark (p := (x, y)) hin (hnone _) hvis
  have hle : (unvisited n (List.replicate n (List.replicate n false))).card ≤ n * n := by
    rw [← card_boardCells]
    exact Finset.card_le_card (Finset.filter_subset _ _)
  omega

/-- C16: on a grid of size N ≥ 1, `win(x, y)` at an in-bounds coordinate ends without an
out-of-range access, within `N * N` iterations of its loop; the cells `tr` it takes off
the queue, from which its result is computed, are distinct cells of the board, so no cell
is queued twice and there are at most `N * N` of them. -/
theorem win_total_bounded (g : BoardGraph) (hg : g.WF) (_hN : 1 ≤ g.size) (x y : Int)
    (hin : 0 ≤ x ∧ x < (g.size : Int) ∧ 0 ≤ y ∧ y < (g.size : Int)) :
    ∃ (side : Cell) (visited : List (List Bool)) (r : Bool) (tr : List (Int × Int)),
      get2 g.board x y = Except.ok side ∧
      set2 (List.replicate g.size (List.replicate g.size false)) x y true =
        Except.ok visited ∧
      win g x y = Except.ok r ∧
      winTrace g side (g.size * g.size) visited [(x, y)] = Except.ok tr ∧
      r = ((tr.foldl (fun f p => checkBorders g p.1 p.2 f side) (false, false)).1 &&
        (tr.foldl (fun f p => checkBorders g p.1 p.2 f side) (false, false)).2) ∧
      tr.Nodup ∧ tr.length ≤ g.size * g.size ∧
      ∀ p ∈ tr, 0 ≤ p.1 ∧ p.1 < (g.size : Int) ∧ 0 ≤ p.2 ∧ p.2 < (g.size : Int) := by
  obtain ⟨side, hside⟩ := get2_total hg (show inBounds g.size x y from hin)
  obtain ⟨r, hr, -⟩ := win_spec hg (show inBounds g.size x y from hin) hside
  obtain ⟨vis, hset, hsq, hstart, hcard⟩ := initial_visited (n := g.size) (x := x) (y := y) hin
  obtain ⟨tr, htr, hnd, hlen, hmem⟩ := winTrace_spec hg side (g.size * g.size) vis [(x, y)] hsq
    (by
      intro p hp
      rw [List.mem_singleton.1 hp]
      exact hstart)
    (List.nodup_singleton _)
    (by rw [List.length_singleton]; exact hcard)
  refine ⟨side, vis, r, tr, hside, hset, hr, htr, ?_, hnd, ?_, ?_⟩
  · unfold win at hr
    rw [hside] at hr
    simp only at hr
    rw [hset] at hr
    simp only at hr
    rw [winLoop_eq_trace, htr] at hr
    simp only at hr
    exact (Except.ok.inj hr).symm
  · rw [List.length_singleton] at hlen
    omega
  · intro p hp
    rcases hmem p hp with h | ⟨-, h⟩
    · rw [List.mem_singleton.1 h]
      exact hin
    · exact h

theorem win_total_bounded_witness :
    (BoardGraph.mk 2 [[Cell.Blue, Cell.Blue], [Cell.Red, Cell.Blank]]).WF ∧
    1 ≤ (BoardGraph.mk 2 [[Cell.Blue, Cell.Blue], [Cell.Red, Cell.Blank]]).size ∧
    (0 ≤ (0 : Int) ∧
      (0 : Int) < ((BoardGraph.mk 2 [[Cell.Blue, Cell.Blue], [Cell.Red, Cell.Blank]]).size : Int) ∧
      0 ≤ (0 : Int) ∧
      (0 : Int) < ((BoardGraph.mk 2 [[Cell.Blue, Cell.Blue], [Cell.Red, Cell.Blank]]).size : Int)) ∧
    ∃ (side : Cell) (visited : List (List Bool)) (r : Bool) (tr : List (Int × Int)),
      get2 (BoardGraph.mk 2 [[Cell.Blue, Cell.Blue], [Cell.Red, Cell.Blank]]).board 0 0 =
        Except.ok side ∧
      set2 (List.replicate (BoardGraph.mk 2 [[Cell.Blue, Cell.Blue], [Cell.Red, Cell.Blank]]).size
          (List.replicate (BoardGraph.mk 2 [[Cell.Blue, Cell.Blue], [Cell.Red, Cell.Blank]]).size
            false)) 0 0 true = Except.ok visited ∧
      win (BoardGraph.mk 2 [[Cell.Blue, Cell.Blue], [Cell.Red, Cell.Blank]]) 0 0 = Except.ok r ∧
      winTrace (BoardGraph.mk 2 [[Cell.Blue, Cell.Blue], [Cell.Red, Cell.Blank]]) side
        ((BoardGraph.mk 2 [[Cell.Blue, Cell.Blue], [Cell.Red, Cell.Blank]]).size *
          (BoardGraph.mk 2 [[Cell.Blue, Cell.Blue], [Cell.Red, Cell.Blank]]).size)
        visited [(0, 0)] = Except.ok tr ∧
      r = ((tr.foldl (fun f p => checkBorders
            (BoardGraph.mk 2 [[Cell.Blue, Cell.Blue], [Cell.Red, Cell.Blank]]) p.1 p.2 f side)
          (false, false)).1 &&
        (tr.foldl (fun f p => checkBorders
            (BoardGraph.mk 2 [[Cell.Blue, Cell.Blue], [Cell.Red, Cell.Blank]]) p.1 p.2 f side)
          (false, false)).2) ∧
      tr.Nodup ∧
      tr.length ≤ (BoardGraph.mk 2 [[Cell.Blue, Cell.Blue], [Cell.Red, Cell.Blank]]).size *
        (BoardGraph.mk 2 [[Cell.Blue, Cell.Blue], [Cell.Red, Cell.Blank]]).size ∧
      ∀ p ∈ tr, 0 ≤ p.1 ∧
        p.1 < ((BoardGraph.mk 2 [[Cell.Blue, Cell.Blue], [Cell.Red, Cell.Blank]]).size : Int) ∧
        0 ≤ p.2 ∧
        p.2 < ((BoardGraph.mk 2 [[Cell.Blue, Cell.Blue], [Cell.Red, Cell.Blank]]).size : Int) :=
  ⟨by decide, by decide, by decide,
    win_total_bounded (BoardGraph.mk 2 [[Cell.Blue, Cell.Blue], [Cell.Red, Cell.Blank]])
      (by decide) (by decide) 0 0 (by decide)⟩

end Hex
